import Mathlib

/-! MangoEditor: text buffer, undo engine and syntax highlighter

A shallow embedding of `src/editor_core.cpp` (`EditorCore`), of
`src/syntax/highlighter.cpp` (`SyntaxHighlighter`), of the recent files of
`src/utilities/settings.cpp` (`SettingsManager`) and of the version check of
`src/plugins/manager.cpp` (`PluginManager`), followed by theorems about
them.

Conventions of the embedding
* `QString` is a list of characters; `int` is `Int`.
* The Qt containers are lists; `operator[]` outside the container's range
  is undefined behaviour in Qt and is `none` here.
* Qt library functions whose result the code only passes on are parameters
  of the definitions that call them: `qHash` for the fingerprints, `engine`
  for the compilation of a regular expression, `globalMatch` for the
  iteration over its matches, `sameColor` for the comparison of two
  colours. The file collaborator (`FileIO`) is a parameter too.
* The clock read by `insertText` is an argument (`now`).
* Signals emitted by the objects are appended to a log, oldest first;
  diagnostics written with `qWarning`/`qInfo` are not part of the state.
-/

namespace MangoEditor

/-! ## Qt value types -/

abbrev QString := List Char

/-- Qt `QString::insert(position, str)` for `0 ≤ position ≤ size()`, the only
way `insertText` calls it. -/
def QString.insert (s : QString) (position : Int) (str : QString) : QString :=
  s.take position.toNat ++ str ++ s.drop position.toNat

/-- Qt `QString::replace(position, n, after)`: nothing happens when `position`
is outside `[0, size()]`; `n` is cut at the end of the string. -/
def QString.replace (s : QString) (position n : Int) (after : QString) : QString :=
  if position < 0 ∨ position > (s.length : Int) then s
  else
    let len := if n > (s.length : Int) - position then (s.length : Int) - position else n
    s.take position.toNat ++ after ++ s.drop (position + len).toNat

/-- Qt `QString::mid(position, n)` for `0 ≤ position`, `0 ≤ n`. -/
def QString.mid (s : QString) (position n : Nat) : QString :=
  (s.drop position).take n

/-- Qt `QHash<int, T>` as an association list; a key occurs at most once. -/
abbrev QHash (α : Type) := List (Int × α)

/-- Qt `QHash::value(key)`, `none` when the key is absent. -/
def QHash.value {α : Type} : QHash α → Int → Option α
  | [], _ => none
  | (k, v) :: rest, key => if k = key then some v else QHash.value rest key

/-- The assignment `hash[key] = value`: replaces the entry of `key` or adds one. -/
def QHash.assign {α : Type} : QHash α → Int → α → QHash α
  | [], key, value => [(key, value)]
  | (k, v) :: rest, key, value =>
      if k = key then (k, value) :: rest else (k, v) :: QHash.assign rest key value

/-- Qt `QVector::truncate(pos)`. -/
def QVector.truncate {α : Type} (v : List α) (pos : Int) : List α :=
  if pos < (v.length : Int) then v.take pos.toNat else v

/-- The narrowing of a `qint64` to a 32-bit `int`. -/
def toInt32 (x : Int) : Int :=
  (x + 2147483648) % 4294967296 - 2147483648

/-! ## Data model of `editor_core.h` -/

/-- Structure `EditorCore::CursorPosition`. -/
structure CursorPosition where
  line : Int
  column : Int
  deriving DecidableEq, Repr

/-- An atomic edit: at `position`, `oldText` gives way to `newText`. -/
structure TextChange where
  position : CursorPosition
  oldText : QString
  newText : QString
  timestamp : Int
  deriving DecidableEq, Repr

/-- Structure `EditorCore::UndoStack::ComplexEditAction`. -/
structure ComplexEditAction where
  changes : List TextChange
  description : QString
  timestamp : Int
  deriving DecidableEq, Repr

/-- Class `EditorCore::UndoStack`. -/
structure UndoStack where
  stack : List ComplexEditAction
  index : Int
  inMacro : Bool
  currentMacro : ComplexEditAction
  deriving DecidableEq, Repr

/-- Class `EditorCore::MacroRecorder`. -/
structure MacroRecorder where
  changes : List TextChange
  isRecording : Bool
  deriving DecidableEq, Repr

/-- Class `EditorCore::DocumentBuffer`. -/
structure DocumentBuffer where
  lines : List QString
  encoding : QString
  lineHashes : QHash Nat
  deriving DecidableEq, Repr

/-- The signals of `EditorCore` that the modelled operations emit. -/
inductive Signal where
  | textChanged
  | fileLoaded (filePath : QString)
  | fileSaved (filePath : QString)
  | modificationChanged (modified : Bool)
  | cursorPositionChanged (line column : Int)
  | languageChanged (language : QString)
  deriving DecidableEq, Repr

/-- The state of an `EditorCore` object. `emitted` is the log of emitted
signals and `highlightPasses` counts the calls of
`m_highlighter->highlightBuffer` made by the slot that `connectSignals`
attaches to `textChanged`. -/
structure EditorCore where
  m_buffer : DocumentBuffer
  m_undoStack : UndoStack
  m_macroRecorder : MacroRecorder
  m_currentFile : QString
  m_modified : Bool
  m_bulkOperation : Bool
  emitted : List Signal
  highlightPasses : Nat
  deriving DecidableEq, Repr

/-- Method `DocumentBuffer::updateHash(line)`. Every caller has `line` inside
`lines` (outside it `lines[line]` is undefined in Qt, and nothing is done
here). -/
def DocumentBuffer.updateHash (qHash : QString → Nat) (b : DocumentBuffer) (line : Int) :
    DocumentBuffer :=
  if line < 0 then b
  else
    match b.lines.get? line.toNat with
    | none => b
    | some text => { b with lineHashes := QHash.assign b.lineHashes line (qHash text) }

/-- Method `MacroRecorder::record`. -/
def MacroRecorder.record (m : MacroRecorder) (change : TextChange) : MacroRecorder :=
  if m.isRecording then { m with changes := m.changes ++ [change] } else m

/-- The state built by the constructor: one empty line, its fingerprint, an
empty undo stack. -/
def EditorCore.init (qHash : QString → Nat) : EditorCore :=
  { m_buffer := { lines := [[]], encoding := "UTF-8".toList, lineHashes := [(0, qHash [])] }
    m_undoStack :=
      { stack := [], index := -1, inMacro := false
        currentMacro := { changes := [], description := [], timestamp := 0 } }
    m_macroRecorder := { changes := [], isRecording := false }
    m_currentFile := []
    m_modified := false
    m_bulkOperation := false
    emitted := []
    highlightPasses := 0 }

/-- Modelled from the spec: `EditorCore::lineCount` has no body in the
sources; a pure read of the number of lines (§4.1). -/
def EditorCore.lineCount (s : EditorCore) : Int := (s.m_buffer.lines.length : Int)

/-- Emission of a signal other than `textChanged` (no slot of the object is
attached to it). -/
def EditorCore.emit (s : EditorCore) (sig : Signal) : EditorCore :=
  { s with emitted := s.emitted ++ [sig] }

/-- Emission of `textChanged`, with the slot of `connectSignals`: the buffer
is highlighted unless a bulk operation is active. -/
def EditorCore.emitTextChanged (s : EditorCore) : EditorCore :=
  { s with
    emitted := s.emitted ++ [Signal.textChanged]
    highlightPasses := if s.m_bulkOperation then s.highlightPasses else s.highlightPasses + 1 }

/-- Modelled from the spec: `EditorCore::canUndo` is declared in
editor_core.h and has no body in the sources; undo has nothing to do exactly
when `index == -1` (§4.2). -/
def EditorCore.canUndo (s : EditorCore) : Bool :=
  decide (s.m_undoStack.index ≠ -1)

/-- Modelled from the spec: `EditorCore::canRedo` has no body in the sources;
"redo is possible only while `index < stack.length - 1`" (§3). -/
def EditorCore.canRedo (s : EditorCore) : Bool :=
  decide (s.m_undoStack.index < (s.m_undoStack.stack.length : Int) - 1)

/-- Modelled from the spec: `EditorCore::beginBulkOperation` has no body in
the sources; the suppression switch is a single boolean flag (§4.4, §9). -/
def EditorCore.beginBulkOperation (s : EditorCore) : EditorCore :=
  { s with m_bulkOperation := true }

/-- Modelled from the spec: `EditorCore::endBulkOperation` has no body in the
sources; when the flag goes from active to inactive one aggregate change
notification fires, with its one highlight pass (§4.4). -/
def EditorCore.endBulkOperation (s : EditorCore) : EditorCore :=
  if s.m_bulkOperation then EditorCore.emitTextChanged { s with m_bulkOperation := false }
  else s

/-- The text of line `line`, empty outside the document. -/
def EditorCore.lineText (s : EditorCore) (line : Int) : QString :=
  if line < 0 then [] else s.m_buffer.lines.getD line.toNat []

/-- A position that the guards of `insertText` let through: the line exists
and the column is inside it or at its end. -/
def EditorCore.validPosition (s : EditorCore) (line column : Int) : Prop :=
  0 ≤ line ∧ line < s.lineCount ∧ 0 ≤ column ∧ column ≤ ((s.lineText line).length : Int)

instance (s : EditorCore) (line column : Int) : Decidable (s.validPosition line column) :=
  inferInstanceAs (Decidable (0 ≤ line ∧ line < s.lineCount ∧ 0 ≤ column ∧
    column ≤ ((s.lineText line).length : Int)))

/-- The part of `insertText` and of `deleteText` that enters a change in the
change log: the pending macro action inside a macro, else a new
single-change action after truncation of the redo history. -/
def UndoStack.record (u : UndoStack) (change : TextChange) (now : Int) : UndoStack :=
  if u.inMacro then
    { u with currentMacro := { u.currentMacro with changes := u.currentMacro.changes ++ [change] } }
  else
    let action : ComplexEditAction := { changes := [change], description := [], timestamp := now }
    { u with
      stack := QVector.truncate u.stack (u.index + 1) ++ [action]
      index := u.index + 1 }

/-- Method `EditorCore::insertText(line, column, text)`; `now` is the clock. -/
def EditorCore.insertText (qHash : QString → Nat) (s : EditorCore) (line column : Int)
    (text : QString) (now : Int) : EditorCore :=
  if line < 0 ∨ line ≥ (s.m_buffer.lines.length : Int) then s
  else
    match s.m_buffer.lines.get? line.toNat with
    | none => s
    | some currentLine =>
      if column < 0 ∨ column > (currentLine.length : Int) then s
      else
        let change : TextChange :=
          { position := { line := line, column := column }
            oldText := [], newText := text, timestamp := toInt32 now }
        let undoStack := s.m_undoStack.record change now
        let recorder := s.m_macroRecorder.record change
        let newLine := QString.insert currentLine column text
        let buffer : DocumentBuffer :=
          DocumentBuffer.updateHash qHash
            { s.m_buffer with lines := s.m_buffer.lines.set line.toNat newLine } line
        let s1 : EditorCore :=
          { s with m_buffer := buffer, m_undoStack := undoStack, m_macroRecorder := recorder,
                   m_modified := true }
        if s1.m_bulkOperation then s1
        else
          ((s1.emitTextChanged).emit (Signal.modificationChanged true)).emit
            (Signal.cursorPositionChanged line (column + (text.length : Int)))

/-- One iteration of the loop of `undo`: the new text of the change is
overwritten with its old text and the fingerprint of the line is refreshed.
`none` when `lines[change.position.line]` is out of range. -/
def revertChange (qHash : QString → Nat) (b : DocumentBuffer) (change : TextChange) :
    Option DocumentBuffer :=
  if change.position.line < 0 then none
  else
    match b.lines.get? change.position.line.toNat with
    | none => none
    | some line =>
      let newLine := QString.replace line change.position.column
        (change.newText.length : Int) change.oldText
      some (DocumentBuffer.updateHash qHash
        { b with lines := b.lines.set change.position.line.toNat newLine } change.position.line)

/-- The loop of `undo` over `action.changes`, in the order of the vector. -/
def revertChanges (qHash : QString → Nat) (b : DocumentBuffer) :
    List TextChange → Option DocumentBuffer
  | [] => some b
  | change :: rest =>
    match revertChange qHash b change with
    | none => none
    | some b1 => revertChanges qHash b1 rest

/-- Method `EditorCore::undo()`; `none` when `stack[index]` or a line is out of range. -/
def EditorCore.undo (qHash : QString → Nat) (s : EditorCore) : Option EditorCore :=
  if !s.canUndo then some s
  else
    match (if s.m_undoStack.index < 0 then none
           else s.m_undoStack.stack.get? s.m_undoStack.index.toNat) with
    | none => none
    | some action =>
      let s1 : EditorCore :=
        { s with m_undoStack := { s.m_undoStack with index := s.m_undoStack.index - 1 } }
      let s2 := s1.beginBulkOperation
      match revertChanges qHash s2.m_buffer action.changes with
      | none => none
      | some buffer =>
        let s3 : EditorCore := { s2 with m_buffer := buffer }
        some (s3.endBulkOperation.emit (Signal.modificationChanged true))

/-- Calls of `undo()`, `n` in a row; `none` as soon as one call is undefined. -/
def EditorCore.undoN (qHash : QString → Nat) : Nat → EditorCore → Option EditorCore
  | 0, s => some s
  | n + 1, s => (EditorCore.undoN qHash n s).bind (EditorCore.undo qHash)

/-! ## Operations declared in `editor_core.h` whose bodies are not in the sources -/

/-- The comparison `start ≤ end` of two positions, line first. -/
def CursorPosition.le (a b : CursorPosition) : Prop :=
  a.line < b.line ∨ (a.line = b.line ∧ a.column ≤ b.column)

instance (a b : CursorPosition) : Decidable (CursorPosition.le a b) :=
  inferInstanceAs (Decidable (a.line < b.line ∨ (a.line = b.line ∧ a.column ≤ b.column)))

/-- The range that `deleteText` accepts: both ends are valid positions and
the start is not after the end. -/
def EditorCore.validRange (s : EditorCore) (startLine startCol endLine endCol : Int) : Prop :=
  s.validPosition startLine startCol ∧ s.validPosition endLine endCol ∧
    CursorPosition.le ⟨startLine, startCol⟩ ⟨endLine, endCol⟩

instance (s : EditorCore) (a b c d : Int) : Decidable (s.validRange a b c d) :=
  inferInstanceAs (Decidable (s.validPosition a b ∧ s.validPosition c d ∧
    CursorPosition.le ⟨a, b⟩ ⟨c, d⟩))

/-- Modelled from the spec: `EditorCore::getText` has no body in the sources;
the text between two positions (§4.1 `text(startPos,endPos)`), the lines it
spans joined with `\n` as `saveFile` joins them. -/
def EditorCore.getText (s : EditorCore) (startLine startCol endLine endCol : Int) : QString :=
  if startLine = endLine then
    QString.mid (s.lineText startLine) startCol.toNat (endCol - startCol).toNat
  else
    (s.lineText startLine).drop startCol.toNat ++
      (((s.m_buffer.lines.take endLine.toNat).drop (startLine.toNat + 1)).map
        (fun l => '\n' :: l)).flatten ++
      '\n' :: (s.lineText endLine).take endCol.toNat

/-- All fingerprints computed afresh, as `loadFile` does after
`lineHashes.clear()`: `updateHash(i)` for `i = from, from + 1, ...`. -/
def rehashFrom (qHash : QString → Nat) (b : DocumentBuffer) : Nat → Nat → DocumentBuffer
  | 0, _ => b
  | n + 1, i => rehashFrom qHash (DocumentBuffer.updateHash qHash b (i : Int)) n (i + 1)

/-- Modelled from the spec: `EditorCore::deleteText` has no body in the
sources. §4.4: validate the positions, remove the range from the buffer,
record the change in the change log (respecting the macro state) and, unless
a bulk operation is active, notify. §4.1 `deleteRange`: the text between the
two positions is removed and the lines of a range that crosses line
boundaries are merged; every fingerprint matches its line afterwards. The
recorded change holds the removed text as `oldText` and an empty `newText`. -/
def EditorCore.deleteText (qHash : QString → Nat) (s : EditorCore)
    (startLine startCol endLine endCol : Int) (now : Int) : EditorCore :=
  if ¬ s.validRange startLine startCol endLine endCol then s
  else
    let change : TextChange :=
      { position := { line := startLine, column := startCol }
        oldText := s.getText startLine startCol endLine endCol
        newText := [], timestamp := toInt32 now }
    let merged := (s.lineText startLine).take startCol.toNat ++
      (s.lineText endLine).drop endCol.toNat
    let lines := s.m_buffer.lines.take startLine.toNat ++ [merged] ++
      s.m_buffer.lines.drop (endLine.toNat + 1)
    let buffer : DocumentBuffer :=
      rehashFrom qHash { s.m_buffer with lines := lines, lineHashes := [] } lines.length 0
    let s1 : EditorCore :=
      { s with m_buffer := buffer, m_undoStack := s.m_undoStack.record change now,
               m_macroRecorder := s.m_macroRecorder.record change, m_modified := true }
    if s1.m_bulkOperation then s1
    else
      ((s1.emitTextChanged).emit (Signal.modificationChanged true)).emit
        (Signal.cursorPositionChanged startLine startCol)

/-- One change applied forward, as redo does: the old text of the change is
overwritten with its new text and the fingerprint of the line is refreshed. -/
def reapplyChange (qHash : QString → Nat) (b : DocumentBuffer) (change : TextChange) :
    Option DocumentBuffer :=
  if change.position.line < 0 then none
  else
    match b.lines.get? change.position.line.toNat with
    | none => none
    | some line =>
      let newLine := QString.replace line change.position.column
        (change.oldText.length : Int) change.newText
      some (DocumentBuffer.updateHash qHash
        { b with lines := b.lines.set change.position.line.toNat newLine } change.position.line)

/-- The changes of an action applied forward, in the order of the vector. -/
def reapplyChanges (qHash : QString → Nat) (b : DocumentBuffer) :
    List TextChange → Option DocumentBuffer
  | [] => some b
  | change :: rest =>
    match reapplyChange qHash b change with
    | none => none
    | some b1 => reapplyChanges qHash b1 rest

/-- Modelled from the spec: `EditorCore::redo` has no body in the sources.
§4.2: "fails silently if `index == stack.length - 1`. Otherwise increments
`index`, takes `stack[index]`, applies its changes in forward order"; §4.4:
wrapped in a bulk operation. The notification after it mirrors `undo`. -/
def EditorCore.redo (qHash : QString → Nat) (s : EditorCore) : Option EditorCore :=
  if !s.canRedo then some s
  else
    let index := s.m_undoStack.index + 1
    match (if index < 0 then none else s.m_undoStack.stack.get? index.toNat) with
    | none => none
    | some action =>
      let s1 : EditorCore := { s with m_undoStack := { s.m_undoStack with index := index } }
      let s2 := s1.beginBulkOperation
      match reapplyChanges qHash s2.m_buffer action.changes with
      | none => none
      | some buffer =>
        let s3 : EditorCore := { s2 with m_buffer := buffer }
        some (s3.endBulkOperation.emit (Signal.modificationChanged true))

/-! ## File loading and macros (`editor_core.cpp`) -/

/-- Qt `QFileInfo(filePath).suffix()`: what follows the last `.` of the file name. -/
def suffix (filePath : QString) : QString :=
  let fileName := (filePath.reverse.takeWhile (fun c => c != '/')).reverse
  if fileName.contains '.' then (fileName.reverse.takeWhile (fun c => c != '.')).reverse
  else []

/-- Modelled from the spec: `EditorCore::setLanguage` has no body in the
sources; on the editor state it is the `languageChanged(name)` notification
of §6 (the highlighter it configures is modelled apart). -/
def EditorCore.setLanguage (s : EditorCore) (language : QString) : EditorCore :=
  s.emit (Signal.languageChanged language)

/-- Method `EditorCore::loadFile(filePath)`. `readTextFile` is the outcome of
`FileIO::readTextFile(filePath, content, m_buffer->encoding)`: `none` when it
returns false, else the content and the detected encoding.
`splitPreserveNewlines` is `TextUtils::splitPreserveNewlines`, whose source
is not in the repository. -/
def EditorCore.loadFile (qHash : QString → Nat) (splitPreserveNewlines : QString → List QString)
    (s : EditorCore) (filePath : QString) (readTextFile : Option (QString × QString)) :
    Bool × EditorCore :=
  if filePath.isEmpty then (false, s)
  else
    match readTextFile with
    | none => (false, s)
    | some (content, detectedEncoding) =>
      let s1 : EditorCore := { s with m_buffer := { s.m_buffer with encoding := detectedEncoding } }
      let s2 := s1.beginBulkOperation
      let lines := splitPreserveNewlines content
      let buffer : DocumentBuffer :=
        rehashFrom qHash { s2.m_buffer with lines := lines, lineHashes := [] } lines.length 0
      let s3 : EditorCore :=
        { s2 with m_buffer := buffer, m_currentFile := filePath, m_modified := false }
      let s4 := s3.endBulkOperation
      let s5 := s4.setLanguage (suffix filePath)
      (true, s5.emit (Signal.fileLoaded filePath))

/-- Method `EditorCore::startMacroRecording()`. -/
def EditorCore.startMacroRecording (s : EditorCore) : EditorCore :=
  { s with m_macroRecorder := { changes := [], isRecording := true } }

/-- Method `EditorCore::stopMacroRecording(execute)`; the body of its `if` is a
comment. -/
def EditorCore.stopMacroRecording (s : EditorCore) (execute : Bool) : EditorCore :=
  let s1 : EditorCore := { s with m_macroRecorder := { s.m_macroRecorder with isRecording := false } }
  if execute && !s1.m_macroRecorder.changes.isEmpty then s1 else s1

/-! ## Block comments (`syntax/highlighter.cpp`) -/

/-- A colour, by its name. -/
abbrev QColor := QString

/-- The properties of a `QTextCharFormat` that the highlighter sets. -/
structure QTextCharFormat where
  foreground : Option QColor
  background : Option QColor
  fontBold : Bool
  fontItalic : Bool
  fontUnderline : Bool
  deriving DecidableEq, Repr

/-- The format `QTextCharFormat()` that nothing has been set on. -/
def QTextCharFormat.plain : QTextCharFormat :=
  { foreground := none, background := none, fontBold := false, fontItalic := false,
    fontUnderline := false }

/-- A successful `QRegularExpressionMatch`: start and length of every
capture group, group 0 being the whole match. -/
structure QRegularExpressionMatch where
  groups : List (Int × Int)
  deriving DecidableEq, Repr

/-- Qt `match.capturedStart(nth)`: -1 when there is no match or no such group. -/
def capturedStart (m : Option QRegularExpressionMatch) (nth : Nat) : Int :=
  match m with
  | none => -1
  | some r => (r.groups.getD nth (-1, 0)).1

/-- Qt `match.capturedLength(nth)`: 0 when there is no match or no such group. -/
def capturedLength (m : Option QRegularExpressionMatch) (nth : Nat) : Int :=
  match m with
  | none => 0
  | some r => (r.groups.getD nth (-1, 0)).2

/-- A `QRegularExpression`: the text of its pattern, and its matcher, which
gives the first match of the pattern in a text at or after an offset. -/
structure QRegularExpression where
  pattern : QString
  matchFrom : QString → Nat → Option QRegularExpressionMatch

/-- Qt `re.match(text, offset)`: a negative offset counts from the end, and an
offset outside the text gives no match. -/
def QRegularExpression.matchAt (re : QRegularExpression) (text : QString) (offset : Int) :
    Option QRegularExpressionMatch :=
  let offset := if offset < 0 then offset + (text.length : Int) else offset
  if offset < 0 ∨ offset > (text.length : Int) then none
  else re.matchFrom text offset.toNat

/-- Qt `text.indexOf(re, offset)`: the start of the first match, or -1. -/
def QString.indexOf (text : QString) (re : QRegularExpression) (offset : Int) : Int :=
  capturedStart (re.matchAt text offset) 0

/-- The first position at or after `offset` where the literal `lit` occurs
in `text`. -/
def indexOfLiteral (lit text : QString) (offset : Nat) : Option Nat :=
  ((List.range (text.length + 1)).filter
    (fun i => decide (offset ≤ i) && lit.isPrefixOf (text.drop i))).head?

/-- The regular expression, written `pattern`, that matches exactly the
literal `lit` (for instance the pattern `/\*` and the literal `/*`). -/
def QRegularExpression.literal (pattern lit : QString) : QRegularExpression :=
  { pattern := pattern
    matchFrom := fun text offset =>
      (indexOfLiteral lit text offset).map
        (fun (i : Nat) => { groups := [((i : Int), (lit.length : Int))] }) }

/-- Structure `SyntaxHighlighter::HighlightRule`. -/
structure HighlightRule where
  pattern : QRegularExpression
  format : QTextCharFormat
  captureGroup : Int

/-- Structure `SyntaxHighlighter::ThemeColors`. -/
structure ThemeColors where
  keyword : QColor
  string : QColor
  comment : QColor
  number : QColor
  function : QColor
  type : QColor
  background : QColor
  deriving DecidableEq, Repr

/-- The state of a `SyntaxHighlighter` object. -/
structure SyntaxHighlighter where
  m_rules : List HighlightRule
  m_customRules : List HighlightRule
  m_currentLanguage : QString
  m_currentTheme : QString
  m_themeColors : ThemeColors
  m_blockCommentStart : QRegularExpression
  m_blockCommentEnd : QRegularExpression
  m_blockCommentFormat : QTextCharFormat
  m_lastHighlightTime : Int

/-- What `QSyntaxHighlighter` holds for the block being highlighted: one
format for every character of the block, and the state of the block. -/
structure BlockHighlight where
  formats : List QTextCharFormat
  currentBlockState : Int
  deriving DecidableEq, Repr

/-- The block as `QSyntaxHighlighter` hands it to `highlightBlock`: plain
formats, state -1. -/
def BlockHighlight.fresh (text : QString) : BlockHighlight :=
  { formats := List.replicate text.length QTextCharFormat.plain, currentBlockState := -1 }

/-- Qt `QSyntaxHighlighter::setFormat(start, count, format)`: ignored when
`start` is outside the block, cut at the end of the block. -/
def BlockHighlight.setFormat (b : BlockHighlight) (start count : Int) (format : QTextCharFormat) :
    BlockHighlight :=
  if start < 0 ∨ start ≥ (b.formats.length : Int) then b
  else
    let stop := min (start + count) (b.formats.length : Int)
    { b with
      formats := b.formats.take start.toNat ++
        List.replicate (stop - start).toNat format ++
        b.formats.drop (max stop start).toNat }

/-- Qt `QSyntaxHighlighter::setCurrentBlockState(newState)`. -/
def BlockHighlight.setCurrentBlockState (b : BlockHighlight) (newState : Int) : BlockHighlight :=
  { b with currentBlockState := newState }

/-- The `while (startIndex >= 0)` loop of `handleMultiLine`, run for at most
`fuel` iterations; `none` when the loop has not ended by then. -/
def SyntaxHighlighter.handleMultiLineLoop (h : SyntaxHighlighter) (text : QString) :
    Nat → Int → BlockHighlight → Option BlockHighlight
  | 0, startIndex, b => if startIndex ≥ 0 then none else some b
  | fuel + 1, startIndex, b =>
    if startIndex ≥ 0 then
      let m := h.m_blockCommentEnd.matchAt text startIndex
      let endIndex := capturedStart m 0
      let b1 := if endIndex = -1 then b.setCurrentBlockState 1 else b
      let commentLength :=
        if endIndex = -1 then (text.length : Int) - startIndex
        else endIndex - startIndex + capturedLength m 0
      let b2 := b1.setFormat startIndex commentLength h.m_blockCommentFormat
      SyntaxHighlighter.handleMultiLineLoop h text fuel
        (QString.indexOf text h.m_blockCommentStart (startIndex + commentLength)) b2
    else some b

/-- Method `SyntaxHighlighter::handleMultiLine(text)`, on a block whose predecessor
was left in state `previousBlockState`. -/
def SyntaxHighlighter.handleMultiLine (h : SyntaxHighlighter) (fuel : Nat) (text : QString)
    (previousBlockState : Int) (b : BlockHighlight) : Option BlockHighlight :=
  if h.m_blockCommentStart.pattern.isEmpty then some b
  else
    let b1 := b.setCurrentBlockState previousBlockState
    let startIndex :=
      if previousBlockState ≠ 1 then QString.indexOf text h.m_blockCommentStart 0 else 0
    SyntaxHighlighter.handleMultiLineLoop h text fuel startIndex b1

/-- The block-comment pass over the blocks of a document in order, as
`QSyntaxHighlighter` drives it: every block starts fresh and sees the state
its predecessor was left in (`previousBlockState` is -1 for the first
block). The loop of a block gets two iterations more than the block has
characters. -/
def SyntaxHighlighter.multiLinePass (h : SyntaxHighlighter) :
    List QString → Int → Option (List BlockHighlight)
  | [], _ => some []
  | text :: rest, previousBlockState =>
    match h.handleMultiLine (text.length + 2) text previousBlockState (BlockHighlight.fresh text) with
    | none => none
    | some b =>
      match SyntaxHighlighter.multiLinePass h rest b.currentBlockState with
      | none => none
      | some bs => some (b :: bs)

/-- The comment format that `loadComments` builds: the comment colour of the
theme, italic. -/
def commentFormat (colors : ThemeColors) : QTextCharFormat :=
  { QTextCharFormat.plain with foreground := some colors.comment, fontItalic := true }

/-- The theme colours set by the constructor of `SyntaxHighlighter`. -/
def defaultThemeColors : ThemeColors :=
  { keyword := "#569CD6".toList, string := "#CE9178".toList, comment := "#6A9955".toList
    number := "#B5CEA8".toList, function := "#DCDCAA".toList, type := "#4EC9B0".toList
    background := "#FFFFFF".toList }

/-- A highlighter whose language definition gives the block-comment markers
`/*` and `*/` (as the patterns `/\*` and `\*/`) and nothing else. -/
def cStyleHighlighter : SyntaxHighlighter :=
  { m_rules := [], m_customRules := [], m_currentLanguage := "cpp".toList, m_currentTheme := []
    m_themeColors := defaultThemeColors
    m_blockCommentStart := QRegularExpression.literal "/\\*".toList "/*".toList
    m_blockCommentEnd := QRegularExpression.literal "\\*/".toList "*/".toList
    m_blockCommentFormat := commentFormat defaultThemeColors
    m_lastHighlightTime := 0 }

/-! ## Notions used in the statements -/

/-- The change-log invariant of §3: `-1 ≤ index < stack.length`. -/
def UndoStack.wellFormed (u : UndoStack) : Prop :=
  -1 ≤ u.index ∧ u.index < (u.stack.length : Int)

instance (u : UndoStack) : Decidable u.wellFormed :=
  inferInstanceAs (Decidable (-1 ≤ u.index ∧ u.index < (u.stack.length : Int)))

/-- One call of `insertText` or of `deleteText`, with its arguments. -/
inductive EditOp where
  | insertText (line column : Int) (text : QString) (now : Int)
  | deleteText (startLine startCol endLine endCol : Int) (now : Int)
  deriving DecidableEq, Repr

/-- The state after the call. -/
def EditOp.apply (qHash : QString → Nat) (s : EditorCore) : EditOp → EditorCore
  | EditOp.insertText line column text now => EditorCore.insertText qHash s line column text now
  | EditOp.deleteText a b c d now => EditorCore.deleteText qHash s a b c d now

/-- The call is a successful one: its arguments pass the validation. -/
def EditOp.succeeds (s : EditorCore) : EditOp → Prop
  | EditOp.insertText line column _ _ => s.validPosition line column
  | EditOp.deleteText a b c d _ => s.validRange a b c d

instance (s : EditorCore) (op : EditOp) : Decidable (op.succeeds s) :=
  match op with
  | EditOp.insertText line column _ _ => inferInstanceAs (Decidable (s.validPosition line column))
  | EditOp.deleteText a b c d _ => inferInstanceAs (Decidable (s.validRange a b c d))

/-- The call edits inside one line: every insertion, and a deletion whose
two ends are on the same line. -/
def EditOp.withinLine : EditOp → Prop
  | EditOp.insertText _ _ _ _ => True
  | EditOp.deleteText startLine _ endLine _ _ => startLine = endLine

instance (op : EditOp) : Decidable op.withinLine :=
  match op with
  | EditOp.insertText _ _ _ _ => isTrue trivial
  | EditOp.deleteText startLine _ endLine _ _ => inferInstanceAs (Decidable (startLine = endLine))

/-- The state after a sequence of calls, first call first. -/
def applyEdits (qHash : QString → Nat) : EditorCore → List EditOp → EditorCore
  | s, [] => s
  | s, op :: rest => applyEdits qHash (op.apply qHash s) rest

/-- Every call of the sequence is successful in the state it is made in. -/
def editsSucceed (qHash : QString → Nat) : EditorCore → List EditOp → Prop
  | _, [] => True
  | s, op :: rest => op.succeeds s ∧ editsSucceed qHash (op.apply qHash s) rest

/-- The decision procedure of `editsSucceed`, call by call. -/
def editsSucceed.decide (qHash : QString → Nat) :
    (s : EditorCore) → (ops : List EditOp) → Decidable (editsSucceed qHash s ops)
  | _, [] => isTrue trivial
  | s, op :: rest =>
    @instDecidableAnd _ _ _ (editsSucceed.decide qHash (op.apply qHash s) rest)

instance (qHash : QString → Nat) (s : EditorCore) (ops : List EditOp) :
    Decidable (editsSucceed qHash s ops) :=
  editsSucceed.decide qHash s ops

/-- The state after an `insertText` that passes the guards, before the
notifications. -/
def insertedState (qHash : QString → Nat) (s : EditorCore) (line column : Int)
    (text : QString) (now : Int) : EditorCore :=
  { s with
    m_buffer :=
      { s.m_buffer with
        lines := s.m_buffer.lines.set line.toNat (QString.insert (s.lineText line) column text)
        lineHashes := QHash.assign s.m_buffer.lineHashes line
          (qHash (QString.insert (s.lineText line) column text)) }
    m_undoStack := s.m_undoStack.record
      { position := { line := line, column := column }, oldText := [], newText := text,
        timestamp := toInt32 now } now
    m_macroRecorder := s.m_macroRecorder.record
      { position := { line := line, column := column }, oldText := [], newText := text,
        timestamp := toInt32 now }
    m_modified := true }

/-- Fingerprint consistency: the cached fingerprint of every line of the
document is the hash of the text of the line. -/
def DocumentBuffer.fingerprintsFresh (qHash : QString → Nat) (b : DocumentBuffer) : Prop :=
  ∀ (i : Nat) (text : QString), b.lines.get? i = some text →
    QHash.value b.lineHashes (i : Int) = some (qHash text)

/-- The accesses of `undo()` are in range: when there is something to undo,
`stack[index]` exists and every change of it names a line of the document. -/
def EditorCore.undoInBounds (s : EditorCore) : Prop :=
  s.canUndo = true →
    ∃ action, 0 ≤ s.m_undoStack.index ∧
      s.m_undoStack.stack.get? s.m_undoStack.index.toNat = some action ∧
      ∀ ch ∈ action.changes, 0 ≤ ch.position.line ∧ ch.position.line < s.lineCount

/-- What one successful edit inside a line leaves behind: the line `X` in
place of `L`, and a change in the log whose reversal turns `X` into `L`. -/
def RecordedEdit (s s1 : EditorCore) (ch : TextChange) (now : Int) (L X : QString) : Prop :=
  0 ≤ ch.position.line ∧ s.m_buffer.lines.get? ch.position.line.toNat = some L ∧
    s1.m_buffer.lines = s.m_buffer.lines.set ch.position.line.toNat X ∧
    QString.replace X ch.position.column (ch.newText.length : Int) ch.oldText = L ∧
    s1.m_undoStack = s.m_undoStack.record ch now

/-- The editor after its construction and one successful `loadFile` of a
file that holds `content`. -/
def EditorCore.loaded (qHash : QString → Nat) (splitPreserveNewlines : QString → List QString)
    (content : QString) : EditorCore :=
  (EditorCore.loadFile qHash splitPreserveNewlines (EditorCore.init qHash)
    "document.txt".toList (some (content, "UTF-8".toList))).2

/-- A fingerprint function for the examples: the sum of the code points. -/
def sumHash (text : QString) : Nat :=
  (text.map Char.toNat).sum

/-- An editor holding the document `lines`, with fresh fingerprints and an
empty history. -/
def EditorCore.ofLines (qHash : QString → Nat) (lines : List QString) : EditorCore :=
  { EditorCore.init qHash with
    m_buffer :=
      rehashFrom qHash { lines := lines, encoding := "UTF-8".toList, lineHashes := [] }
        lines.length 0 }

/-- Every match of the expression is a non-empty part of the text that
starts at or after the offset of the search. -/
def QRegularExpression.matchesNonEmpty (re : QRegularExpression) : Prop :=
  ∀ (text : QString) (offset : Nat) (m : QRegularExpressionMatch),
    re.matchFrom text offset = some m →
    ∃ start len : Nat, m.groups.head? = some ((start : Int), (len : Int)) ∧
      offset ≤ start ∧ 1 ≤ len ∧ start + len ≤ text.length

/-- An example state with a redo history: the document `ab` after the
insertions of `c` and of `d` and one `undo()`. -/
def EditorCore.sampleWithRedo : EditorCore :=
  (EditorCore.undo sumHash (applyEdits sumHash (EditorCore.ofLines sumHash ["ab".toList])
    [EditOp.insertText 0 2 "c".toList 1, EditOp.insertText 0 3 "d".toList 2])).getD
    (EditorCore.init sumHash)

/-- The call is an `insertText`. -/
def EditOp.isInsert : EditOp → Prop
  | EditOp.insertText _ _ _ _ => True
  | EditOp.deleteText _ _ _ _ _ => False

instance (op : EditOp) : Decidable op.isInsert :=
  match op with
  | EditOp.insertText _ _ _ _ => isTrue trivial
  | EditOp.deleteText _ _ _ _ _ => isFalse (fun h => h)

/-! ## Syntax check and `highlightBlock` (`syntax/highlighter.cpp`) -/

/-- Enumeration `SyntaxHighlighter::SyntaxError`. -/
inductive SyntaxError where
  | NoError
  | UnclosedString
  | UnclosedComment
  | InvalidSyntax
  deriving DecidableEq, Repr

/-- Qt `text.contains(re)`: the expression has a match in the text. -/
def QString.containsMatch (text : QString) (re : QRegularExpression) : Bool :=
  (re.matchAt text 0).isSome

/-- Method `SyntaxHighlighter::checkSyntaxErrors(text)`. -/
def SyntaxHighlighter.checkSyntaxErrors (h : SyntaxHighlighter) (text : QString) : SyntaxError :=
  if !h.m_blockCommentStart.pattern.isEmpty &&
      QString.containsMatch text h.m_blockCommentStart &&
      !QString.containsMatch text h.m_blockCommentEnd then
    SyntaxError.UnclosedComment
  else SyntaxError.NoError

/-- What a `SyntaxHighlighter` emits or asks for: its signals, and the call
of `rehighlight()`. -/
inductive HighlighterEvent where
  | highlightingPerformance (milliseconds : Int)
  | languageLoaded (language : QString)
  | themeChanged (theme : QString)
  | syntaxErrorDetected (error : SyntaxError) (position : Int)
  | rehighlight
  deriving DecidableEq, Repr

/-- Qt `match.capturedStart(nth)` of a successful match, for an `int`
group number. -/
def QRegularExpressionMatch.capturedStart (m : QRegularExpressionMatch) (nth : Int) : Int :=
  if nth < 0 then -1 else MangoEditor.capturedStart (some m) nth.toNat

/-- Qt `match.capturedLength(nth)` of a successful match, for an `int`
group number. -/
def QRegularExpressionMatch.capturedLength (m : QRegularExpressionMatch) (nth : Int) : Int :=
  if nth < 0 then 0 else MangoEditor.capturedLength (some m) nth.toNat

/-- The inner `while (it.hasNext())` loop of `highlightBlock` for one rule:
the capture group of every match gets the format of the rule. `globalMatch`
is Qt's `pattern.globalMatch(text)`, the matches in the order of the
iterator. -/
def applyRule (globalMatch : QRegularExpression → QString → List QRegularExpressionMatch)
    (text : QString) (b : BlockHighlight) (rule : HighlightRule) : BlockHighlight :=
  (globalMatch rule.pattern text).foldl
    (fun acc m =>
      acc.setFormat (m.capturedStart rule.captureGroup) (m.capturedLength rule.captureGroup)
        rule.format)
    b

/-- A `for` loop of `highlightBlock` over a rule list, in list order. -/
def applyRules (globalMatch : QRegularExpression → QString → List QRegularExpressionMatch)
    (text : QString) (b : BlockHighlight) (rules : List HighlightRule) : BlockHighlight :=
  rules.foldl (applyRule globalMatch text) b

/-- Method `SyntaxHighlighter::highlightBlock(text)`: the language rules,
then the custom rules, then the block comments, then the syntax check.
`elapsed` is what the timer reads at the end; `none` when the loop of
`handleMultiLine` has not ended within `fuel` iterations. -/
def SyntaxHighlighter.highlightBlock
    (globalMatch : QRegularExpression → QString → List QRegularExpressionMatch)
    (h : SyntaxHighlighter) (fuel : Nat) (text : QString) (previousBlockState : Int)
    (elapsed : Int) (b : BlockHighlight) :
    Option (SyntaxHighlighter × BlockHighlight × List HighlighterEvent) :=
  let b1 := applyRules globalMatch text b h.m_rules
  let b2 := applyRules globalMatch text b1 h.m_customRules
  match h.handleMultiLine fuel text previousBlockState b2 with
  | none => none
  | some b3 =>
    let error := h.checkSyntaxErrors text
    let events :=
      if error ≠ SyntaxError.NoError then [HighlighterEvent.syntaxErrorDetected error 0] else []
    some ({ h with m_lastHighlightTime := elapsed }, b3,
      events ++ [HighlighterEvent.highlightingPerformance elapsed])

/-- The spans (start, length) that the loop of `handleMultiLine` hands to
`setFormat`, in order: the same loop with the formatting left out. -/
def SyntaxHighlighter.commentSpansLoop (h : SyntaxHighlighter) (text : QString) :
    Nat → Int → Option (List (Int × Int))
  | 0, startIndex => if startIndex ≥ 0 then none else some []
  | fuel + 1, startIndex =>
    if startIndex ≥ 0 then
      let m := h.m_blockCommentEnd.matchAt text startIndex
      let endIndex := capturedStart m 0
      let commentLength :=
        if endIndex = -1 then (text.length : Int) - startIndex
        else endIndex - startIndex + capturedLength m 0
      (SyntaxHighlighter.commentSpansLoop h text fuel
        (QString.indexOf text h.m_blockCommentStart (startIndex + commentLength))).map
        (fun spans => (startIndex, commentLength) :: spans)
    else some []

/-- The block-comment spans of a line entered in state `previousBlockState`. -/
def SyntaxHighlighter.commentSpans (h : SyntaxHighlighter) (fuel : Nat) (text : QString)
    (previousBlockState : Int) : Option (List (Int × Int)) :=
  if h.m_blockCommentStart.pattern.isEmpty then some []
  else
    SyntaxHighlighter.commentSpansLoop h text fuel
      (if previousBlockState ≠ 1 then QString.indexOf text h.m_blockCommentStart 0 else 0)

/-- The rule formats position `p` of the line: the capture group of one of
its matches starts inside the line and spans the position. -/
def HighlightRule.covers
    (globalMatch : QRegularExpression → QString → List QRegularExpressionMatch)
    (rule : HighlightRule) (text : QString) (p : Nat) : Prop :=
  ∃ m ∈ globalMatch rule.pattern text,
    0 ≤ m.capturedStart rule.captureGroup ∧ m.capturedStart rule.captureGroup ≤ (p : Int) ∧
      (p : Int) < m.capturedStart rule.captureGroup + m.capturedLength rule.captureGroup

/-! ## Saving (`editor_core.cpp`) -/

/-- Qt `QStringList::join(separator)`. -/
def QStringList.join : List QString → Char → QString
  | [], _ => []
  | [line], _ => line
  | line :: next :: rest, separator =>
    line ++ separator :: QStringList.join (next :: rest) separator

/-- Method `EditorCore::saveFile(filePath)`. `writeTextFile` is the file
collaborator `FileIO::writeTextFile(path, content, encoding)`; the third
component of the result is the call made to it, if any. -/
def EditorCore.saveFile (writeTextFile : QString → QString → QString → Bool) (s : EditorCore)
    (filePath : QString) : Bool × EditorCore × Option (QString × QString × QString) :=
  let savePath := if filePath.isEmpty then s.m_currentFile else filePath
  if savePath.isEmpty then (false, s, none)
  else
    let content := QStringList.join s.m_buffer.lines '\n'
    if !writeTextFile savePath content s.m_buffer.encoding then
      (false, s, some (savePath, content, s.m_buffer.encoding))
    else
      let s1 : EditorCore :=
        if filePath ≠ s.m_currentFile then { s with m_currentFile := filePath } else s
      let s2 : EditorCore := { s1 with m_modified := false }
      (true, s2.emit (Signal.fileSaved savePath),
        some (savePath, content, s.m_buffer.encoding))

/-! ## Language definitions and themes (`syntax/highlighter.cpp`)

The JSON documents are given as the functions read them: a key that the
code tests with `contains` is an `Option`, a key that it reads without a
test holds the value that Qt gives for an absent key (empty string, empty
list, false). Colours are their names as written. `engine` is the regular
expression engine of Qt: `engine pattern` is the matcher of the expression
compiled from `pattern`. -/

/-- The object `style` of a rule, as `createFormatFromStyle` reads it. -/
structure StyleJson where
  color : Option QString
  type : Option QString
  background : Option QString
  fontStyle : Option QString
  deriving DecidableEq, Repr

/-- A rule object of `highlighting_rules` or `special_rules`. -/
structure RuleJson where
  pattern : QString
  capture_group : Option Int
  style : StyleJson
  deriving DecidableEq, Repr

/-- The object `keywords`. -/
structure KeywordsJson where
  primary : Option (List QString)
  secondary : Option (List QString)
  operators : Option (List QString)
  deriving DecidableEq, Repr

/-- The object `strings`. -/
structure StringsJson where
  delimiters : List QString
  f_strings : Bool
  deriving DecidableEq, Repr

/-- The object `comments.block`; `stop` is its key `end`. -/
structure BlockJson where
  start : QString
  stop : QString
  deriving DecidableEq, Repr

/-- The object `comments`. -/
structure CommentsJson where
  line : Option QString
  block : Option BlockJson
  deriving DecidableEq, Repr

/-- The object `colors` of a theme. -/
structure ColorsJson where
  keyword : Option QString
  string : Option QString
  comment : Option QString
  number : Option QString
  function : Option QString
  type : Option QString
  background : Option QString
  deriving DecidableEq, Repr

/-- A theme document. -/
structure ThemeJson where
  colors : Option ColorsJson
  deriving DecidableEq, Repr

/-- A language definition document; `special_rules` lists the members of
the object in the order of `keys()`. -/
structure LanguageJson where
  keywords : Option KeywordsJson
  strings : Option StringsJson
  comments : Option CommentsJson
  highlighting_rules : Option (List RuleJson)
  special_rules : Option (List (QString × RuleJson))
  theme : Option ThemeJson
  deriving DecidableEq, Repr

/-- The empty object, which is also what `QJsonDocument::object()` gives
for a document that `fromJson` could not parse. -/
def LanguageJson.empty : LanguageJson :=
  { keywords := none, strings := none, comments := none, highlighting_rules := none
    special_rules := none, theme := none }

/-- The empty theme object. -/
def ThemeJson.empty : ThemeJson := { colors := none }

/-- Qt `QRegularExpression(pattern)`. -/
def QRegularExpression.ofPattern
    (engine : QString → QString → Nat → Option QRegularExpressionMatch) (pattern : QString) :
    QRegularExpression :=
  { pattern := pattern, matchFrom := engine pattern }

/-- Qt `QRegularExpression::escape(str)`: a backslash before every
character other than a letter, a digit and the underscore. -/
def QRegularExpression.escape (str : QString) : QString :=
  (str.map (fun c =>
    if c.isAlphanum || c == '_' then [c]
    else if c == Char.ofNat 0 then ['\\', '0']
    else ['\\', c])).flatten

/-- Qt `QString::toLower()`, on the letters A to Z. -/
def QString.toLower (s : QString) : QString := s.map Char.toLower

/-- Method `SyntaxHighlighter::createFormatFromStyle(style)`. -/
def SyntaxHighlighter.createFormatFromStyle (h : SyntaxHighlighter) (style : StyleJson) :
    QTextCharFormat :=
  let format := QTextCharFormat.plain
  let format :=
    match style.color with
    | some color => { format with foreground := some color }
    | none =>
      match style.type with
      | some type =>
        if type = "keyword".toList then { format with foreground := some h.m_themeColors.keyword }
        else if type = "string".toList then
          { format with foreground := some h.m_themeColors.string }
        else if type = "comment".toList then
          { format with foreground := some h.m_themeColors.comment }
        else if type = "number".toList then
          { format with foreground := some h.m_themeColors.number }
        else if type = "function".toList then
          { format with foreground := some h.m_themeColors.function }
        else if type = "type".toList then { format with foreground := some h.m_themeColors.type }
        else format
      | none => format
  let format :=
    match style.background with
    | some background => { format with background := some background }
    | none => format
  match style.fontStyle with
  | some fontStyle =>
    if QString.toLower fontStyle = "bold".toList then { format with fontBold := true }
    else if QString.toLower fontStyle = "italic".toList then { format with fontItalic := true }
    else if QString.toLower fontStyle = "underline".toList then
      { format with fontUnderline := true }
    else format
  | none => format

/-- Method `SyntaxHighlighter::loadKeywords(json)`: one rule `\bword\b` for
every word of the lists `primary`, `secondary`, `operators`, in this order. -/
def SyntaxHighlighter.loadKeywords
    (engine : QString → QString → Nat → Option QRegularExpressionMatch)
    (h : SyntaxHighlighter) (json : LanguageJson) : SyntaxHighlighter :=
  match json.keywords with
  | none => h
  | some keywords =>
    let format : QTextCharFormat :=
      { QTextCharFormat.plain with foreground := some h.m_themeColors.keyword }
    let words := keywords.primary.getD [] ++ keywords.secondary.getD [] ++
      keywords.operators.getD []
    { h with
      m_rules := h.m_rules ++ words.map (fun word =>
        { pattern := QRegularExpression.ofPattern engine ("\\b".toList ++ word ++ "\\b".toList)
          format := format, captureGroup := 0 }) }

/-- Method `SyntaxHighlighter::loadStrings(json)`: one rule for every
delimiter, then the rule of the interpolated strings when `f_strings` is
set. -/
def SyntaxHighlighter.loadStrings
    (engine : QString → QString → Nat → Option QRegularExpressionMatch)
    (h : SyntaxHighlighter) (json : LanguageJson) : SyntaxHighlighter :=
  match json.strings with
  | none => h
  | some strings =>
    let format : QTextCharFormat :=
      { QTextCharFormat.plain with foreground := some h.m_themeColors.string }
    let delimiterRules : List HighlightRule := strings.delimiters.map (fun delim =>
      let e := QRegularExpression.escape delim
      { pattern := QRegularExpression.ofPattern engine (e ++ "[^".toList ++ e ++ "]*".toList ++ e)
        format := format, captureGroup := 0 })
    let fStringRules : List HighlightRule :=
      if strings.f_strings then
        [{ pattern := QRegularExpression.ofPattern engine
            "f[\\\"'][^\\\"']*\\\x7b[^\x7d]*\\\x7d[^\\\"']*[\\\"']".toList
           format := format, captureGroup := 0 }]
      else []
    { h with m_rules := h.m_rules ++ delimiterRules ++ fStringRules }

/-- Method `SyntaxHighlighter::loadComments(json)`: the rule of the line
comment, and the block-comment patterns and format. -/
def SyntaxHighlighter.loadComments
    (engine : QString → QString → Nat → Option QRegularExpressionMatch)
    (h : SyntaxHighlighter) (json : LanguageJson) : SyntaxHighlighter :=
  match json.comments with
  | none => h
  | some comments =>
    let format : QTextCharFormat :=
      { QTextCharFormat.plain with
        foreground := some h.m_themeColors.comment, fontItalic := true }
    let h1 : SyntaxHighlighter :=
      match comments.line with
      | none => h
      | some line =>
        { h with
          m_rules := h.m_rules ++
            [{ pattern := QRegularExpression.ofPattern engine (line ++ ".*".toList)
               format := format, captureGroup := 0 }] }
    match comments.block with
    | none => h1
    | some block =>
      { h1 with
        m_blockCommentStart := QRegularExpression.ofPattern engine block.start
        m_blockCommentEnd := QRegularExpression.ofPattern engine block.stop
        m_blockCommentFormat := format }

/-- The rule that `loadHighlightingRules` and `loadSpecialRules` build from
a rule object. -/
def SyntaxHighlighter.ruleOfJson
    (engine : QString → QString → Nat → Option QRegularExpressionMatch)
    (h : SyntaxHighlighter) (ruleObj : RuleJson) : HighlightRule :=
  { pattern := QRegularExpression.ofPattern engine ruleObj.pattern
    captureGroup := ruleObj.capture_group.getD 0
    format := h.createFormatFromStyle ruleObj.style }

/-- Method `SyntaxHighlighter::loadHighlightingRules(json)`. -/
def SyntaxHighlighter.loadHighlightingRules
    (engine : QString → QString → Nat → Option QRegularExpressionMatch)
    (h : SyntaxHighlighter) (json : LanguageJson) : SyntaxHighlighter :=
  match json.highlighting_rules with
  | none => h
  | some rules => { h with m_rules := h.m_rules ++ rules.map (h.ruleOfJson engine) }

/-- Method `SyntaxHighlighter::loadSpecialRules(json)`. -/
def SyntaxHighlighter.loadSpecialRules
    (engine : QString → QString → Nat → Option QRegularExpressionMatch)
    (h : SyntaxHighlighter) (json : LanguageJson) : SyntaxHighlighter :=
  match json.special_rules with
  | none => h
  | some specials =>
    { h with m_rules := h.m_rules ++ specials.map (fun member => h.ruleOfJson engine member.2) }

/-- The body of the loop of `updateThemeColors`: a rule whose foreground
colour equals `QColor("#569CD6")` gets the keyword colour of the theme.
`sameColor a b` is Qt's comparison `QColor(a) == QColor(b)` of the colours
that the names `a` and `b` denote; the brush of a format on which no
foreground has been set is Qt's default brush, which is black. -/
def recolorRule (sameColor : QColor → QColor → Bool) (keyword : QColor) (rule : HighlightRule) :
    HighlightRule :=
  if sameColor (rule.format.foreground.getD "#000000".toList) "#569CD6".toList then
    { rule with format := { rule.format with foreground := some keyword } }
  else rule

/-- Method `SyntaxHighlighter::updateThemeColors()`. -/
def SyntaxHighlighter.updateThemeColors (sameColor : QColor → QColor → Bool)
    (h : SyntaxHighlighter) : SyntaxHighlighter :=
  { h with
    m_rules := h.m_rules.map (recolorRule sameColor h.m_themeColors.keyword)
    m_blockCommentFormat :=
      { h.m_blockCommentFormat with foreground := some h.m_themeColors.comment } }

/-- Method `SyntaxHighlighter::loadTheme(json)`. -/
def SyntaxHighlighter.loadTheme (sameColor : QColor → QColor → Bool) (h : SyntaxHighlighter)
    (json : ThemeJson) : SyntaxHighlighter :=
  let h1 : SyntaxHighlighter :=
    match json.colors with
    | none => h
    | some colors =>
      { h with
        m_themeColors :=
          { keyword := colors.keyword.getD h.m_themeColors.keyword
            string := colors.string.getD h.m_themeColors.string
            comment := colors.comment.getD h.m_themeColors.comment
            number := colors.number.getD h.m_themeColors.number
            function := colors.function.getD h.m_themeColors.function
            type := colors.type.getD h.m_themeColors.type
            background := colors.background.getD h.m_themeColors.background } }
  h1.updateThemeColors sameColor

/-- Method `SyntaxHighlighter::setTheme(themeName)`. `file` is the theme
file: `none` when it cannot be opened, else the parsed document, `none`
when `fromJson` fails (its `object()` is then empty). -/
def SyntaxHighlighter.setTheme (sameColor : QColor → QColor → Bool) (h : SyntaxHighlighter)
    (themeName : QString) (file : Option (Option ThemeJson)) :
    SyntaxHighlighter × List HighlighterEvent :=
  match file with
  | none => (h, [])
  | some doc =>
    let h1 := h.loadTheme sameColor (doc.getD ThemeJson.empty)
    ({ h1 with m_currentTheme := themeName },
      [HighlighterEvent.rehighlight, HighlighterEvent.themeChanged themeName])

/-- The statements `m_rules.clear(); m_currentLanguage = language;` of
`loadLanguage`. -/
def SyntaxHighlighter.cleared (h : SyntaxHighlighter) (language : QString) : SyntaxHighlighter :=
  { h with m_rules := [], m_currentLanguage := language }

/-- Method `SyntaxHighlighter::loadLanguage(language)`. `file` is the
language file: `none` when it cannot be opened, else the parsed document,
`none` when `fromJson` fails (its `object()` is then empty). -/
def SyntaxHighlighter.loadLanguage
    (engine : QString → QString → Nat → Option QRegularExpressionMatch)
    (sameColor : QColor → QColor → Bool)
    (h : SyntaxHighlighter) (language : QString) (file : Option (Option LanguageJson)) :
    SyntaxHighlighter × List HighlighterEvent :=
  match file with
  | none => (h, [])
  | some doc =>
    let json := doc.getD LanguageJson.empty
    let h1 := h.cleared language
    let h2 := h1.loadKeywords engine json
    let h3 := h2.loadStrings engine json
    let h4 := h3.loadComments engine json
    let h5 := h4.loadHighlightingRules engine json
    let h6 := h5.loadSpecialRules engine json
    let h7 :=
      match json.theme with
      | some theme => h6.loadTheme sameColor theme
      | none => h6
    (h7, [HighlighterEvent.languageLoaded language])

/-- The state built by the constructor of `SyntaxHighlighter`: the default
theme colours and the one rule of `loadDefaultRules`. -/
def SyntaxHighlighter.init
    (engine : QString → QString → Nat → Option QRegularExpressionMatch) : SyntaxHighlighter :=
  { m_rules :=
      [{ pattern := QRegularExpression.ofPattern engine ".".toList
         format :=
           { QTextCharFormat.plain with
             foreground := some "#000000".toList
             background := some defaultThemeColors.background }
         captureGroup := 0 }]
    m_customRules := []
    m_currentLanguage := []
    m_currentTheme := []
    m_themeColors := defaultThemeColors
    m_blockCommentStart := QRegularExpression.ofPattern engine []
    m_blockCommentEnd := QRegularExpression.ofPattern engine []
    m_blockCommentFormat := QTextCharFormat.plain
    m_lastHighlightTime := 0 }

/-- A stand-in for Qt's comparison of colours in the examples, for names of
the form `#RRGGBB`: the same colour when the names agree up to the case of
the hexadecimal digits. -/
def sameHexColor (a b : QColor) : Bool :=
  decide (QString.toLower a = QString.toLower b)

/-- An engine that never matches, for the examples that look at rule lists
and formats only. -/
def silentEngine : QString → QString → Nat → Option QRegularExpressionMatch :=
  fun _ _ _ => none

/-- An example language definition: three highlighting rules, the first
styled by the semantic type `number`, the second by the semantic type
`keyword`, the third by the explicit colour `#569CD6`. -/
def sampleLanguage : LanguageJson :=
  { LanguageJson.empty with
    highlighting_rules := some
      [{ pattern := "[0-9]+".toList, capture_group := none
         style := { color := none, type := some "number".toList, background := none
                    fontStyle := none } },
       { pattern := "if".toList, capture_group := none
         style := { color := none, type := some "keyword".toList, background := none
                    fontStyle := none } },
       { pattern := "x".toList, capture_group := none
         style := { color := some "#569CD6".toList, type := none, background := none
                    fontStyle := none } }] }

/-- An example theme that gives the keyword and the number colour. -/
def sampleTheme (keyword number : QString) : ThemeJson :=
  { colors := some
      { keyword := some keyword, string := none, comment := none, number := some number
        function := none, type := none, background := none } }

/-- The highlighter after its construction and the load of `sampleLanguage`. -/
def sampleHighlighter : SyntaxHighlighter :=
  (SyntaxHighlighter.loadLanguage silentEngine sameHexColor (SyntaxHighlighter.init silentEngine)
    "cpp".toList (some (some sampleLanguage))).1

/-- A stand-in for Qt's `globalMatch` in the examples: the successive
matches of the expression, each search starting where the previous match
ended and at least one character further on. -/
def QRegularExpression.scanFrom (re : QRegularExpression) (text : QString) :
    Nat → Nat → List QRegularExpressionMatch
  | 0, _ => []
  | fuel + 1, offset =>
    match re.matchAt text (offset : Int) with
    | none => []
    | some m =>
      m :: QRegularExpression.scanFrom re text fuel
        (max (offset + 1) (capturedStart (some m) 0 + capturedLength (some m) 0).toNat)

/-- The stand-in for `globalMatch`, from the start of the text. -/
def QRegularExpression.scan (re : QRegularExpression) (text : QString) :
    List QRegularExpressionMatch :=
  QRegularExpression.scanFrom re text (text.length + 1) 0

/-- An example custom rule: the digit `1` underlined. -/
def sampleCustomRule : HighlightRule :=
  { pattern := QRegularExpression.literal "1".toList "1".toList
    format := { QTextCharFormat.plain with fontUnderline := true }
    captureGroup := 0 }

/-- An example highlighter: the markers `/*` and `*/`, one language rule
that colours the digit `1` with the number colour, and the custom rule
`sampleCustomRule`. -/
def sampleDigitHighlighter : SyntaxHighlighter :=
  { cStyleHighlighter with
    m_rules :=
      [{ pattern := QRegularExpression.literal "1".toList "1".toList
         format := { QTextCharFormat.plain with foreground := some defaultThemeColors.number }
         captureGroup := 0 }]
    m_customRules := [sampleCustomRule] }

/-! ## The rule list of a language definition, in the words of the spec -/

/-- The language rules that a definition describes, styled with the theme
colours of `h`: a rule `\bword\b` in the keyword colour for every word of
the lists `primary`, `secondary`, `operators`; a rule in the string colour
for every string delimiter, then the rule of the interpolated strings when
`f_strings` is set; the rule of the line comment, in the comment colour and
italic; a rule for every entry of `highlighting_rules`; a rule for every
member of `special_rules`; in this order. -/
def definitionRules (engine : QString → QString → Nat → Option QRegularExpressionMatch)
    (h : SyntaxHighlighter) (json : LanguageJson) : List HighlightRule :=
  (match json.keywords with
    | none => []
    | some keywords =>
      (keywords.primary.getD [] ++ keywords.secondary.getD [] ++
        keywords.operators.getD []).map (fun word =>
          ({ pattern := QRegularExpression.ofPattern engine
               ("\\b".toList ++ word ++ "\\b".toList)
             format := { QTextCharFormat.plain with foreground := some h.m_themeColors.keyword }
             captureGroup := 0 } : HighlightRule))) ++
  (match json.strings with
    | none => []
    | some strings =>
      strings.delimiters.map (fun delim =>
          ({ pattern := QRegularExpression.ofPattern engine
               (QRegularExpression.escape delim ++ "[^".toList ++
                 QRegularExpression.escape delim ++ "]*".toList ++
                 QRegularExpression.escape delim)
             format := { QTextCharFormat.plain with foreground := some h.m_themeColors.string }
             captureGroup := 0 } : HighlightRule)) ++
        (if strings.f_strings then
          [({ pattern := QRegularExpression.ofPattern engine
                "f[\\\"'][^\\\"']*\\\x7b[^\x7d]*\\\x7d[^\\\"']*[\\\"']".toList
              format := { QTextCharFormat.plain with foreground := some h.m_themeColors.string }
              captureGroup := 0 } : HighlightRule)]
        else [])) ++
  (match json.comments with
    | none => []
    | some comments =>
      match comments.line with
      | none => []
      | some line =>
        [({ pattern := QRegularExpression.ofPattern engine (line ++ ".*".toList)
            format := { QTextCharFormat.plain with
                        foreground := some h.m_themeColors.comment, fontItalic := true }
            captureGroup := 0 } : HighlightRule)]) ++
  (json.highlighting_rules.getD []).map (fun ruleObj =>
    ({ pattern := QRegularExpression.ofPattern engine ruleObj.pattern
       format := h.createFormatFromStyle ruleObj.style
       captureGroup := ruleObj.capture_group.getD 0 } : HighlightRule)) ++
  (json.special_rules.getD []).map (fun member =>
    ({ pattern := QRegularExpression.ofPattern engine member.2.pattern
       format := h.createFormatFromStyle member.2.style
       captureGroup := member.2.capture_group.getD 0 } : HighlightRule))

/-- The keyword colour after `loadTheme`: that of the theme when it gives
one, else the colour as it was. -/
def ThemeJson.keywordOr (theme : ThemeJson) (keyword : QColor) : QColor :=
  match theme.colors with
  | none => keyword
  | some colors => colors.keyword.getD keyword

/-- An example language definition that uses every part: two keyword lists,
a string delimiter with interpolated strings, a line comment, a
highlighting rule and a special rule. -/
def fullLanguage : LanguageJson :=
  { keywords := some { primary := some ["if".toList], secondary := none
                       operators := some ["and".toList] }
    strings := some { delimiters := ["'".toList], f_strings := true }
    comments := some { line := some "#".toList, block := none }
    highlighting_rules := some
      [{ pattern := "[0-9]+".toList, capture_group := some 0
         style := { color := none, type := some "number".toList, background := none
                    fontStyle := none } }]
    special_rules := some
      [("decorator".toList,
        { pattern := "@(\\w+)".toList, capture_group := some 1
          style := { color := some "#ABCDEF".toList, type := none, background := none
                     fontStyle := some "bold".toList } })]
    theme := none }

/-! ## The undo of the spec, for comparison -/

/-- Method `SyntaxHighlighter::addCustomRule(rule)`. -/
def SyntaxHighlighter.addCustomRule (h : SyntaxHighlighter) (rule : HighlightRule) :
    SyntaxHighlighter × List HighlighterEvent :=
  ({ h with m_customRules := h.m_customRules ++ [rule] }, [HighlighterEvent.rehighlight])

/-- Method `SyntaxHighlighter::removeCustomRule(pattern)`: `std::remove_if`
moves the rules that stay to the front in their order, `erase` cuts the
rest. -/
def SyntaxHighlighter.removeCustomRule (h : SyntaxHighlighter) (pattern : QRegularExpression) :
    SyntaxHighlighter × List HighlighterEvent :=
  ({ h with
     m_customRules :=
       h.m_customRules.filter (fun rule => !decide (rule.pattern.pattern = pattern.pattern)) },
    [HighlighterEvent.rehighlight])

/-- Method `SyntaxHighlighter::clearCustomRules()`. -/
def SyntaxHighlighter.clearCustomRules (h : SyntaxHighlighter) :
    SyntaxHighlighter × List HighlighterEvent :=
  ({ h with m_customRules := [] }, [HighlighterEvent.rehighlight])

/-! ## The scan of `handleMultiLine` -/

/-- From an opener at `i`, the scan of `handleMultiLine` reaches an opener
at `j`: `j` is `i`, or the comment that begins at `i` has a closer and the
scan reaches `j` from the first opener at or after the end of that closer.
The closer of a comment is searched from the index of its opener, as the
code searches it. -/
inductive SyntaxHighlighter.scanReaches (h : SyntaxHighlighter) (text : QString) :
    Int → Int → Prop
  | here (i : Int) : SyntaxHighlighter.scanReaches h text i i
  | next (i j : Int) :
      capturedStart (h.m_blockCommentEnd.matchAt text i) 0 ≠ -1 →
      0 ≤ QString.indexOf text h.m_blockCommentStart
        (capturedStart (h.m_blockCommentEnd.matchAt text i) 0 +
          capturedLength (h.m_blockCommentEnd.matchAt text i) 0) →
      SyntaxHighlighter.scanReaches h text
        (QString.indexOf text h.m_blockCommentStart
          (capturedStart (h.m_blockCommentEnd.matchAt text i) 0 +
            capturedLength (h.m_blockCommentEnd.matchAt text i) 0)) j →
      SyntaxHighlighter.scanReaches h text i j

/-- The scan of a line entered outside a comment reaches an opener at `j`
with no closer: the line has a first opener, the scan reaches `j` from it,
and the search of the closer from `j` finds nothing. -/
def SyntaxHighlighter.reachesOpenComment (h : SyntaxHighlighter) (text : QString) (j : Int) :
    Prop :=
  0 ≤ QString.indexOf text h.m_blockCommentStart 0 ∧
    SyntaxHighlighter.scanReaches h text (QString.indexOf text h.m_blockCommentStart 0) j ∧
    h.m_blockCommentEnd.matchAt text j = none

/-- An example highlighter whose block comments open and close with the
same marker `"""`. -/
def docstringHighlighter : SyntaxHighlighter :=
  { cStyleHighlighter with
    m_currentLanguage := "py".toList
    m_blockCommentStart := QRegularExpression.literal "\"\"\"".toList "\"\"\"".toList
    m_blockCommentEnd := QRegularExpression.literal "\"\"\"".toList "\"\"\"".toList }

/-- Successive spans of the scan: the next one starts at or after the end of
the one before, which is not empty. -/
def spansAdvance (a b : Int × Int) : Prop :=
  a.1 < a.1 + a.2 ∧ a.1 + a.2 ≤ b.1 ∧ a.1 + a.2 < b.1 + b.2

/-! ## Reachable editor states -/

/-- The states that calls of `insertText` and of `undo` reach from the
state built by the constructor. -/
inductive EditorCore.Reachable (qHash : QString → Nat) : EditorCore → Prop
  | init : EditorCore.Reachable qHash (EditorCore.init qHash)
  | insertText (s : EditorCore) (line column : Int) (text : QString) (now : Int) :
      EditorCore.Reachable qHash s →
      EditorCore.Reachable qHash (EditorCore.insertText qHash s line column text now)
  | undo (s u : EditorCore) :
      EditorCore.Reachable qHash s → EditorCore.undo qHash s = some u →
      EditorCore.Reachable qHash u

/-- The document `lines` is what the insertions `actions`, latest first,
make of the one empty line, each one a single-change action recorded at a
position that was valid when it was made. -/
inductive InsertHistory : List QString → List ComplexEditAction → Prop
  | init : InsertHistory [[]] []
  | step (lines : List QString) (actions : List ComplexEditAction) (line column : Nat)
      (old text description : QString) (stamp actionStamp : Int) :
      InsertHistory lines actions →
      lines.get? line = some old → column ≤ old.length →
      InsertHistory (lines.set line (old.take column ++ text ++ old.drop column))
        ({ changes := [{ position := { line := (line : Int), column := (column : Int) }
                         oldText := [], newText := text, timestamp := stamp }]
           description := description, timestamp := actionStamp } :: actions)

/-- The invariant of the reachable states: the change log is well formed and
outside a macro, and the applied part of the stack, `stack[0..index]`, is an
insertion history of the document. -/
def EditorCore.consistent (s : EditorCore) : Prop :=
  s.m_undoStack.wellFormed ∧ s.m_undoStack.inMacro = false ∧
    InsertHistory s.m_buffer.lines
      ((s.m_undoStack.stack.take (s.m_undoStack.index + 1).toNat).reverse)

/-- An example state with the in-macro flag of the change log set and one
change pending: the line `abc`, entered in one insertion. -/
def EditorCore.sampleInMacro : EditorCore :=
  EditorCore.insertText sumHash
    { EditorCore.ofLines sumHash [[]] with
      m_undoStack := { (EditorCore.ofLines sumHash [[]]).m_undoStack with inMacro := true } }
    0 0 "abc".toList 1

/-- An example state with a current file: the document `ab` of the file
`a.txt`. -/
def EditorCore.sampleSaved : EditorCore :=
  { EditorCore.ofLines sumHash ["ab".toList] with m_currentFile := "a.txt".toList }

/-! ## Examples of language definitions -/

/-- A stand-in for the engine of Qt in the examples: it knows the patterns
`/\*` and `\*/`, which match the literals `/*` and `*/`, and finds no match
of any other pattern. -/
def markerEngine : QString → QString → Nat → Option QRegularExpressionMatch :=
  fun pattern =>
    if pattern = "/\\*".toList then
      (QRegularExpression.literal pattern "/*".toList).matchFrom
    else if pattern = "\\*/".toList then
      (QRegularExpression.literal pattern "*/".toList).matchFrom
    else fun _ _ => none

/-- An example language definition with the block-comment markers `/*` and
`*/` and nothing else. -/
def blockCommentLanguage : LanguageJson :=
  { LanguageJson.empty with
    comments := some { line := none
                       block := some { start := "/\\*".toList, stop := "\\*/".toList } } }

/-- An example language definition with the line-comment marker `#` and no
`comments.block` entry. -/
def lineCommentLanguage : LanguageJson :=
  { LanguageJson.empty with comments := some { line := some "#".toList, block := none } }

/-- The highlighter after its construction, the load of
`blockCommentLanguage` and then the load of `lineCommentLanguage`. -/
def switchedHighlighter : SyntaxHighlighter :=
  (SyntaxHighlighter.loadLanguage markerEngine sameHexColor
    (SyntaxHighlighter.loadLanguage markerEngine sameHexColor (SyntaxHighlighter.init markerEngine)
      "c".toList (some (some blockCommentLanguage))).1
    "py".toList (some (some lineCommentLanguage))).1

/-! ## Recent files (`utilities/settings.cpp`) -/

/-- A `QVariant`, by what the conversions that the settings code applies to
it give: `toInt()`, `toStringList()`, `canConvert<QString>()` and
`canConvert<bool>()`. -/
structure QVariant where
  toInt : Int
  toStringList : List QString
  canConvertString : Bool
  canConvertBool : Bool
  deriving DecidableEq, Repr

/-- The invalid variant `QVariant()`. -/
def QVariant.invalid : QVariant :=
  { toInt := 0, toStringList := [], canConvertString := false, canConvertBool := false }

/-- The variant `QVariant(int)`. -/
def QVariant.ofInt (i : Int) : QVariant :=
  { toInt := i, toStringList := [], canConvertString := true, canConvertBool := true }

/-- The variant `QVariant(QStringList)`. -/
def QVariant.ofStringList (l : List QString) : QVariant :=
  { toInt := 0, toStringList := l, canConvertString := true, canConvertBool := false }

/-- The store of a `QSettings` object: keys and their values, a key at most
once. -/
abbrev QSettings := List (QString × QVariant)

/-- Qt `QSettings::value(key, defaultValue)`. -/
def QSettings.value : QSettings → QString → QVariant → QVariant
  | [], _, defaultValue => defaultValue
  | (k, v) :: rest, key, defaultValue =>
    if k = key then v else QSettings.value rest key defaultValue

/-- Qt `QSettings::setValue(key, value)`. -/
def QSettings.setValue : QSettings → QString → QVariant → QSettings
  | [], key, value => [(key, value)]
  | (k, v) :: rest, key, value =>
    if k = key then (k, value) :: rest else (k, v) :: QSettings.setValue rest key value

/-- The state of the `SettingsManager`: the store, the cloud switch, the log
of the `settingChanged` signals and the number of cloud synchronisations
that `set` has scheduled. -/
structure SettingsManager where
  m_settings : QSettings
  m_cloudSyncEnabled : Bool
  settingChanged : List (QString × QVariant)
  scheduledSyncs : Nat
  deriving DecidableEq, Repr

/-- Method `SettingsManager::validateSetting(key, value)`. -/
def SettingsManager.validateSetting (key : QString) (value : QVariant) : Bool :=
  if key = "editor/font_size".toList then decide (value.toInt ≥ 6 ∧ value.toInt ≤ 72)
  else if key = "editor/tab_width".toList then decide (value.toInt ≥ 1 ∧ value.toInt ≤ 8)
  else if key = "auto_save/interval".toList then decide (value.toInt ≥ 1 ∧ value.toInt ≤ 60)
  else if key = "recent_files/max_count".toList then
    decide (value.toInt ≥ 1 ∧ value.toInt ≤ 50)
  else if "editor/".toList.isPrefixOf key then
    if "font_family".toList.isSuffixOf key then value.canConvertString
    else if "theme".toList.isSuffixOf key then value.canConvertString
    else if "word_wrap".toList.isSuffixOf key then value.canConvertBool
    else true
  else true

/-- Method `SettingsManager::get(key, defaultValue)`. -/
def SettingsManager.get (s : SettingsManager) (key : QString) (defaultValue : QVariant) :
    QVariant :=
  QSettings.value s.m_settings key defaultValue

/-- Method `SettingsManager::set(key, value)`. -/
def SettingsManager.set (s : SettingsManager) (key : QString) (value : QVariant) :
    SettingsManager :=
  if !SettingsManager.validateSetting key value then s
  else
    { s with
      m_settings := QSettings.setValue s.m_settings key value
      settingChanged := s.settingChanged ++ [(key, value)]
      scheduledSyncs :=
        if s.m_cloudSyncEnabled && "cloud_sync/".toList.isPrefixOf key then s.scheduledSyncs + 1
        else s.scheduledSyncs }

/-- Method `SettingsManager::recentFiles()`. -/
def SettingsManager.recentFiles (s : SettingsManager) : List QString :=
  (s.get "recent_files".toList QVariant.invalid).toStringList

/-- Method `SettingsManager::setRecentFiles(files)`. -/
def SettingsManager.setRecentFiles (s : SettingsManager) (files : List QString) :
    SettingsManager :=
  s.set "recent_files".toList (QVariant.ofStringList files)

/-- Method `SettingsManager::maxRecentFiles()`. -/
def SettingsManager.maxRecentFiles (s : SettingsManager) : Int :=
  (s.get "recent_files/max_count".toList (QVariant.ofInt 10)).toInt

/-- Method `SettingsManager::setMaxRecentFiles(count)`. -/
def SettingsManager.setMaxRecentFiles (s : SettingsManager) (count : Int) : SettingsManager :=
  s.set "recent_files/max_count".toList (QVariant.ofInt count)

/-- The loop `while (files.size() > maxRecentFiles()) files.removeLast();` of
`addRecentFile`, run for at most `fuel` iterations. `none` when the loop has
not ended by then, and when `removeLast` meets the empty list, which Qt
leaves undefined. -/
def SettingsManager.removeLastLoop (s : SettingsManager) : Nat → List QString →
    Option (List QString)
  | 0, files => if (files.length : Int) > s.maxRecentFiles then none else some files
  | fuel + 1, files =>
    if (files.length : Int) > s.maxRecentFiles then
      if files.isEmpty then none
      else SettingsManager.removeLastLoop s fuel files.dropLast
    else some files

/-- Method `SettingsManager::addRecentFile(filePath)`. -/
def SettingsManager.addRecentFile (s : SettingsManager) (fuel : Nat) (filePath : QString) :
    Option SettingsManager :=
  let files := s.recentFiles
  let files := files.filter (fun f => !decide (f = filePath))
  let files := filePath :: files
  match SettingsManager.removeLastLoop s fuel files with
  | none => none
  | some files => some (s.setRecentFiles files)

/-- An example store: the recent files `a`, `b`, `a`, `c` and the maximum 3. -/
def SettingsManager.sample : SettingsManager :=
  { m_settings :=
      [("recent_files".toList,
          QVariant.ofStringList ["a".toList, "b".toList, "a".toList, "c".toList]),
        ("recent_files/max_count".toList, QVariant.ofInt 3)]
    m_cloudSyncEnabled := false
    settingChanged := []
    scheduledSyncs := 0 }

/-! ## Version compatibility (`plugins/manager.cpp`) -/

/-- Qt `match.captured(nth)` of a match in `text`: the part of the text that
the group has captured, empty when there is no match or no such group. -/
def captured (text : QString) (m : Option QRegularExpressionMatch) (nth : Nat) : QString :=
  if capturedStart m nth < 0 then []
  else QString.mid text (capturedStart m nth).toNat (capturedLength m nth).toNat

/-- The expression `^(\d+)\.(\d+)` of `isVersionCompatible`. `^` lets it
match at the start of the text only; `\d` is a digit 0 to 9; the first
`\d+` takes every leading digit, since after fewer of them the next
character is a digit and not the dot; the second `\d+` takes every digit
after the dot. The groups are the whole match, the first and the second
number. -/
def PluginManager.versionExpression : QRegularExpression :=
  { pattern := "^(\\d+)\\.(\\d+)".toList
    matchFrom := fun text offset =>
      let major := text.takeWhile Char.isDigit
      let afterMajor := text.drop major.length
      let minor := (afterMajor.drop 1).takeWhile Char.isDigit
      if offset = 0 ∧ major ≠ [] ∧ afterMajor.head? = some '.' ∧ minor ≠ [] then
        some { groups := [(0, ((major.length + 1 + minor.length : Nat) : Int)),
                          (0, (major.length : Int)),
                          (((major.length + 1 : Nat) : Int), (minor.length : Int))] }
      else none }

/-- Method `PluginManager::isVersionCompatible(pluginVersion, editorVersion)`. -/
def PluginManager.isVersionCompatible (pluginVersion editorVersion : QString) : Bool :=
  let re := PluginManager.versionExpression
  let pluginMatch := re.matchAt pluginVersion 0
  let editorMatch := re.matchAt editorVersion 0
  pluginMatch.isSome && editorMatch.isSome &&
    decide (captured pluginVersion pluginMatch 1 = captured editorVersion editorMatch 1)

/-- The wording of the version rule: the text begins with
`<digits>.<digits>`, and `major` is the digit string before the dot. -/
def beginsWithVersion (s major : QString) : Prop :=
  ∃ minor rest : QString, s = major ++ '.' :: (minor ++ rest) ∧
    major ≠ [] ∧ (∀ c ∈ major, c.isDigit = true) ∧
    minor ≠ [] ∧ (∀ c ∈ minor, c.isDigit = true)

/-! ## Lemmas on the Qt value types -/

theorem list_set_of_get? {α : Type} (l : List α) (n : Nat) (a : α) (h : l.get? n = some a) :
    l.set n a = l := by
  induction l generalizing n with
  | nil => rfl
  | cons x xs ih =>
    cases n with
    | zero =>
      simp only [List.get?_cons_zero, Option.some.injEq] at h
      rw [List.set_cons_zero, h]
    | succ m =>
      simp only [List.get?_cons_succ] at h
      rw [List.set_cons_succ, ih m h]

theorem QHash.assign_assign {α : Type} (m : QHash α) (k : Int) (v w : α) :
    QHash.assign (QHash.assign m k v) k w = QHash.assign m k w := by
  induction m with
  | nil => simp [QHash.assign]
  | cons e rest ih =>
    obtain ⟨k1, v1⟩ := e
    by_cases h : k1 = k
    · simp [QHash.assign, h]
    · simp [QHash.assign, h, ih]

theorem QHash.assign_of_value {α : Type} (m : QHash α) (k : Int) (v : α)
    (h : QHash.value m k = some v) : QHash.assign m k v = m := by
  induction m with
  | nil => simp [QHash.value] at h
  | cons e rest ih =>
    obtain ⟨k1, v1⟩ := e
    by_cases hk : k1 = k
    · simp only [QHash.value, hk, if_true, Option.some.injEq] at h
      simp [QHash.assign, hk, h]
    · simp only [QHash.value, hk, if_false] at h
      simp [QHash.assign, hk, ih h]

theorem QHash.value_assign {α : Type} (m : QHash α) (k j : Int) (v : α) :
    QHash.value (QHash.assign m k v) j = if k = j then some v else QHash.value m j := by
  induction m with
  | nil => simp [QHash.assign, QHash.value]
  | cons e rest ih =>
    obtain ⟨k1, v1⟩ := e
    by_cases hk : k1 = k
    · by_cases hj : k = j
      · simp [QHash.assign, QHash.value, hk, hj]
      · simp [QHash.assign, QHash.value, hk, hj]
    · by_cases hj : k1 = j
      · have h1 : ¬ k = j := fun e => hk (hj.trans e.symm)
        have h2 : ¬ j = k := fun e => h1 e.symm
        subst hj
        simp [QHash.assign, QHash.value, h1, h2]
      · simp [QHash.assign, QHash.value, hk, hj, ih]

theorem QString.replace_inside (s : QString) (n k : Nat) (r : QString)
    (h : n + k ≤ s.length) :
    QString.replace s (n : Int) (k : Int) r = s.take n ++ r ++ s.drop (n + k) := by
  unfold QString.replace
  have h2 : ¬ ((n : Int) < 0 ∨ (n : Int) > (s.length : Int)) := by omega
  have h3 : ¬ ((k : Int) > (s.length : Int) - (n : Int)) := by omega
  rw [if_neg h2]
  simp only [if_neg h3]
  have h4 : ((n : Int) + (k : Int)).toNat = n + k := by omega
  rw [h4, Int.toNat_ofNat]

theorem QString.insert_inside (s : QString) (n : Nat) (t : QString) :
    QString.insert s (n : Int) t = s.take n ++ t ++ s.drop n := by
  unfold QString.insert
  rw [Int.toNat_ofNat]

/-- Removing what was just inserted gives the string back. -/
theorem QString.replace_insert_cancel (s : QString) (n : Nat) (t : QString)
    (hn : n ≤ s.length) :
    QString.replace (s.take n ++ t ++ s.drop n) (n : Int) (t.length : Int) [] = s := by
  have ht : (s.take n).length = n := by simp [List.length_take, hn]
  have hl : n + t.length ≤ (s.take n ++ t ++ s.drop n).length := by
    simp only [List.length_append, ht]; omega
  rw [QString.replace_inside _ _ _ _ hl]
  have e1 : (s.take n ++ t ++ s.drop n).take n = s.take n := by
    rw [List.append_assoc, List.take_append_eq_append_take, ht]
    simp
  have e2 : (s.take n ++ t ++ s.drop n).drop (n + t.length) = s.drop n := by
    rw [List.append_assoc, List.drop_append_eq_append_drop, ht]
    rw [List.drop_of_length_le (by omega)]
    simp
  rw [e1, e2]
  simp

/-- Inserting `r` and then removing as many characters as `r` has gives the
string back. -/
theorem QString.replace_replace_nil (X r : QString) (n : Nat) (hn : n ≤ X.length) :
    QString.replace (QString.replace X (n : Int) ((([] : QString).length : Nat) : Int) r)
      (n : Int) (r.length : Int) [] = X := by
  have e1 := QString.replace_inside X n 0 r (by omega)
  rw [Nat.add_zero] at e1
  simp only [List.length_nil]
  rw [e1]
  exact QString.replace_insert_cancel X n r hn

/-- Putting back what was just cut out gives the string back. -/
theorem QString.replace_cut_cancel (s : QString) (n k : Nat) (h : n + k ≤ s.length) :
    QString.replace (s.take n ++ s.drop (n + k)) (n : Int) ((([] : QString).length : Nat) : Int)
      (QString.mid s n k) = s := by
  have ht : (s.take n).length = n := by simp [List.length_take]; omega
  have hl : n + 0 ≤ (s.take n ++ s.drop (n + k)).length := by
    simp only [List.length_append, ht]; omega
  have := QString.replace_inside (s.take n ++ s.drop (n + k)) n 0 (QString.mid s n k) hl
  simp only [List.length_nil]
  rw [this]
  have e1 : (s.take n ++ s.drop (n + k)).take n = s.take n := by
    rw [List.take_append_eq_append_take, ht]; simp
  have e2 : (s.take n ++ s.drop (n + k)).drop (n + 0) = s.drop (n + k) := by
    rw [Nat.add_zero, List.drop_append_eq_append_drop, ht]
    rw [List.drop_of_length_le (by omega)]; simp
  rw [e1, e2]
  unfold QString.mid
  rw [List.append_assoc]
  have e3 : (s.drop n).take k ++ s.drop (n + k) = s.drop n := by
    rw [← List.drop_drop]; exact List.take_append_drop k (s.drop n)
  rw [e3]; exact List.take_append_drop n s

/-! ## Lemmas on `insertText` -/

theorem lineText_get? (s : EditorCore) (line : Int) (h0 : 0 ≤ line) (h1 : line < s.lineCount) :
    s.m_buffer.lines.get? line.toNat = some (s.lineText line) := by
  unfold EditorCore.lineCount at h1
  have hlt : line.toNat < s.m_buffer.lines.length := by omega
  unfold EditorCore.lineText
  rw [if_neg (by omega)]
  rw [List.getD_eq_getElem?_getD, List.get?_eq_getElem?, List.getElem?_eq_getElem hlt]
  rfl

theorem insertText_invalid (qHash : QString → Nat) (s : EditorCore) (line column : Int)
    (text : QString) (now : Int) (h : ¬ s.validPosition line column) :
    EditorCore.insertText qHash s line column text now = s := by
  unfold EditorCore.insertText
  by_cases hl : line < 0 ∨ line ≥ (s.m_buffer.lines.length : Int)
  · rw [if_pos hl]
  · rw [if_neg hl]
    have h0 : 0 ≤ line := by omega
    have h1 : line < s.lineCount := by unfold EditorCore.lineCount; omega
    rw [lineText_get? s line h0 h1]
    simp only
    have hc : column < 0 ∨ column > ((s.lineText line).length : Int) := by
      unfold EditorCore.validPosition at h
      by_contra hc
      exact h ⟨h0, h1, by omega, by omega⟩
    rw [if_pos hc]

theorem insertText_valid (qHash : QString → Nat) (s : EditorCore) (line column : Int)
    (text : QString) (now : Int) (h : s.validPosition line column) :
    EditorCore.insertText qHash s line column text now =
      if s.m_bulkOperation then insertedState qHash s line column text now
      else (((insertedState qHash s line column text now).emitTextChanged).emit
        (Signal.modificationChanged true)).emit
        (Signal.cursorPositionChanged line (column + (text.length : Int))) := by
  obtain ⟨h0, h1, h2, h3⟩ := h
  have hlt : line.toNat < s.m_buffer.lines.length := by
    unfold EditorCore.lineCount at h1; omega
  unfold EditorCore.insertText
  rw [if_neg (by omega), lineText_get? s line h0 h1]
  simp only
  rw [if_neg (by omega)]
  have hu : DocumentBuffer.updateHash qHash
      { s.m_buffer with
        lines := s.m_buffer.lines.set line.toNat (QString.insert (s.lineText line) column text) }
      line = (insertedState qHash s line column text now).m_buffer := by
    unfold DocumentBuffer.updateHash insertedState
    rw [if_neg (by omega)]
    simp only [List.get?_eq_getElem?]
    rw [List.getElem?_set_self (by simpa using hlt)]
  rw [hu]
  rfl

/-! ## Lemmas on `undo` -/

theorem revertChange_some (qHash : QString → Nat) (b : DocumentBuffer) (ch : TextChange)
    (l : QString) (h0 : 0 ≤ ch.position.line)
    (hl : b.lines.get? ch.position.line.toNat = some l) :
    ∃ b1, revertChange qHash b ch = some b1 ∧
      b1.lines = b.lines.set ch.position.line.toNat
        (QString.replace l ch.position.column (ch.newText.length : Int) ch.oldText) ∧
      b1.encoding = b.encoding := by
  unfold revertChange
  rw [if_neg (by omega), hl]
  simp only
  refine ⟨_, rfl, ?_, ?_⟩
  · unfold DocumentBuffer.updateHash
    split
    · rfl
    · split <;> rfl
  · unfold DocumentBuffer.updateHash
    split
    · rfl
    · split <;> rfl

theorem undo_step (qHash : QString → Nat) (s : EditorCore) (a : ComplexEditAction)
    (b1 : DocumentBuffer) (hi : 0 ≤ s.m_undoStack.index)
    (ha : s.m_undoStack.stack.get? s.m_undoStack.index.toNat = some a)
    (hr : revertChanges qHash s.m_buffer a.changes = some b1) :
    ∃ s1, EditorCore.undo qHash s = some s1 ∧ s1.m_buffer = b1 ∧
      s1.m_undoStack = { s.m_undoStack with index := s.m_undoStack.index - 1 } ∧
      s1.m_macroRecorder = s.m_macroRecorder ∧ s1.m_currentFile = s.m_currentFile ∧
      s1.m_modified = s.m_modified := by
  unfold EditorCore.undo
  have hc : s.canUndo = true := by
    unfold EditorCore.canUndo
    simp only [decide_eq_true_eq]; omega
  rw [hc]
  simp only [Bool.not_true, Bool.false_eq_true, if_false]
  rw [if_neg (by omega), ha]
  simp only [EditorCore.beginBulkOperation, hr]
  refine ⟨_, rfl, ?_, ?_, ?_, ?_, ?_⟩ <;>
    simp [EditorCore.endBulkOperation, EditorCore.emit, EditorCore.emitTextChanged]

/-! ## Lemmas on the change log -/

theorem record_single_action (u : UndoStack) (ch : TextChange) (now : Int)
    (hwf : u.wellFormed) (hm : u.inMacro = false) :
    u.record ch now =
      { u with
        stack := u.stack.take (u.index + 1).toNat ++
          [{ changes := [ch], description := [], timestamp := now }]
        index := u.index + 1 } := by
  obtain ⟨h1, h2⟩ := hwf
  unfold UndoStack.record
  rw [hm]
  simp only [Bool.false_eq_true, if_false]
  unfold QVector.truncate
  by_cases hp : u.index + 1 < (u.stack.length : Int)
  · rw [if_pos hp]
  · rw [if_neg hp]
    have : (u.index + 1).toNat = u.stack.length := by omega
    rw [this, List.take_length]

theorem record_wellFormed (u : UndoStack) (ch : TextChange) (now : Int)
    (hwf : u.wellFormed) (hm : u.inMacro = false) :
    (u.record ch now).wellFormed ∧ (u.record ch now).inMacro = false := by
  rw [record_single_action u ch now hwf hm]
  obtain ⟨h1, h2⟩ := hwf
  refine ⟨⟨?_, ?_⟩, hm⟩
  · simp only; omega
  · simp only [List.length_append, List.length_take, List.length_singleton]
    push_cast
    omega

theorem undo_of_recorded (qHash : QString → Nat) (s s1 s2 : EditorCore) (ch : TextChange)
    (now : Int) (L X : QString)
    (hwf : s.m_undoStack.wellFormed) (hm : s.m_undoStack.inMacro = false)
    (hrec : RecordedEdit s s1 ch now L X)
    (h2lines : s2.m_buffer.lines = s1.m_buffer.lines)
    (h2index : s2.m_undoStack.index = s1.m_undoStack.index)
    (h2stack : s2.m_undoStack.stack.take (s1.m_undoStack.index + 1).toNat =
      s1.m_undoStack.stack.take (s1.m_undoStack.index + 1).toNat) :
    ∃ s3, EditorCore.undo qHash s2 = some s3 ∧ s3.m_buffer.lines = s.m_buffer.lines ∧
      s3.m_undoStack.index = s.m_undoStack.index ∧
      s3.m_undoStack.stack = s2.m_undoStack.stack ∧
      s3.m_undoStack.inMacro = s2.m_undoStack.inMacro := by
  obtain ⟨h0, hL, hlines, hrep, hstack⟩ := hrec
  rw [record_single_action _ ch now hwf hm] at hstack
  obtain ⟨hw1, hw2⟩ := hwf
  have hidx1 : s1.m_undoStack.index = s.m_undoStack.index + 1 := by rw [hstack]
  have hst1 : s1.m_undoStack.stack = s.m_undoStack.stack.take (s.m_undoStack.index + 1).toNat ++
      [{ changes := [ch], description := [], timestamp := now }] := by rw [hstack]
  have hlen : (s.m_undoStack.stack.take (s.m_undoStack.index + 1).toNat).length =
      (s.m_undoStack.index + 1).toNat := by
    rw [List.length_take]; omega
  -- the action on top of the stack is the recorded one
  have htop : s2.m_undoStack.stack.get? s2.m_undoStack.index.toNat =
      some { changes := [ch], description := [], timestamp := now } := by
    have e1 : s2.m_undoStack.index.toNat < (s1.m_undoStack.index + 1).toNat := by omega
    have e2 : (s2.m_undoStack.stack.take (s1.m_undoStack.index + 1).toNat).get?
        s2.m_undoStack.index.toNat = s2.m_undoStack.stack.get? s2.m_undoStack.index.toNat := by
      simp only [List.get?_eq_getElem?]
      exact List.getElem?_take_of_lt e1
    rw [← e2, h2stack, hst1]
    have e3 : (s1.m_undoStack.index + 1).toNat =
        (s.m_undoStack.stack.take (s.m_undoStack.index + 1).toNat ++
          [({ changes := [ch], description := [], timestamp := now } : ComplexEditAction)]).length := by
      rw [List.length_append, hlen, List.length_singleton]; omega
    rw [e3, List.take_length]
    have e4 : s2.m_undoStack.index.toNat =
        (s.m_undoStack.stack.take (s.m_undoStack.index + 1).toNat).length := by
      rw [hlen]; omega
    rw [e4]
    simp
  -- the line it touches holds `X`
  have hltn : ch.position.line.toNat < s.m_buffer.lines.length := by
    rw [List.get?_eq_getElem?] at hL
    exact (List.getElem?_eq_some_iff.mp hL).1
  have hX : s2.m_buffer.lines.get? ch.position.line.toNat = some X := by
    rw [h2lines, hlines, List.get?_eq_getElem?, List.getElem?_set_self hltn]
  obtain ⟨b1, hb1, hb1lines, _⟩ := revertChange_some qHash s2.m_buffer ch X h0 hX
  have hrev : revertChanges qHash s2.m_buffer
      ({ changes := [ch], description := [], timestamp := now } : ComplexEditAction).changes =
      some b1 := by
    simp only [revertChanges, hb1]
  obtain ⟨s3, hs3, hbuf, hus, _, _, _⟩ :=
    undo_step qHash s2 _ b1 (by omega) htop hrev
  refine ⟨s3, hs3, ?_, ?_, ?_, ?_⟩
  · rw [hbuf, hb1lines, hrep, h2lines, hlines, List.set_set]
    exact list_set_of_get? _ _ _ hL
  · rw [hus]; simp only; omega
  · rw [hus]
  · rw [hus]

/-! ## Lemmas on `deleteText` and on edit sequences -/

theorem updateHash_lines (qHash : QString → Nat) (b : DocumentBuffer) (line : Int) :
    (DocumentBuffer.updateHash qHash b line).lines = b.lines ∧
      (DocumentBuffer.updateHash qHash b line).encoding = b.encoding := by
  unfold DocumentBuffer.updateHash
  split
  · exact ⟨rfl, rfl⟩
  · split <;> exact ⟨rfl, rfl⟩

theorem rehashFrom_lines (qHash : QString → Nat) (n : Nat) :
    ∀ (b : DocumentBuffer) (i : Nat), (rehashFrom qHash b n i).lines = b.lines ∧
      (rehashFrom qHash b n i).encoding = b.encoding := by
  induction n with
  | zero => intro b i; exact ⟨rfl, rfl⟩
  | succ k ih =>
    intro b i
    unfold rehashFrom
    obtain ⟨h1, h2⟩ := ih (DocumentBuffer.updateHash qHash b (i : Int)) (i + 1)
    rw [h1, h2]
    exact updateHash_lines qHash b i

theorem deleteText_valid (qHash : QString → Nat) (s : EditorCore)
    (startLine startCol endLine endCol now : Int)
    (h : s.validRange startLine startCol endLine endCol) :
    (EditorCore.deleteText qHash s startLine startCol endLine endCol now).m_buffer.lines =
        s.m_buffer.lines.take startLine.toNat ++
          [(s.lineText startLine).take startCol.toNat ++ (s.lineText endLine).drop endCol.toNat] ++
          s.m_buffer.lines.drop (endLine.toNat + 1) ∧
      (EditorCore.deleteText qHash s startLine startCol endLine endCol now).m_undoStack =
        s.m_undoStack.record
          { position := { line := startLine, column := startCol }
            oldText := s.getText startLine startCol endLine endCol
            newText := [], timestamp := toInt32 now } now := by
  unfold EditorCore.deleteText
  rw [if_neg (by simpa using h)]
  simp only
  split
  · exact ⟨(rehashFrom_lines qHash _ _ _).1, rfl⟩
  · exact ⟨(rehashFrom_lines qHash _ _ _).1, rfl⟩

theorem insertText_recorded (qHash : QString → Nat) (s : EditorCore) (line column : Int)
    (text : QString) (now : Int) (h : s.validPosition line column) :
    RecordedEdit s (EditorCore.insertText qHash s line column text now)
      { position := { line := line, column := column }, oldText := [], newText := text,
        timestamp := toInt32 now } now (s.lineText line)
      (QString.insert (s.lineText line) column text) := by
  have hv := insertText_valid qHash s line column text now h
  obtain ⟨h0, h1, h2, h3⟩ := h
  refine ⟨h0, lineText_get? s line h0 h1, ?_, ?_, ?_⟩
  · rw [hv]; split <;> rfl
  · obtain ⟨n, rfl⟩ := Int.eq_ofNat_of_zero_le h2
    rw [QString.insert_inside]
    exact QString.replace_insert_cancel _ n text (by exact_mod_cast h3)
  · rw [hv]; split <;> rfl

theorem deleteText_recorded (qHash : QString → Nat) (s : EditorCore)
    (line startCol endCol now : Int) (h : s.validRange line startCol line endCol) :
    RecordedEdit s (EditorCore.deleteText qHash s line startCol line endCol now)
      { position := { line := line, column := startCol }
        oldText := s.getText line startCol line endCol
        newText := [], timestamp := toInt32 now } now (s.lineText line)
      ((s.lineText line).take startCol.toNat ++ (s.lineText line).drop endCol.toNat) := by
  obtain ⟨hlines, hstack⟩ := deleteText_valid qHash s line startCol line endCol now h
  obtain ⟨⟨h0, h1, h2, _⟩, ⟨_, _, _, h3⟩, hle⟩ := h
  have hcol : startCol ≤ endCol := by
    rcases hle with hlt | ⟨_, hc⟩
    · simp only at hlt; omega
    · exact hc
  have hlt : line.toNat < s.m_buffer.lines.length := by
    unfold EditorCore.lineCount at h1; omega
  refine ⟨h0, lineText_get? s line h0 h1, ?_, ?_, hstack⟩
  · rw [hlines, List.set_eq_take_append_cons_drop, if_pos hlt, List.append_assoc]
    rfl
  · simp only
    unfold EditorCore.getText
    rw [if_pos rfl]
    obtain ⟨n, rfl⟩ := Int.eq_ofNat_of_zero_le h2
    have hk : 0 ≤ endCol - (n : Int) := by omega
    obtain ⟨k, hk⟩ := Int.eq_ofNat_of_zero_le hk
    have he : endCol = ((n + k : Nat) : Int) := by push_cast; omega
    subst he
    have hk2 : (((n + k : Nat) : Int) - (n : Int)).toNat = k := by omega
    rw [hk2, Int.toNat_ofNat, Int.toNat_ofNat]
    exact QString.replace_cut_cancel _ n k (by exact_mod_cast h3)

theorem apply_recorded (qHash : QString → Nat) (s : EditorCore) (op : EditOp)
    (hs : op.succeeds s) (hw : op.withinLine) :
    ∃ ch now L X, RecordedEdit s (op.apply qHash s) ch now L X := by
  cases op with
  | insertText line column text now =>
    exact ⟨_, now, _, _, insertText_recorded qHash s line column text now hs⟩
  | deleteText a b c d now =>
    have ha : a = c := hw
    subst ha
    exact ⟨_, now, _, _, deleteText_recorded qHash s a b d now hs⟩

/-- The round trip, with what the induction needs about the change log. The
undos start from any state `s2` that agrees with the state after the edits
on the lines, the index and the first `index + 1` actions. -/
theorem undoN_applyEdits (qHash : QString → Nat) (ops : List EditOp) :
    ∀ s s2 : EditorCore, s.m_undoStack.wellFormed → s.m_undoStack.inMacro = false →
      editsSucceed qHash s ops → (∀ op ∈ ops, op.withinLine) →
      s2.m_buffer.lines = (applyEdits qHash s ops).m_buffer.lines →
      s2.m_undoStack.index = (applyEdits qHash s ops).m_undoStack.index →
      s2.m_undoStack.stack.take ((applyEdits qHash s ops).m_undoStack.index + 1).toNat =
        (applyEdits qHash s ops).m_undoStack.stack.take
          ((applyEdits qHash s ops).m_undoStack.index + 1).toNat →
      ∃ s1, EditorCore.undoN qHash ops.length s2 = some s1 ∧
        s1.m_buffer.lines = s.m_buffer.lines ∧
        s1.m_undoStack.index = s.m_undoStack.index ∧
        s1.m_undoStack.stack.take (s.m_undoStack.index + 1).toNat =
          s.m_undoStack.stack.take (s.m_undoStack.index + 1).toNat := by
  induction ops with
  | nil => intro s s2 _ _ _ _ h1 h2 h3; exact ⟨s2, rfl, h1, h2, h3⟩
  | cons op rest ih =>
    intro s s0 hwf hm hs hw g1 g2 g3
    obtain ⟨hop, hrest⟩ := hs
    obtain ⟨ch, now, L, X, hrec⟩ :=
      apply_recorded qHash s op hop (hw op (List.mem_cons_self _ _))
    have hst := hrec.2.2.2.2
    obtain ⟨hwf1, hm1⟩ := record_wellFormed s.m_undoStack ch now hwf hm
    rw [← hst] at hwf1 hm1
    obtain ⟨s2, hs2, h2lines, h2index, h2stack⟩ :=
      ih (op.apply qHash s) s0 hwf1 hm1 hrest (fun o ho => hw o (List.mem_cons_of_mem _ ho))
        g1 g2 g3
    obtain ⟨s3, hs3, h3lines, h3index, h3stack, _⟩ :=
      undo_of_recorded qHash s (op.apply qHash s) s2 ch now L X hwf hm hrec h2lines h2index h2stack
    refine ⟨s3, ?_, h3lines, h3index, ?_⟩
    · show (EditorCore.undoN qHash rest.length s0).bind (EditorCore.undo qHash) = some s3
      rw [hs2]; exact hs3
    · rw [h3stack]
      have hidx : (op.apply qHash s).m_undoStack.index = s.m_undoStack.index + 1 := by
        rw [hst, record_single_action _ ch now hwf hm]
      have hstk : (op.apply qHash s).m_undoStack.stack =
          s.m_undoStack.stack.take (s.m_undoStack.index + 1).toNat ++
            [{ changes := [ch], description := [], timestamp := now }] := by
        rw [hst, record_single_action _ ch now hwf hm]
      obtain ⟨hw1, hw2⟩ := hwf
      have hmin : (s.m_undoStack.index + 1).toNat ≤ (s.m_undoStack.index + 1 + 1).toNat := by omega
      have e1 : s2.m_undoStack.stack.take (s.m_undoStack.index + 1).toNat =
          (s2.m_undoStack.stack.take (s.m_undoStack.index + 1 + 1).toNat).take
            (s.m_undoStack.index + 1).toNat := by
        rw [List.take_take, Nat.min_eq_left hmin]
      rw [e1, ← hidx, h2stack, hidx, hstk, List.take_take, Nat.min_eq_left hmin]
      have hlen : (s.m_undoStack.stack.take (s.m_undoStack.index + 1).toNat).length =
          (s.m_undoStack.index + 1).toNat := by
        rw [List.length_take]; omega
      rw [List.take_append_eq_append_take, hlen, Nat.sub_self, List.take_zero, List.append_nil,
        List.take_take, Nat.min_self]

/-! ## The round trip -/

theorem revertChange_eq (qHash : QString → Nat) (b : DocumentBuffer) (ch : TextChange)
    (l : QString) (h0 : 0 ≤ ch.position.line)
    (hl : b.lines.get? ch.position.line.toNat = some l) :
    revertChange qHash b ch = some
      { lines := b.lines.set ch.position.line.toNat
          (QString.replace l ch.position.column (ch.newText.length : Int) ch.oldText)
        encoding := b.encoding
        lineHashes := QHash.assign b.lineHashes ch.position.line
          (qHash (QString.replace l ch.position.column (ch.newText.length : Int) ch.oldText)) } := by
  have hlt : ch.position.line.toNat < b.lines.length := by
    rw [List.get?_eq_getElem?] at hl
    exact (List.getElem?_eq_some_iff.mp hl).1
  unfold revertChange
  rw [if_neg (by omega), hl]
  simp only
  unfold DocumentBuffer.updateHash
  rw [if_neg (by omega)]
  simp only [List.get?_eq_getElem?]
  rw [List.getElem?_set_self hlt]

theorem reapplyChange_eq (qHash : QString → Nat) (b : DocumentBuffer) (ch : TextChange)
    (l : QString) (h0 : 0 ≤ ch.position.line)
    (hl : b.lines.get? ch.position.line.toNat = some l) :
    reapplyChange qHash b ch = some
      { lines := b.lines.set ch.position.line.toNat
          (QString.replace l ch.position.column (ch.oldText.length : Int) ch.newText)
        encoding := b.encoding
        lineHashes := QHash.assign b.lineHashes ch.position.line
          (qHash (QString.replace l ch.position.column (ch.oldText.length : Int) ch.newText)) } := by
  have hlt : ch.position.line.toNat < b.lines.length := by
    rw [List.get?_eq_getElem?] at hl
    exact (List.getElem?_eq_some_iff.mp hl).1
  unfold reapplyChange
  rw [if_neg (by omega), hl]
  simp only
  unfold DocumentBuffer.updateHash
  rw [if_neg (by omega)]
  simp only [List.get?_eq_getElem?]
  rw [List.getElem?_set_self hlt]

theorem revertChanges_single (qHash : QString → Nat) (b : DocumentBuffer) (ch : TextChange) :
    revertChanges qHash b [ch] = revertChange qHash b ch := by
  unfold revertChanges
  cases revertChange qHash b ch <;> rfl

theorem reapplyChanges_single (qHash : QString → Nat) (b : DocumentBuffer) (ch : TextChange) :
    reapplyChanges qHash b [ch] = reapplyChange qHash b ch := by
  unfold reapplyChanges
  cases reapplyChange qHash b ch <;> rfl

theorem redo_step (qHash : QString → Nat) (s : EditorCore) (a : ComplexEditAction)
    (b1 : DocumentBuffer) (hi : -1 ≤ s.m_undoStack.index)
    (hlt : s.m_undoStack.index + 1 < (s.m_undoStack.stack.length : Int))
    (ha : s.m_undoStack.stack.get? (s.m_undoStack.index + 1).toNat = some a)
    (hr : reapplyChanges qHash s.m_buffer a.changes = some b1) :
    ∃ s1, EditorCore.redo qHash s = some s1 ∧ s1.m_buffer = b1 ∧
      s1.m_undoStack = { s.m_undoStack with index := s.m_undoStack.index + 1 } ∧
      s1.m_macroRecorder = s.m_macroRecorder ∧ s1.m_currentFile = s.m_currentFile ∧
      s1.m_modified = s.m_modified := by
  unfold EditorCore.redo
  have hc : s.canRedo = true := by
    unfold EditorCore.canRedo
    simp only [decide_eq_true_eq]; omega
  rw [hc]
  simp only [Bool.not_true, Bool.false_eq_true, if_false]
  rw [if_neg (by omega), ha]
  simp only [EditorCore.beginBulkOperation, hr]
  refine ⟨_, rfl, ?_, ?_, ?_, ?_, ?_⟩ <;>
    simp [EditorCore.endBulkOperation, EditorCore.emit, EditorCore.emitTextChanged]

/-- Undo then redo of the single-change action on top of a well-formed
change log gives back the buffer and the change log, when the change sits on
a line `X` that its undo and redo take back to `X` and whose fingerprint is
fresh. -/
theorem undo_redo_of_top (qHash : QString → Nat) (p : EditorCore) (ch : TextChange) (now : Int)
    (X : QString) (hi : 0 ≤ p.m_undoStack.index)
    (hlen : p.m_undoStack.index < (p.m_undoStack.stack.length : Int))
    (htop : p.m_undoStack.stack.get? p.m_undoStack.index.toNat =
      some { changes := [ch], description := [], timestamp := now })
    (h0 : 0 ≤ ch.position.line)
    (hX : p.m_buffer.lines.get? ch.position.line.toNat = some X)
    (hfp : QHash.value p.m_buffer.lineHashes ch.position.line = some (qHash X))
    (hrep : QString.replace
      (QString.replace X ch.position.column (ch.newText.length : Int) ch.oldText)
      ch.position.column (ch.oldText.length : Int) ch.newText = X) :
    ∃ u r, EditorCore.undo qHash p = some u ∧ EditorCore.redo qHash u = some r ∧
      r.m_buffer = p.m_buffer ∧ r.m_undoStack = p.m_undoStack ∧
      r.m_macroRecorder = p.m_macroRecorder ∧ r.m_currentFile = p.m_currentFile ∧
      r.m_modified = p.m_modified ∧ u.canRedo = true := by
  have hlt : ch.position.line.toNat < p.m_buffer.lines.length := by
    rw [List.get?_eq_getElem?] at hX
    exact (List.getElem?_eq_some_iff.mp hX).1
  have hrev := revertChange_eq qHash p.m_buffer ch X h0 hX
  have hrevs := (revertChanges_single qHash p.m_buffer ch).trans hrev
  obtain ⟨u, hu, hubuf, hustack, hurec, hufile, humod⟩ :=
    undo_step qHash p _ _ hi htop hrevs
  have huidx : u.m_undoStack.index = p.m_undoStack.index - 1 := by rw [hustack]
  have hustk : u.m_undoStack.stack = p.m_undoStack.stack := by rw [hustack]
  have hUline : u.m_buffer.lines.get? ch.position.line.toNat = some
      (QString.replace X ch.position.column (ch.newText.length : Int) ch.oldText) := by
    rw [hubuf]
    simp only [List.get?_eq_getElem?]
    rw [List.getElem?_set_self hlt]
  have hre := reapplyChange_eq qHash u.m_buffer ch _ h0 hUline
  have hres := (reapplyChanges_single qHash u.m_buffer ch).trans hre
  have hutop : u.m_undoStack.stack.get? (u.m_undoStack.index + 1).toNat =
      some { changes := [ch], description := [], timestamp := now } := by
    rw [hustk, huidx]
    have : (p.m_undoStack.index - 1 + 1).toNat = p.m_undoStack.index.toNat := by omega
    rw [this]; exact htop
  obtain ⟨r, hr, hrbuf, hrstack, hrrec, hrfile, hrmod⟩ :=
    redo_step qHash u _ _ (by omega) (by rw [hustk]; omega) hutop hres
  refine ⟨u, r, hu, hr, ?_, ?_, ?_, ?_, ?_, ?_⟩
  · rw [hrbuf, hrep, hubuf]
    simp only [List.set_set]
    rw [QHash.assign_assign, QHash.assign_of_value _ _ _ hfp, list_set_of_get? _ _ _ hX]
  · rw [hrstack, hustack]
    simp only
    have : p.m_undoStack.index - 1 + 1 = p.m_undoStack.index := by omega
    rw [this]
  · rw [hrrec, hurec]
  · rw [hrfile, hufile]
  · rw [hrmod, humod]
  · unfold EditorCore.canRedo
    rw [hustk, huidx]
    simp only [decide_eq_true_eq]; omega

/-! ## Fingerprints -/

theorem updateHash_eq (qHash : QString → Nat) (b : DocumentBuffer) (i : Nat) (text : QString)
    (h : b.lines.get? i = some text) :
    DocumentBuffer.updateHash qHash b (i : Int) =
      { b with lineHashes := QHash.assign b.lineHashes (i : Int) (qHash text) } := by
  unfold DocumentBuffer.updateHash
  rw [if_neg (by omega), Int.toNat_ofNat, h]

theorem updateHash_value_ne (qHash : QString → Nat) (b : DocumentBuffer) (line k : Int)
    (h : line ≠ k) :
    QHash.value (DocumentBuffer.updateHash qHash b line).lineHashes k =
      QHash.value b.lineHashes k := by
  unfold DocumentBuffer.updateHash
  split
  · rfl
  · split
    · rfl
    · simp only [QHash.value_assign, if_neg h]

theorem rehashFrom_value_below (qHash : QString → Nat) (n : Nat) :
    ∀ (b : DocumentBuffer) (i : Nat) (k : Int), k < (i : Int) →
      QHash.value (rehashFrom qHash b n i).lineHashes k = QHash.value b.lineHashes k := by
  induction n with
  | zero => intro b i k _; rfl
  | succ m ih =>
    intro b i k hk
    unfold rehashFrom
    rw [ih _ (i + 1) k (by push_cast; omega)]
    exact updateHash_value_ne qHash b i k (by omega)

theorem rehashFrom_value (qHash : QString → Nat) (n : Nat) :
    ∀ (b : DocumentBuffer) (i j : Nat) (text : QString), i ≤ j → j < i + n →
      b.lines.get? j = some text →
      QHash.value (rehashFrom qHash b n i).lineHashes (j : Int) = some (qHash text) := by
  induction n with
  | zero => intro b i j text h1 h2 _; omega
  | succ m ih =>
    intro b i j text h1 h2 hj
    unfold rehashFrom
    by_cases hij : i = j
    · subst hij
      rw [rehashFrom_value_below qHash m _ (i + 1) (i : Int) (by push_cast; omega)]
      rw [updateHash_eq qHash b i text hj]
      simp only [QHash.value_assign, if_true]
    · refine ih _ (i + 1) j text (by omega) (by omega) ?_
      rw [(updateHash_lines qHash b i).1]; exact hj

/-! ## Undo followed by redo -/

theorem top_after_record (u : UndoStack) (ch : TextChange) (now : Int)
    (hwf : u.wellFormed) (hm : u.inMacro = false) :
    0 ≤ (u.record ch now).index ∧
      (u.record ch now).index < ((u.record ch now).stack.length : Int) ∧
      (u.record ch now).stack.get? (u.record ch now).index.toNat =
        some { changes := [ch], description := [], timestamp := now } := by
  rw [record_single_action u ch now hwf hm]
  obtain ⟨h1, h2⟩ := hwf
  have hlen : (u.stack.take (u.index + 1).toNat).length = (u.index + 1).toNat := by
    rw [List.length_take]; omega
  refine ⟨by simp only; omega, ?_, ?_⟩
  · simp only [List.length_append, hlen, List.length_singleton]
    push_cast; omega
  · simp only [List.get?_eq_getElem?]
    rw [List.getElem?_append_right (by rw [hlen]), hlen, Nat.sub_self]
    rfl

theorem insertText_undo_redo (qHash : QString → Nat) (s : EditorCore) (line column : Int)
    (text : QString) (now : Int) (hwf : s.m_undoStack.wellFormed)
    (hm : s.m_undoStack.inMacro = false) (h : s.validPosition line column) :
    ∃ u r, EditorCore.undo qHash (EditorCore.insertText qHash s line column text now) = some u ∧
      EditorCore.redo qHash u = some r ∧
      r.m_buffer = (EditorCore.insertText qHash s line column text now).m_buffer ∧
      r.m_undoStack = (EditorCore.insertText qHash s line column text now).m_undoStack ∧
      r.m_macroRecorder = (EditorCore.insertText qHash s line column text now).m_macroRecorder ∧
      r.m_currentFile = (EditorCore.insertText qHash s line column text now).m_currentFile ∧
      r.m_modified = (EditorCore.insertText qHash s line column text now).m_modified ∧
      u.canRedo = true := by
  have hv := insertText_valid qHash s line column text now h
  have hbuf : (EditorCore.insertText qHash s line column text now).m_buffer =
      (insertedState qHash s line column text now).m_buffer := by
    rw [hv]; split <;> rfl
  have hstk : (EditorCore.insertText qHash s line column text now).m_undoStack =
      (insertedState qHash s line column text now).m_undoStack := by
    rw [hv]; split <;> rfl
  obtain ⟨h0, h1, h2, h3⟩ := h
  have hlt : line.toNat < s.m_buffer.lines.length := by
    unfold EditorCore.lineCount at h1; omega
  obtain ⟨t1, t2, t3⟩ := top_after_record s.m_undoStack
    ⟨⟨line, column⟩, [], text, toInt32 now⟩ now hwf hm
  refine undo_redo_of_top qHash _ ⟨⟨line, column⟩, [], text, toInt32 now⟩ now
    (QString.insert (s.lineText line) column text) ?_ ?_ ?_ h0 ?_ ?_ ?_
  · rw [hstk]; exact t1
  · rw [hstk]; exact t2
  · rw [hstk]; exact t3
  · rw [hbuf]
    simp only [insertedState, List.get?_eq_getElem?]
    rw [List.getElem?_set_self hlt]
  · rw [hbuf]
    simp only [insertedState, QHash.value_assign, if_true]
  · simp only
    obtain ⟨n, rfl⟩ := Int.eq_ofNat_of_zero_le h2
    have hn : n ≤ (s.lineText line).length := by exact_mod_cast h3
    rw [QString.insert_inside, QString.replace_insert_cancel _ n text hn]
    have := QString.replace_inside (s.lineText line) n 0 text (by omega)
    simp only [List.length_nil]
    rw [Nat.add_zero] at this
    exact this

theorem deleteText_buffer (qHash : QString → Nat) (s : EditorCore)
    (startLine startCol endLine endCol now : Int)
    (h : s.validRange startLine startCol endLine endCol) :
    (EditorCore.deleteText qHash s startLine startCol endLine endCol now).m_buffer =
      rehashFrom qHash
        { s.m_buffer with
          lines := s.m_buffer.lines.take startLine.toNat ++
            [(s.lineText startLine).take startCol.toNat ++
              (s.lineText endLine).drop endCol.toNat] ++
            s.m_buffer.lines.drop (endLine.toNat + 1)
          lineHashes := [] }
        (s.m_buffer.lines.take startLine.toNat ++
            [(s.lineText startLine).take startCol.toNat ++
              (s.lineText endLine).drop endCol.toNat] ++
            s.m_buffer.lines.drop (endLine.toNat + 1)).length 0 := by
  unfold EditorCore.deleteText
  rw [if_neg (by simpa using h)]
  simp only
  split <;> rfl

theorem deleteText_undo_redo (qHash : QString → Nat) (s : EditorCore)
    (startLine startCol endLine endCol now : Int) (hwf : s.m_undoStack.wellFormed)
    (hm : s.m_undoStack.inMacro = false)
    (h : s.validRange startLine startCol endLine endCol) :
    ∃ u r, EditorCore.undo qHash
        (EditorCore.deleteText qHash s startLine startCol endLine endCol now) = some u ∧
      EditorCore.redo qHash u = some r ∧
      r.m_buffer = (EditorCore.deleteText qHash s startLine startCol endLine endCol now).m_buffer ∧
      r.m_undoStack =
        (EditorCore.deleteText qHash s startLine startCol endLine endCol now).m_undoStack ∧
      r.m_macroRecorder =
        (EditorCore.deleteText qHash s startLine startCol endLine endCol now).m_macroRecorder ∧
      r.m_currentFile =
        (EditorCore.deleteText qHash s startLine startCol endLine endCol now).m_currentFile ∧
      r.m_modified =
        (EditorCore.deleteText qHash s startLine startCol endLine endCol now).m_modified ∧
      u.canRedo = true := by
  have hbuf := deleteText_buffer qHash s startLine startCol endLine endCol now h
  obtain ⟨hlines, hstk⟩ := deleteText_valid qHash s startLine startCol endLine endCol now h
  obtain ⟨⟨h0, h1, h2, h3⟩, _, _⟩ := h
  have hlt : startLine.toNat < s.m_buffer.lines.length := by
    unfold EditorCore.lineCount at h1; omega
  have htake : (s.m_buffer.lines.take startLine.toNat).length = startLine.toNat := by
    rw [List.length_take]; omega
  have hget : (s.m_buffer.lines.take startLine.toNat ++
      [(s.lineText startLine).take startCol.toNat ++ (s.lineText endLine).drop endCol.toNat] ++
      s.m_buffer.lines.drop (endLine.toNat + 1)).get? startLine.toNat =
      some ((s.lineText startLine).take startCol.toNat ++
        (s.lineText endLine).drop endCol.toNat) := by
    simp only [List.get?_eq_getElem?, List.append_assoc]
    rw [List.getElem?_append_right (by rw [htake]), htake, Nat.sub_self]
    simp
  have hlen : startLine.toNat < (s.m_buffer.lines.take startLine.toNat ++
      [(s.lineText startLine).take startCol.toNat ++ (s.lineText endLine).drop endCol.toNat] ++
      s.m_buffer.lines.drop (endLine.toNat + 1)).length := by
    simp only [List.length_append, htake, List.length_singleton]
    omega
  obtain ⟨t1, t2, t3⟩ := top_after_record s.m_undoStack
    ⟨⟨startLine, startCol⟩, s.getText startLine startCol endLine endCol, [], toInt32 now⟩
    now hwf hm
  refine undo_redo_of_top qHash _
    ⟨⟨startLine, startCol⟩, s.getText startLine startCol endLine endCol, [], toInt32 now⟩ now
    ((s.lineText startLine).take startCol.toNat ++ (s.lineText endLine).drop endCol.toNat)
    ?_ ?_ ?_ h0 ?_ ?_ ?_
  · rw [hstk]; exact t1
  · rw [hstk]; exact t2
  · rw [hstk]; exact t3
  · rw [hlines]; exact hget
  · rw [hbuf]
    have hcast : ((startLine.toNat : Nat) : Int) = startLine := by omega
    have := rehashFrom_value qHash
      (s.m_buffer.lines.take startLine.toNat ++
        [(s.lineText startLine).take startCol.toNat ++
          (s.lineText endLine).drop endCol.toNat] ++
        s.m_buffer.lines.drop (endLine.toNat + 1)).length
      { s.m_buffer with
        lines := s.m_buffer.lines.take startLine.toNat ++
          [(s.lineText startLine).take startCol.toNat ++
            (s.lineText endLine).drop endCol.toNat] ++
          s.m_buffer.lines.drop (endLine.toNat + 1)
        lineHashes := [] }
      0 startLine.toNat _ (Nat.zero_le _) (by rw [Nat.zero_add]; exact hlen) hget
    rw [hcast] at this
    exact this
  · obtain ⟨n, rfl⟩ := Int.eq_ofNat_of_zero_le h2
    have hn : n ≤ (s.lineText startLine).length := by exact_mod_cast h3
    rw [Int.toNat_ofNat]
    exact QString.replace_replace_nil _ _ n (by
      rw [List.length_append, List.length_take]; omega)

/-- After one successful edit outside a macro, `undo()` and then `redo()`
are defined and give back the buffer (texts and fingerprints), the change
log, the macro recorder, the file name and the modified flag. -/
theorem single_edit_undo_redo (qHash : QString → Nat) (s : EditorCore) (op : EditOp)
    (hwf : s.m_undoStack.wellFormed) (hm : s.m_undoStack.inMacro = false)
    (hs : op.succeeds s) :
    ∃ u r, EditorCore.undo qHash (op.apply qHash s) = some u ∧
      EditorCore.redo qHash u = some r ∧
      r.m_buffer = (op.apply qHash s).m_buffer ∧
      r.m_undoStack = (op.apply qHash s).m_undoStack ∧
      r.m_macroRecorder = (op.apply qHash s).m_macroRecorder ∧
      r.m_currentFile = (op.apply qHash s).m_currentFile ∧
      r.m_modified = (op.apply qHash s).m_modified ∧
      u.canRedo = true := by
  cases op with
  | insertText line column text now =>
    exact insertText_undo_redo qHash s line column text now hwf hm hs
  | deleteText a b c d now =>
    exact deleteText_undo_redo qHash s a b c d now hwf hm hs

/-! ## Lemmas on `loadFile` -/

theorem loadFile_success (qHash : QString → Nat) (split : QString → List QString)
    (s : EditorCore) (filePath content encoding : QString) (hp : filePath.isEmpty = false) :
    (EditorCore.loadFile qHash split s filePath (some (content, encoding))).1 = true ∧
    (EditorCore.loadFile qHash split s filePath (some (content, encoding))).2.m_buffer =
      rehashFrom qHash { lines := split content, encoding := encoding, lineHashes := [] }
        (split content).length 0 ∧
    (EditorCore.loadFile qHash split s filePath (some (content, encoding))).2.m_undoStack =
      s.m_undoStack ∧
    (EditorCore.loadFile qHash split s filePath (some (content, encoding))).2.m_macroRecorder =
      s.m_macroRecorder ∧
    (EditorCore.loadFile qHash split s filePath (some (content, encoding))).2.m_currentFile =
      filePath ∧
    (EditorCore.loadFile qHash split s filePath (some (content, encoding))).2.m_modified =
      false := by
  unfold EditorCore.loadFile
  rw [hp]
  simp [EditorCore.beginBulkOperation, EditorCore.endBulkOperation, EditorCore.setLanguage,
    EditorCore.emit, EditorCore.emitTextChanged]

theorem loaded_facts (qHash : QString → Nat) (split : QString → List QString)
    (content : QString) :
    (EditorCore.loaded qHash split content).m_buffer.lines = split content ∧
    (EditorCore.loaded qHash split content).m_undoStack = (EditorCore.init qHash).m_undoStack := by
  obtain ⟨_, h2, h3, _⟩ := loadFile_success qHash split (EditorCore.init qHash)
    "document.txt".toList content "UTF-8".toList (by decide)
  unfold EditorCore.loaded
  refine ⟨?_, h3⟩
  rw [h2]
  exact (rehashFrom_lines qHash _ _ _).1

/-- C2: after any single successful edit (`insertText`, or `deleteText` as
the spec describes it) made outside a macro on a well-formed change log,
`undo()` followed by `redo()` are both defined and reproduce the post-edit
state: the buffer with every line's text and fingerprint, the change log,
the macro recorder, the file name and the modified flag. In particular, on
the loaded document `abc`, `insertText(0,3,"d")` gives line 0 = `abcd` with
`canUndo()`, `undo()` gives `abc` with `canRedo()`, and `redo()` gives `abcd`. -/
theorem undo_redo_reproduces_edit (qHash : QString → Nat) :
    (∀ (s : EditorCore) (op : EditOp), s.m_undoStack.wellFormed →
      s.m_undoStack.inMacro = false → op.succeeds s →
      ∃ u r, EditorCore.undo qHash (op.apply qHash s) = some u ∧
        EditorCore.redo qHash u = some r ∧
        r.m_buffer = (op.apply qHash s).m_buffer ∧
        r.m_undoStack = (op.apply qHash s).m_undoStack ∧
        r.m_macroRecorder = (op.apply qHash s).m_macroRecorder ∧
        r.m_currentFile = (op.apply qHash s).m_currentFile ∧
        r.m_modified = (op.apply qHash s).m_modified) ∧
    (∀ (split : QString → List QString) (now : Int),
      split "abc".toList = ["abc".toList] →
      ∃ u r,
        (EditorCore.insertText qHash (EditorCore.loaded qHash split "abc".toList)
          0 3 "d".toList now).lineText 0 = "abcd".toList ∧
        (EditorCore.insertText qHash (EditorCore.loaded qHash split "abc".toList)
          0 3 "d".toList now).canUndo = true ∧
        EditorCore.undo qHash (EditorCore.insertText qHash
          (EditorCore.loaded qHash split "abc".toList) 0 3 "d".toList now) = some u ∧
        u.lineText 0 = "abc".toList ∧ u.canRedo = true ∧
        EditorCore.redo qHash u = some r ∧ r.lineText 0 = "abcd".toList) := by
  constructor
  · intro s op hwf hm hs
    obtain ⟨u, r, h1, h2, h3, h4, h5, h6, h7, _⟩ := single_edit_undo_redo qHash s op hwf hm hs
    exact ⟨u, r, h1, h2, h3, h4, h5, h6, h7⟩
  · intro split now hsplit
    obtain ⟨hl, hu⟩ := loaded_facts qHash split "abc".toList
    rw [hsplit] at hl
    have hwf : (EditorCore.loaded qHash split "abc".toList).m_undoStack.wellFormed := by
      rw [hu]; exact ⟨by simp [EditorCore.init], by simp [EditorCore.init]⟩
    have hm : (EditorCore.loaded qHash split "abc".toList).m_undoStack.inMacro = false := by
      rw [hu]; rfl
    have hlt : (EditorCore.loaded qHash split "abc".toList).lineText 0 = "abc".toList := by
      unfold EditorCore.lineText; rw [hl]; rfl
    have hv : (EditorCore.loaded qHash split "abc".toList).validPosition 0 3 := by
      unfold EditorCore.validPosition EditorCore.lineCount
      rw [hlt, hl]; decide
    obtain ⟨u, r, h1, h2, h3, _, _, _, _, h8⟩ :=
      single_edit_undo_redo qHash _ (EditOp.insertText 0 3 "d".toList now) hwf hm hv
    have hrec := insertText_recorded qHash _ 0 3 "d".toList now hv
    obtain ⟨u1, hu1, hu1l, _⟩ := undo_of_recorded qHash _ _ _ _ now _ _ hwf hm hrec rfl rfl rfl
    have hpl : (EditorCore.insertText qHash (EditorCore.loaded qHash split "abc".toList)
        0 3 "d".toList now).m_buffer.lines = ["abcd".toList] := by
      rw [hrec.2.2.1, hl, hlt]; rfl
    have hpu : (EditorCore.insertText qHash (EditorCore.loaded qHash split "abc".toList)
        0 3 "d".toList now).m_undoStack.index = 0 := by
      rw [hrec.2.2.2.2, record_single_action _ _ now hwf hm, hu]; rfl
    simp only [EditOp.apply] at h1 h3
    have hue : u1 = u := by
      rw [hu1] at h1; exact Option.some.inj h1
    subst hue
    refine ⟨u1, r, ?_, ?_, h1, ?_, h8, h2, ?_⟩
    · unfold EditorCore.lineText; rw [hpl]; rfl
    · unfold EditorCore.canUndo; rw [hpu]; rfl
    · unfold EditorCore.lineText; rw [hu1l, hl]; rfl
    · unfold EditorCore.lineText; rw [h3, hpl]; rfl

/-- Witness of C2: a deletion across two lines, undone and redone. -/
theorem undo_redo_reproduces_edit_witness :
    ∃ u r, EditorCore.undo sumHash ((EditOp.deleteText 0 1 1 1 7).apply sumHash
        (EditorCore.ofLines sumHash ["ab".toList, "cd".toList])) = some u ∧
      EditorCore.redo sumHash u = some r ∧
      r.m_buffer = ((EditOp.deleteText 0 1 1 1 7).apply sumHash
        (EditorCore.ofLines sumHash ["ab".toList, "cd".toList])).m_buffer ∧
      r.m_undoStack = ((EditOp.deleteText 0 1 1 1 7).apply sumHash
        (EditorCore.ofLines sumHash ["ab".toList, "cd".toList])).m_undoStack ∧
      r.m_macroRecorder = ((EditOp.deleteText 0 1 1 1 7).apply sumHash
        (EditorCore.ofLines sumHash ["ab".toList, "cd".toList])).m_macroRecorder ∧
      r.m_currentFile = ((EditOp.deleteText 0 1 1 1 7).apply sumHash
        (EditorCore.ofLines sumHash ["ab".toList, "cd".toList])).m_currentFile ∧
      r.m_modified = ((EditOp.deleteText 0 1 1 1 7).apply sumHash
        (EditorCore.ofLines sumHash ["ab".toList, "cd".toList])).m_modified :=
  (undo_redo_reproduces_edit sumHash).1 _ _ (by decide) (by decide) (by decide)

/-! ## Truncation of the redo history -/

/-- C3: on every well-formed undo stack (so also after any number of
`undo()` calls), a successful `insertText` outside a macro leaves the stack
equal to its former first `index + 1` actions followed by exactly one new
action that holds the single new change, and sets the index to
`stack.length - 1`, so that `canRedo()` is false right after the edit. -/
theorem insertText_discards_redo (qHash : QString → Nat) (s : EditorCore) (line column : Int)
    (text : QString) (now : Int) (hwf : s.m_undoStack.wellFormed)
    (hm : s.m_undoStack.inMacro = false) (hv : s.validPosition line column) :
    (EditorCore.insertText qHash s line column text now).m_undoStack.stack =
        s.m_undoStack.stack.take (s.m_undoStack.index + 1).toNat ++
          [{ changes := [⟨⟨line, column⟩, [], text, toInt32 now⟩]
             description := [], timestamp := now }] ∧
      (EditorCore.insertText qHash s line column text now).m_undoStack.index =
        ((EditorCore.insertText qHash s line column text now).m_undoStack.stack.length : Int) - 1 ∧
      (EditorCore.insertText qHash s line column text now).canRedo = false := by
  have hrec := (insertText_recorded qHash s line column text now hv).2.2.2.2
  rw [record_single_action _ _ now hwf hm] at hrec
  obtain ⟨h1, h2⟩ := hwf
  have hlen : (s.m_undoStack.stack.take (s.m_undoStack.index + 1).toNat).length =
      (s.m_undoStack.index + 1).toNat := by
    rw [List.length_take]; omega
  have hidx : (EditorCore.insertText qHash s line column text now).m_undoStack.index =
      ((EditorCore.insertText qHash s line column text now).m_undoStack.stack.length : Int) - 1 := by
    rw [hrec]
    simp only [List.length_append, hlen, List.length_singleton]
    push_cast; omega
  refine ⟨by rw [hrec], hidx, ?_⟩
  unfold EditorCore.canRedo
  simp only [decide_eq_false_iff_not]
  omega

/-- Witness of C3: a third insertion in a state that has a redo history. -/
theorem insertText_discards_redo_witness :
    (EditorCore.insertText sumHash EditorCore.sampleWithRedo 0 0 "x".toList 3).m_undoStack.stack =
        EditorCore.sampleWithRedo.m_undoStack.stack.take
          (EditorCore.sampleWithRedo.m_undoStack.index + 1).toNat ++
          [{ changes := [⟨⟨0, 0⟩, [], "x".toList, toInt32 3⟩]
             description := [], timestamp := 3 }] ∧
      (EditorCore.insertText sumHash EditorCore.sampleWithRedo 0 0 "x".toList
        3).m_undoStack.index =
        ((EditorCore.insertText sumHash EditorCore.sampleWithRedo 0 0 "x".toList
          3).m_undoStack.stack.length : Int) - 1 ∧
      (EditorCore.insertText sumHash EditorCore.sampleWithRedo 0 0 "x".toList 3).canRedo = false :=
  insertText_discards_redo sumHash EditorCore.sampleWithRedo 0 0 "x".toList 3
    (by decide) (by decide) (by decide)

/-! ## Macro recording -/

theorem stopMacroRecording_eq (s : EditorCore) (execute : Bool) :
    s.stopMacroRecording execute =
      { s with m_macroRecorder := { s.m_macroRecorder with isRecording := false } } := by
  unfold EditorCore.stopMacroRecording
  simp

theorem apply_log (qHash : QString → Nat) (s : EditorCore) (op : EditOp) (hs : op.succeeds s) :
    ∃ ch now, (op.apply qHash s).m_undoStack = s.m_undoStack.record ch now ∧
      (op.apply qHash s).m_macroRecorder = s.m_macroRecorder.record ch := by
  cases op with
  | insertText line column text now =>
    refine ⟨⟨⟨line, column⟩, [], text, toInt32 now⟩, now, ?_, ?_⟩
    · exact (insertText_recorded qHash s line column text now hs).2.2.2.2
    · simp only [EditOp.apply]
      rw [insertText_valid qHash s line column text now hs]
      split <;> rfl
  | deleteText a b c d now =>
    refine ⟨⟨⟨a, b⟩, s.getText a b c d, [], toInt32 now⟩, now, ?_, ?_⟩
    · exact (deleteText_valid qHash s a b c d now hs).2
    · simp only [EditOp.apply]
      unfold EditorCore.deleteText
      rw [if_neg (by simpa using hs)]
      simp only
      split <;> rfl

theorem applyEdits_append (qHash : QString → Nat) (a b : List EditOp) :
    ∀ s : EditorCore, applyEdits qHash s (a ++ b) = applyEdits qHash (applyEdits qHash s a) b := by
  induction a with
  | nil => intro s; rfl
  | cons op rest ih => intro s; exact ih (op.apply qHash s)

theorem editsSucceed_append (qHash : QString → Nat) (a b : List EditOp) :
    ∀ s : EditorCore, editsSucceed qHash s (a ++ b) →
      editsSucceed qHash s a ∧ editsSucceed qHash (applyEdits qHash s a) b := by
  induction a with
  | nil => intro s h; exact ⟨trivial, h⟩
  | cons op rest ih =>
    intro s h
    obtain ⟨h1, h2⟩ := h
    obtain ⟨h3, h4⟩ := ih (op.apply qHash s) h2
    exact ⟨⟨h1, h3⟩, h4⟩

/-- The change log after a sequence of successful edits outside a macro:
one single-change action for each edit, after the actions that were applied
before; nothing is left to redo once an edit has been made. -/
theorem applyEdits_log (qHash : QString → Nat) (ops : List EditOp) :
    ∀ s : EditorCore, s.m_undoStack.wellFormed → s.m_undoStack.inMacro = false →
      editsSucceed qHash s ops →
      (applyEdits qHash s ops).m_undoStack.wellFormed ∧
      (applyEdits qHash s ops).m_undoStack.inMacro = false ∧
      (applyEdits qHash s ops).m_undoStack.index = s.m_undoStack.index + (ops.length : Int) ∧
      (ops ≠ [] → (applyEdits qHash s ops).m_undoStack.index + 1 =
        ((applyEdits qHash s ops).m_undoStack.stack.length : Int)) ∧
      ∃ acts, (applyEdits qHash s ops).m_undoStack.stack.take
          ((applyEdits qHash s ops).m_undoStack.index + 1).toNat =
          s.m_undoStack.stack.take (s.m_undoStack.index + 1).toNat ++ acts ∧
        acts.length = ops.length ∧ ∀ a ∈ acts, a.changes.length = 1 := by
  induction ops with
  | nil =>
    intro s hwf hm _
    exact ⟨hwf, hm, by simp [applyEdits], fun h => absurd rfl h, [], by simp [applyEdits], rfl,
      by simp⟩
  | cons op rest ih =>
    intro s hwf hm hs
    obtain ⟨hop, hrest⟩ := hs
    obtain ⟨ch, now, hst, _⟩ := apply_log qHash s op hop
    obtain ⟨hwf1, hm1⟩ := record_wellFormed s.m_undoStack ch now hwf hm
    rw [← hst] at hwf1 hm1
    have hrec := record_single_action s.m_undoStack ch now hwf hm
    have hidx1 : (op.apply qHash s).m_undoStack.index = s.m_undoStack.index + 1 := by
      rw [hst, hrec]
    have hstk1 : (op.apply qHash s).m_undoStack.stack =
        s.m_undoStack.stack.take (s.m_undoStack.index + 1).toNat ++
          [{ changes := [ch], description := [], timestamp := now }] := by
      rw [hst, hrec]
    obtain ⟨hw1, hw2⟩ := hwf
    have hlen : (s.m_undoStack.stack.take (s.m_undoStack.index + 1).toNat).length =
        (s.m_undoStack.index + 1).toNat := by
      rw [List.length_take]; omega
    have hlen1 : (op.apply qHash s).m_undoStack.stack.length =
        (s.m_undoStack.index + 1 + 1).toNat := by
      rw [hstk1, List.length_append, hlen, List.length_singleton]; omega
    obtain ⟨i1, i2, i3, i4, acts, i5, i6, i7⟩ := ih (op.apply qHash s) hwf1 hm1 hrest
    refine ⟨i1, i2, ?_, ?_, { changes := [ch], description := [], timestamp := now } :: acts,
      ?_, ?_, ?_⟩
    · show (applyEdits qHash (op.apply qHash s) rest).m_undoStack.index = _
      rw [i3, hidx1, List.length_cons]; push_cast; omega
    · intro _
      show (applyEdits qHash (op.apply qHash s) rest).m_undoStack.index + 1 = _
      by_cases hr : rest = []
      · subst hr
        show (op.apply qHash s).m_undoStack.index + 1 =
          ((op.apply qHash s).m_undoStack.stack.length : Int)
        rw [hlen1, hidx1]; omega
      · exact i4 hr
    · simp only [applyEdits]
      rw [i5, hidx1, ← hlen1, List.take_length, hstk1, List.append_assoc]
      rfl
    · rw [List.length_cons, List.length_cons, i6]
    · intro a ha
      rcases List.mem_cons.mp ha with h | h
      · rw [h]; rfl
      · exact i7 a h

theorem applyEdits_recorder (qHash : QString → Nat) (ops : List EditOp) :
    ∀ s : EditorCore, s.m_macroRecorder.isRecording = true → editsSucceed qHash s ops →
      (applyEdits qHash s ops).m_macroRecorder.isRecording = true ∧
      (applyEdits qHash s ops).m_macroRecorder.changes.length =
        s.m_macroRecorder.changes.length + ops.length := by
  induction ops with
  | nil => intro s h _; exact ⟨h, rfl⟩
  | cons op rest ih =>
    intro s h hs
    obtain ⟨hop, hrest⟩ := hs
    obtain ⟨ch, now, _, hr⟩ := apply_log qHash s op hop
    have h1 : (op.apply qHash s).m_macroRecorder.isRecording = true := by
      rw [hr]; unfold MacroRecorder.record; rw [h]; rfl
    have h2 : (op.apply qHash s).m_macroRecorder.changes.length =
        s.m_macroRecorder.changes.length + 1 := by
      rw [hr]; unfold MacroRecorder.record; rw [h]; simp
    obtain ⟨i1, i2⟩ := ih (op.apply qHash s) h1 hrest
    refine ⟨i1, ?_⟩
    show (applyEdits qHash (op.apply qHash s) rest).m_macroRecorder.changes.length = _
    rw [i2, h2, List.length_cons]; omega

theorem isInsert_withinLine (op : EditOp) (h : op.isInsert) : op.withinLine := by
  cases op with
  | insertText _ _ _ _ => trivial
  | deleteText _ _ _ _ _ => exact absurd h (fun h => h)

/-- What a macro recording leaves in the change log: `startMacroRecording()`
does not set the in-macro flag of the change log and `stopMacroRecording`
commits nothing to it, so after `N ≥ 1` successful `insertText` edits
between the two the undo stack is its former first `index + 1` actions
followed by `N` actions of one change each; `N` calls of `undo()` are
defined and give back the lines of the document and the former index, and
after fewer than `N` calls `canUndo()` is still true. -/
theorem macro_edits_are_separate_actions (qHash : QString → Nat) (s : EditorCore)
    (ops : List EditOp) (execute : Bool)
    (hwf : s.m_undoStack.wellFormed) (hm : s.m_undoStack.inMacro = false)
    (hne : ops ≠ []) (hins : ∀ op ∈ ops, op.isInsert)
    (hs : editsSucceed qHash s.startMacroRecording ops) :
    (∃ acts, ((applyEdits qHash s.startMacroRecording ops).stopMacroRecording
          execute).m_undoStack.stack =
        s.m_undoStack.stack.take (s.m_undoStack.index + 1).toNat ++ acts ∧
      acts.length = ops.length ∧ ∀ a ∈ acts, a.changes.length = 1) ∧
    ((applyEdits qHash s.startMacroRecording ops).stopMacroRecording
      execute).m_macroRecorder.changes.length = ops.length ∧
    (∃ u, EditorCore.undoN qHash ops.length
        ((applyEdits qHash s.startMacroRecording ops).stopMacroRecording execute) = some u ∧
      u.m_buffer.lines = s.m_buffer.lines ∧ u.m_undoStack.index = s.m_undoStack.index ∧
      (s.m_undoStack.index = -1 → u.canUndo = false)) ∧
    (∀ k, k < ops.length → ∃ v, EditorCore.undoN qHash k
        ((applyEdits qHash s.startMacroRecording ops).stopMacroRecording execute) = some v ∧
      v.canUndo = true) := by
  have hw : ∀ op ∈ ops, op.withinLine := fun op h => isInsert_withinLine op (hins op h)
  have hwf0 : s.startMacroRecording.m_undoStack.wellFormed := hwf
  have hm0 : s.startMacroRecording.m_undoStack.inMacro = false := hm
  obtain ⟨l1, l2, l3, l4, acts, l5, l6, l7⟩ :=
    applyEdits_log qHash ops s.startMacroRecording hwf0 hm0 hs
  obtain ⟨r1, r2⟩ := applyEdits_recorder qHash ops s.startMacroRecording rfl hs
  rw [stopMacroRecording_eq]
  refine ⟨⟨acts, ?_, l6, l7⟩, ?_, ?_, ?_⟩
  · have h4 := l4 hne
    have : ((applyEdits qHash s.startMacroRecording ops).m_undoStack.index + 1).toNat =
        (applyEdits qHash s.startMacroRecording ops).m_undoStack.stack.length := by omega
    rw [this, List.take_length] at l5
    exact l5
  · show (applyEdits qHash s.startMacroRecording ops).m_macroRecorder.changes.length = _
    rw [r2]
    show ([] : List TextChange).length + ops.length = ops.length
    simp
  · obtain ⟨u, hu, hul, hui, _⟩ := undoN_applyEdits qHash ops s.startMacroRecording
      { applyEdits qHash s.startMacroRecording ops with
        m_macroRecorder :=
          { (applyEdits qHash s.startMacroRecording ops).m_macroRecorder with
            isRecording := false } }
      hwf0 hm0 hs hw rfl rfl rfl
    refine ⟨u, hu, hul, hui, ?_⟩
    intro h
    unfold EditorCore.canUndo
    rw [hui]
    simp only [decide_eq_false_iff_not, not_not]
    exact h
  · intro k hk
    have hsplit : ops = ops.take (ops.length - k) ++ ops.drop (ops.length - k) :=
      (List.take_append_drop _ _).symm
    have hs2 := hs
    rw [hsplit] at hs2
    obtain ⟨sA, sB⟩ := editsSucceed_append qHash _ _ _ hs2
    obtain ⟨a1, a2, a3, _⟩ :=
      applyEdits_log qHash (ops.take (ops.length - k)) s.startMacroRecording hwf0 hm0 sA
    have hX : applyEdits qHash s.startMacroRecording ops =
        applyEdits qHash (applyEdits qHash s.startMacroRecording (ops.take (ops.length - k)))
          (ops.drop (ops.length - k)) := by
      rw [← applyEdits_append, ← hsplit]
    have hlenB : (ops.drop (ops.length - k)).length = k := by
      rw [List.length_drop]; omega
    have hlenA : (ops.take (ops.length - k)).length = ops.length - k := by
      rw [List.length_take]; omega
    obtain ⟨v, hv, _, hvi, _⟩ := undoN_applyEdits qHash (ops.drop (ops.length - k))
      (applyEdits qHash s.startMacroRecording (ops.take (ops.length - k)))
      { applyEdits qHash s.startMacroRecording ops with
        m_macroRecorder :=
          { (applyEdits qHash s.startMacroRecording ops).m_macroRecorder with
            isRecording := false } }
      a1 a2 sB (fun op h => hw op (List.mem_of_mem_drop h))
      (by rw [← hX]) (by rw [← hX]) (by rw [← hX])
    rw [hlenB] at hv
    refine ⟨v, hv, ?_⟩
    unfold EditorCore.canUndo
    rw [hvi, a3, hlenA]
    simp only [decide_eq_true_eq]
    have := hwf.1
    have e : (s.startMacroRecording).m_undoStack.index = s.m_undoStack.index := rfl
    rw [e]
    omega

/-- C4, what the code does: from the state built by the constructor (one
empty line, empty history), after `startMacroRecording()`, the insertions of
`x` at (0,0) and of `y` at (0,1), and `stopMacroRecording(true)`, the
in-macro flag of the change log was never set and the pending macro action
is empty: the undo stack has grown by two actions of one change each, not by
one action of two changes. The recorder holds the two changes. One `undo()`
leaves the line `x`, not the empty line, and `canUndo()` is still true; it
takes two calls to give back the document and make `canUndo()` false. -/
theorem macro_recording_pushes_separate_actions :
    (EditorCore.init sumHash).startMacroRecording.m_undoStack.inMacro = false ∧
    ((EditorCore.insertText sumHash
        (EditorCore.insertText sumHash (EditorCore.init sumHash).startMacroRecording
          0 0 "x".toList 1) 0 1 "y".toList 2).stopMacroRecording true).m_buffer.lines =
      ["xy".toList] ∧
    ((EditorCore.insertText sumHash
        (EditorCore.insertText sumHash (EditorCore.init sumHash).startMacroRecording
          0 0 "x".toList 1) 0 1 "y".toList 2).stopMacroRecording true).m_undoStack =
      { stack := [{ changes := [⟨⟨0, 0⟩, [], "x".toList, 1⟩], description := [], timestamp := 1 },
                  { changes := [⟨⟨0, 1⟩, [], "y".toList, 2⟩], description := [], timestamp := 2 }]
        index := 1
        inMacro := false
        currentMacro := { changes := [], description := [], timestamp := 0 } } ∧
    ((EditorCore.insertText sumHash
        (EditorCore.insertText sumHash (EditorCore.init sumHash).startMacroRecording
          0 0 "x".toList 1) 0 1 "y".toList 2).stopMacroRecording true).m_macroRecorder =
      { changes := [⟨⟨0, 0⟩, [], "x".toList, 1⟩, ⟨⟨0, 1⟩, [], "y".toList, 2⟩]
        isRecording := false } ∧
    (EditorCore.undo sumHash
      ((EditorCore.insertText sumHash
        (EditorCore.insertText sumHash (EditorCore.init sumHash).startMacroRecording
          0 0 "x".toList 1) 0 1 "y".toList 2).stopMacroRecording true)).map
      (fun u => (u.m_buffer.lines, u.canUndo)) = some (["x".toList], true) ∧
    (EditorCore.undoN sumHash 2
      ((EditorCore.insertText sumHash
        (EditorCore.insertText sumHash (EditorCore.init sumHash).startMacroRecording
          0 0 "x".toList 1) 0 1 "y".toList 2).stopMacroRecording true)).map
      (fun u => (u.m_buffer.lines, u.canUndo)) = some ([[]], false) := by
  decide

/-! ## Bounds and effect of `insertText` -/

theorem lineText_of_lines (s : EditorCore) (line : Int) (h0 : 0 ≤ line) :
    s.lineText line = s.m_buffer.lines.getD line.toNat [] := by
  unfold EditorCore.lineText
  rw [if_neg (by omega)]

theorem insertText_lines (qHash : QString → Nat) (s : EditorCore) (line column : Int)
    (text : QString) (now : Int) (hv : s.validPosition line column) :
    (EditorCore.insertText qHash s line column text now).m_buffer.lines =
      s.m_buffer.lines.set line.toNat (QString.insert (s.lineText line) column text) :=
  (insertText_recorded qHash s line column text now hv).2.2.1

theorem insertText_lineText (qHash : QString → Nat) (s : EditorCore) (line column : Int)
    (text : QString) (now : Int) (hv : s.validPosition line column) :
    (EditorCore.insertText qHash s line column text now).lineText line =
      (s.lineText line).take column.toNat ++ text ++ (s.lineText line).drop column.toNat := by
  have hl := insertText_lines qHash s line column text now hv
  obtain ⟨h0, h1, _, _⟩ := hv
  have hlt : line.toNat < s.m_buffer.lines.length := by
    unfold EditorCore.lineCount at h1; omega
  rw [lineText_of_lines _ _ h0, hl, List.getD_eq_getElem?_getD, List.getElem?_set_self hlt]
  rfl

theorem record_ne (u : UndoStack) (ch : TextChange) (now : Int) : u.record ch now ≠ u := by
  intro h
  unfold UndoStack.record at h
  by_cases hm : u.inMacro = true
  · rw [if_pos hm] at h
    have := congrArg (fun x => x.currentMacro.changes.length) h
    simp at this
  · rw [if_neg hm] at h
    have := congrArg (fun x => x.index) h
    simp at this

/-- C5: `insertText(line, column, text)` is applied if and only if
`0 ≤ line < lineCount()` and `0 ≤ column ≤` the length of that line. At every
other position the call returns the state it was given, whole: line texts,
fingerprints, undo stack, index, pending macro action, modified flag and the
log of emitted signals. At a valid position the line is spliced, the change
enters the change log and the modified flag is set. So the column equal to
the length of the line is accepted (append), and the column one past it, the
line `lineCount()` and negative lines or columns are refused. -/
theorem insertText_applied_iff_valid (qHash : QString → Nat) (s : EditorCore)
    (line column : Int) (text : QString) (now : Int) :
    (EditorCore.insertText qHash s line column text now = s ↔
      ¬ (0 ≤ line ∧ line < s.lineCount ∧ 0 ≤ column ∧
        column ≤ ((s.lineText line).length : Int))) ∧
    ((0 ≤ line ∧ line < s.lineCount ∧ 0 ≤ column ∧ column ≤ ((s.lineText line).length : Int)) →
      (EditorCore.insertText qHash s line column text now).lineText line =
        (s.lineText line).take column.toNat ++ text ++ (s.lineText line).drop column.toNat ∧
      (EditorCore.insertText qHash s line column text now).m_undoStack =
        s.m_undoStack.record ⟨⟨line, column⟩, [], text, toInt32 now⟩ now ∧
      (EditorCore.insertText qHash s line column text now).m_modified = true) ∧
    ((0 ≤ line ∧ line < s.lineCount) →
      (EditorCore.insertText qHash s line ((s.lineText line).length : Int) text now).lineText line =
        s.lineText line ++ text) ∧
    EditorCore.insertText qHash s line (((s.lineText line).length : Int) + 1) text now = s ∧
    EditorCore.insertText qHash s s.lineCount column text now = s ∧
    ((line < 0 ∨ column < 0) → EditorCore.insertText qHash s line column text now = s) := by
  refine ⟨⟨?_, ?_⟩, ?_, ?_, ?_, ?_, ?_⟩
  · intro h hv
    have hrec := (insertText_recorded qHash s line column text now hv).2.2.2.2
    rw [h] at hrec
    exact record_ne _ _ _ hrec.symm
  · intro h
    exact insertText_invalid qHash s line column text now h
  · intro hv
    refine ⟨insertText_lineText qHash s line column text now hv,
      (insertText_recorded qHash s line column text now hv).2.2.2.2, ?_⟩
    rw [insertText_valid qHash s line column text now hv]
    split <;> rfl
  · intro ⟨h0, h1⟩
    have hv : s.validPosition line ((s.lineText line).length : Int) :=
      ⟨h0, h1, by omega, le_refl _⟩
    rw [insertText_lineText qHash s line _ text now hv, Int.toNat_ofNat, List.take_length,
      List.drop_length, List.append_nil]
  · apply insertText_invalid
    intro ⟨_, _, _, h⟩
    omega
  · apply insertText_invalid
    intro ⟨_, h, _, _⟩
    omega
  · intro h
    apply insertText_invalid
    intro ⟨h0, _, h2, _⟩
    omega

/-- C6: at every valid position, and for every text (newline-free or not),
after `insertText` the line holds its former first `column` characters, then
`text`, then its former remaining characters; every other line is unchanged
and so is `lineCount()`. -/
theorem insertText_splices_line (qHash : QString → Nat) (s : EditorCore) (line column : Int)
    (text : QString) (now : Int) (hv : s.validPosition line column) :
    (EditorCore.insertText qHash s line column text now).lineText line =
        (s.lineText line).take column.toNat ++ text ++ (s.lineText line).drop column.toNat ∧
      (∀ other : Int, other ≠ line →
        (EditorCore.insertText qHash s line column text now).lineText other =
          s.lineText other) ∧
      (EditorCore.insertText qHash s line column text now).lineCount = s.lineCount := by
  have hl := insertText_lines qHash s line column text now hv
  refine ⟨insertText_lineText qHash s line column text now hv, ?_, ?_⟩
  · intro other hne
    unfold EditorCore.lineText
    by_cases ho : other < 0
    · rw [if_pos ho, if_pos ho]
    · rw [if_neg ho, if_neg ho, hl]
      have : line.toNat ≠ other.toNat := by
        have := hv.1; omega
      simp only [List.getD_eq_getElem?_getD]
      rw [List.getElem?_set_ne this]
  · unfold EditorCore.lineCount
    rw [hl, List.length_set]

/-- Witness of C6: `XY` inserted at column 1 of the second of three lines. -/
theorem insertText_splices_line_witness :
    (EditorCore.insertText sumHash
        (EditorCore.ofLines sumHash ["one".toList, "two".toList, "three".toList])
        1 1 "XY".toList 0).lineText 1 =
        ((EditorCore.ofLines sumHash ["one".toList, "two".toList, "three".toList]).lineText
          1).take (1 : Int).toNat ++ "XY".toList ++
        ((EditorCore.ofLines sumHash ["one".toList, "two".toList, "three".toList]).lineText
          1).drop (1 : Int).toNat ∧
      (∀ other : Int, other ≠ 1 →
        (EditorCore.insertText sumHash
          (EditorCore.ofLines sumHash ["one".toList, "two".toList, "three".toList])
          1 1 "XY".toList 0).lineText other =
          (EditorCore.ofLines sumHash
            ["one".toList, "two".toList, "three".toList]).lineText other) ∧
      (EditorCore.insertText sumHash
        (EditorCore.ofLines sumHash ["one".toList, "two".toList, "three".toList])
        1 1 "XY".toList 0).lineCount =
        (EditorCore.ofLines sumHash ["one".toList, "two".toList, "three".toList]).lineCount :=
  insertText_splices_line sumHash _ 1 1 "XY".toList 0 (by decide)

/-! ## Fingerprint consistency -/

theorem fresh_set_assign (qHash : QString → Nat) (b : DocumentBuffer) (line : Int) (X : QString)
    (h0 : 0 ≤ line) (hf : b.fingerprintsFresh qHash) :
    DocumentBuffer.fingerprintsFresh qHash
      { lines := b.lines.set line.toNat X, encoding := b.encoding
        lineHashes := QHash.assign b.lineHashes line (qHash X) } := by
  intro i text hi
  simp only [List.get?_eq_getElem?] at hi
  simp only [QHash.value_assign]
  by_cases hli : line.toNat = i
  · have hl : line = (i : Int) := by omega
    rw [if_pos hl]
    subst hli
    have hlt : line.toNat < b.lines.length := by
      have := (List.getElem?_eq_some_iff.mp hi).1
      rwa [List.length_set] at this
    rw [List.getElem?_set_self hlt] at hi
    rw [Option.some.inj hi]
  · have hl : ¬ line = (i : Int) := by omega
    rw [if_neg hl]
    rw [List.getElem?_set_ne hli] at hi
    exact hf i text (by rw [List.get?_eq_getElem?]; exact hi)

theorem revertChange_fresh (qHash : QString → Nat) (b b1 : DocumentBuffer) (ch : TextChange)
    (hf : b.fingerprintsFresh qHash) (h : revertChange qHash b ch = some b1) :
    b1.fingerprintsFresh qHash := by
  by_cases h0 : ch.position.line < 0
  · unfold revertChange at h
    rw [if_pos h0] at h
    exact absurd h (by simp)
  · cases hl : b.lines.get? ch.position.line.toNat with
    | none =>
      unfold revertChange at h
      rw [if_neg h0, hl] at h
      exact absurd h (by simp)
    | some l =>
      rw [revertChange_eq qHash b ch l (by omega) hl] at h
      rw [← Option.some.inj h]
      exact fresh_set_assign qHash b _ _ (by omega) hf

theorem revertChanges_fresh (qHash : QString → Nat) (changes : List TextChange) :
    ∀ b b1 : DocumentBuffer, b.fingerprintsFresh qHash →
      revertChanges qHash b changes = some b1 → b1.fingerprintsFresh qHash := by
  induction changes with
  | nil =>
    intro b b1 hf h
    simp only [revertChanges, Option.some.injEq] at h
    rw [← h]; exact hf
  | cons ch rest ih =>
    intro b b1 hf h
    unfold revertChanges at h
    cases hr : revertChange qHash b ch with
    | none => rw [hr] at h; exact absurd h (by simp)
    | some b2 =>
      rw [hr] at h
      exact ih b2 b1 (revertChange_fresh qHash b b2 ch hf hr) h

theorem revertChanges_defined (qHash : QString → Nat) (changes : List TextChange) :
    ∀ b : DocumentBuffer,
      (∀ ch ∈ changes, 0 ≤ ch.position.line ∧ ch.position.line < (b.lines.length : Int)) →
      ∃ b1, revertChanges qHash b changes = some b1 := by
  induction changes with
  | nil => intro b _; exact ⟨b, rfl⟩
  | cons ch rest ih =>
    intro b h
    obtain ⟨h0, h1⟩ := h ch (List.mem_cons_self _ _)
    have hlt : ch.position.line.toNat < b.lines.length := by omega
    have hl : b.lines.get? ch.position.line.toNat = some (b.lines[ch.position.line.toNat]) := by
      rw [List.get?_eq_getElem?, List.getElem?_eq_getElem hlt]
    obtain ⟨b2, hb2, hb2l, _⟩ := revertChange_some qHash b ch _ h0 hl
    obtain ⟨b1, hb1⟩ := ih b2 (by
      intro c hc
      rw [hb2l, List.length_set]
      exact h c (List.mem_cons_of_mem _ hc))
    refine ⟨b1, ?_⟩
    unfold revertChanges
    rw [hb2]
    exact hb1

theorem undo_buffer (qHash : QString → Nat) (s u : EditorCore)
    (h : EditorCore.undo qHash s = some u) :
    u.m_buffer = s.m_buffer ∨
      ∃ a, s.m_undoStack.stack.get? s.m_undoStack.index.toNat = some a ∧
        revertChanges qHash s.m_buffer a.changes = some u.m_buffer := by
  unfold EditorCore.undo at h
  by_cases hc : s.canUndo = true
  · rw [hc] at h
    simp only [Bool.not_true, Bool.false_eq_true, if_false] at h
    by_cases hi : s.m_undoStack.index < 0
    · rw [if_pos hi] at h
      exact absurd h (by simp)
    · rw [if_neg hi] at h
      cases ha : s.m_undoStack.stack.get? s.m_undoStack.index.toNat with
      | none => rw [ha] at h; exact absurd h (by simp)
      | some a =>
        rw [ha] at h
        simp only [EditorCore.beginBulkOperation] at h
        cases hr : revertChanges qHash s.m_buffer a.changes with
        | none => rw [hr] at h; exact absurd h (by simp)
        | some b1 =>
          rw [hr] at h
          right
          refine ⟨a, rfl, ?_⟩
          rw [← Option.some.inj h]
          simp [EditorCore.endBulkOperation, EditorCore.emit, EditorCore.emitTextChanged]
          exact hr
  · have hc2 : s.canUndo = false := by simpa using hc
    rw [hc2] at h
    simp only [Bool.not_false, if_true, Option.some.injEq] at h
    left; rw [← h]

theorem rehash_fresh (qHash : QString → Nat) (lines : List QString) (encoding : QString) :
    DocumentBuffer.fingerprintsFresh qHash
      (rehashFrom qHash { lines := lines, encoding := encoding, lineHashes := [] }
        lines.length 0) := by
  intro i text hi
  rw [(rehashFrom_lines qHash _ _ _).1] at hi
  have hlt : i < lines.length := by
    rw [List.get?_eq_getElem?] at hi
    exact (List.getElem?_eq_some_iff.mp hi).1
  exact rehashFrom_value qHash lines.length _ 0 i text (Nat.zero_le _) (by omega) hi

/-- C7: fingerprint consistency is an invariant of the document. It holds in
the state built by the constructor, and in every state where it holds it
still holds after `insertText` (whatever the arguments and whether or not
the change log is inside a macro), after every `undo()` and after
`loadFile` (successful or not); `undo()` is defined whenever its accesses
are in range. -/
theorem fingerprints_stay_fresh (qHash : QString → Nat) :
    (EditorCore.init qHash).m_buffer.fingerprintsFresh qHash ∧
    (∀ (s : EditorCore) (line column : Int) (text : QString) (now : Int),
      s.m_buffer.fingerprintsFresh qHash →
      (EditorCore.insertText qHash s line column text now).m_buffer.fingerprintsFresh qHash) ∧
    (∀ s u : EditorCore, s.m_buffer.fingerprintsFresh qHash →
      EditorCore.undo qHash s = some u → u.m_buffer.fingerprintsFresh qHash) ∧
    (∀ s : EditorCore, s.undoInBounds → ∃ u, EditorCore.undo qHash s = some u) ∧
    (∀ (split : QString → List QString) (s : EditorCore) (filePath : QString)
      (readTextFile : Option (QString × QString)),
      s.m_buffer.fingerprintsFresh qHash →
      (EditorCore.loadFile qHash split s filePath
        readTextFile).2.m_buffer.fingerprintsFresh qHash) := by
  refine ⟨?_, ?_, ?_, ?_, ?_⟩
  · intro i text hi
    cases i with
    | zero =>
      simp only [EditorCore.init, List.get?_cons_zero, Option.some.injEq] at hi
      rw [← hi]
      simp [EditorCore.init, QHash.value]
    | succ j => simp [EditorCore.init] at hi
  · intro s line column text now hf
    by_cases hv : s.validPosition line column
    · have hb : (EditorCore.insertText qHash s line column text now).m_buffer =
          (insertedState qHash s line column text now).m_buffer := by
        rw [insertText_valid qHash s line column text now hv]; split <;> rfl
      rw [hb]
      exact fresh_set_assign qHash s.m_buffer line _ hv.1 hf
    · rw [insertText_invalid qHash s line column text now hv]; exact hf
  · intro s u hf h
    rcases undo_buffer qHash s u h with hb | ⟨a, _, hr⟩
    · rw [hb]; exact hf
    · exact revertChanges_fresh qHash a.changes _ _ hf hr
  · intro s hb
    by_cases hc : s.canUndo = true
    · obtain ⟨a, hi, ha, hch⟩ := hb hc
      obtain ⟨b1, hb1⟩ := revertChanges_defined qHash a.changes s.m_buffer hch
      obtain ⟨u, hu, _⟩ := undo_step qHash s a b1 hi ha hb1
      exact ⟨u, hu⟩
    · refine ⟨s, ?_⟩
      unfold EditorCore.undo
      have hc2 : s.canUndo = false := by simpa using hc
      rw [hc2]; rfl
  · intro split s filePath readTextFile hf
    by_cases hp : filePath.isEmpty = true
    · unfold EditorCore.loadFile
      rw [hp]; exact hf
    · have hp2 : filePath.isEmpty = false := by simpa using hp
      cases readTextFile with
      | none =>
        unfold EditorCore.loadFile
        rw [hp2]; exact hf
      | some r =>
        obtain ⟨content, encoding⟩ := r
        rw [(loadFile_success qHash split s filePath content encoding hp2).2.1]
        exact rehash_fresh qHash _ _

/-- Witness of C7: the state built by the constructor, one insertion, one
`undo()`. -/
theorem fingerprints_stay_fresh_witness :
    (EditorCore.insertText sumHash (EditorCore.init sumHash) 0 0 "ab".toList
      0).m_buffer.fingerprintsFresh sumHash ∧
    ((EditorCore.undo sumHash
      (EditorCore.insertText sumHash (EditorCore.init sumHash) 0 0 "ab".toList 0)).getD
      (EditorCore.init sumHash)).m_buffer.fingerprintsFresh sumHash :=
  ⟨(fingerprints_stay_fresh sumHash).2.1 _ 0 0 "ab".toList 0 (fingerprints_stay_fresh sumHash).1,
    (fingerprints_stay_fresh sumHash).2.2.1
      (EditorCore.insertText sumHash (EditorCore.init sumHash) 0 0 "ab".toList 0)
      ((EditorCore.undo sumHash
        (EditorCore.insertText sumHash (EditorCore.init sumHash) 0 0 "ab".toList 0)).getD
        (EditorCore.init sumHash))
      ((fingerprints_stay_fresh sumHash).2.1 _ 0 0 "ab".toList 0
        (fingerprints_stay_fresh sumHash).1) (by decide)⟩

/-! ## Nothing to undo -/

/-- C8: when the undo index is -1, `undo()` is defined and returns the state
it was given, whole: line texts, fingerprints, undo stack, index, modified
flag and the log of emitted signals are unchanged. -/
theorem undo_noop_when_empty (qHash : QString → Nat) (s : EditorCore)
    (h : s.m_undoStack.index = -1) : EditorCore.undo qHash s = some s := by
  unfold EditorCore.undo EditorCore.canUndo
  rw [h]
  rfl

/-- Witness of C8: the state built by the constructor. -/
theorem undo_noop_when_empty_witness :
    EditorCore.undo sumHash (EditorCore.init sumHash) = some (EditorCore.init sumHash) :=
  undo_noop_when_empty sumHash (EditorCore.init sumHash) (by decide)

/-! ## `loadFile` and the undo history -/

/-- C9, what the code does: a successful `loadFile` returns true and leaves
the undo stack and its index exactly as they were, so `canUndo()` and
`canRedo()` answer as before the load; the history is not cleared. -/
theorem loadFile_keeps_history (qHash : QString → Nat) (split : QString → List QString)
    (s : EditorCore) (filePath content encoding : QString) (hp : filePath.isEmpty = false) :
    (EditorCore.loadFile qHash split s filePath (some (content, encoding))).1 = true ∧
    (EditorCore.loadFile qHash split s filePath (some (content, encoding))).2.m_undoStack =
      s.m_undoStack ∧
    (EditorCore.loadFile qHash split s filePath (some (content, encoding))).2.canUndo =
      s.canUndo ∧
    (EditorCore.loadFile qHash split s filePath (some (content, encoding))).2.canRedo =
      s.canRedo := by
  obtain ⟨h1, _, h3, _⟩ := loadFile_success qHash split s filePath content encoding hp
  refine ⟨h1, h3, ?_, ?_⟩
  · unfold EditorCore.canUndo; rw [h3]
  · unfold EditorCore.canRedo; rw [h3]

/-- Witness of C9: after the insertion of `x` in the new editor and a
successful load of a file that holds `hello`, `canUndo()` is true and
`undo()` cuts the first character of the loaded line. -/
theorem loadFile_keeps_history_witness :
    ((EditorCore.loadFile sumHash (fun c => [c])
        (EditorCore.insertText sumHash (EditorCore.init sumHash) 0 0 "x".toList 0)
        "b.txt".toList (some ("hello".toList, "UTF-8".toList))).1 = true ∧
      (EditorCore.loadFile sumHash (fun c => [c])
        (EditorCore.insertText sumHash (EditorCore.init sumHash) 0 0 "x".toList 0)
        "b.txt".toList (some ("hello".toList, "UTF-8".toList))).2.m_undoStack =
        (EditorCore.insertText sumHash (EditorCore.init sumHash) 0 0 "x".toList 0).m_undoStack ∧
      (EditorCore.loadFile sumHash (fun c => [c])
        (EditorCore.insertText sumHash (EditorCore.init sumHash) 0 0 "x".toList 0)
        "b.txt".toList (some ("hello".toList, "UTF-8".toList))).2.canUndo =
        (EditorCore.insertText sumHash (EditorCore.init sumHash) 0 0 "x".toList 0).canUndo ∧
      (EditorCore.loadFile sumHash (fun c => [c])
        (EditorCore.insertText sumHash (EditorCore.init sumHash) 0 0 "x".toList 0)
        "b.txt".toList (some ("hello".toList, "UTF-8".toList))).2.canRedo =
        (EditorCore.insertText sumHash (EditorCore.init sumHash) 0 0 "x".toList 0).canRedo) ∧
    (EditorCore.loadFile sumHash (fun c => [c])
      (EditorCore.insertText sumHash (EditorCore.init sumHash) 0 0 "x".toList 0)
      "b.txt".toList (some ("hello".toList, "UTF-8".toList))).2.m_buffer.lines =
      ["hello".toList] ∧
    (EditorCore.loadFile sumHash (fun c => [c])
      (EditorCore.insertText sumHash (EditorCore.init sumHash) 0 0 "x".toList 0)
      "b.txt".toList (some ("hello".toList, "UTF-8".toList))).2.canUndo = true ∧
    (EditorCore.undo sumHash
      (EditorCore.loadFile sumHash (fun c => [c])
        (EditorCore.insertText sumHash (EditorCore.init sumHash) 0 0 "x".toList 0)
        "b.txt".toList (some ("hello".toList, "UTF-8".toList))).2).map
      (fun u => u.m_buffer.lines) = some ["ello".toList] :=
  ⟨loadFile_keeps_history sumHash (fun c => [c])
      (EditorCore.insertText sumHash (EditorCore.init sumHash) 0 0 "x".toList 0)
      "b.txt".toList "hello".toList "UTF-8".toList (by decide),
    by decide, by decide, by decide⟩

/-! ## Block comments -/

theorem setFormat_state (b : BlockHighlight) (start count : Int) (format : QTextCharFormat) :
    (b.setFormat start count format).currentBlockState = b.currentBlockState := by
  unfold BlockHighlight.setFormat
  split <;> rfl

theorem handleMultiLineLoop_stays_inside (h : SyntaxHighlighter) (text : QString) (fuel : Nat) :
    ∀ (startIndex : Int) (b b1 : BlockHighlight), b.currentBlockState = 1 →
      h.handleMultiLineLoop text fuel startIndex b = some b1 → b1.currentBlockState = 1 := by
  induction fuel with
  | zero =>
    intro startIndex b b1 hb hr
    unfold SyntaxHighlighter.handleMultiLineLoop at hr
    split at hr
    · exact absurd hr (by simp)
    · rw [← Option.some.inj hr]; exact hb
  | succ n ih =>
    intro startIndex b b1 hb hr
    unfold SyntaxHighlighter.handleMultiLineLoop at hr
    split at hr
    · refine ih _ _ b1 ?_ hr
      rw [setFormat_state]
      split
      · rfl
      · exact hb
    · rw [← Option.some.inj hr]; exact hb

theorem indexOfLiteral_bounds (lit text : QString) (offset i : Nat)
    (h : indexOfLiteral lit text offset = some i) :
    offset ≤ i ∧ i + lit.length ≤ text.length := by
  unfold indexOfLiteral at h
  have hmem := List.mem_of_mem_head? h
  rw [List.mem_filter] at hmem
  obtain ⟨hr, hp⟩ := hmem
  rw [List.mem_range] at hr
  simp only [Bool.and_eq_true, decide_eq_true_eq] at hp
  obtain ⟨h1, h2⟩ := hp
  have h3 := (List.isPrefixOf_iff_prefix.mp h2).length_le
  rw [List.length_drop] at h3
  exact ⟨h1, by omega⟩

theorem literal_matchesNonEmpty (pattern lit : QString) (hlit : lit ≠ []) :
    (QRegularExpression.literal pattern lit).matchesNonEmpty := by
  intro text offset m hm
  simp only [QRegularExpression.literal] at hm
  cases hi : indexOfLiteral lit text offset with
  | none => rw [hi] at hm; exact absurd hm (by simp)
  | some i =>
    rw [hi] at hm
    simp only [Option.map_some', Option.some.injEq] at hm
    obtain ⟨h1, h2⟩ := indexOfLiteral_bounds lit text offset i hi
    refine ⟨i, lit.length, by rw [← hm]; rfl, h1, ?_, h2⟩
    cases lit with
    | nil => exact absurd rfl hlit
    | cons c cs => simp

theorem matchAt_bounds (re : QRegularExpression) (hre : re.matchesNonEmpty) (text : QString)
    (offset : Int) (h0 : 0 ≤ offset) :
    (capturedStart (re.matchAt text offset) 0 = -1 ∧ re.matchAt text offset = none) ∨
      (offset ≤ capturedStart (re.matchAt text offset) 0 ∧
        1 ≤ capturedLength (re.matchAt text offset) 0 ∧
        capturedStart (re.matchAt text offset) 0 + capturedLength (re.matchAt text offset) 0 ≤
          (text.length : Int)) := by
  unfold QRegularExpression.matchAt
  simp only [if_neg (not_lt.mpr h0)]
  by_cases hr : offset < 0 ∨ offset > (text.length : Int)
  · rw [if_pos hr]; left; exact ⟨rfl, rfl⟩
  · rw [if_neg hr]
    cases hm : re.matchFrom text offset.toNat with
    | none => left; exact ⟨rfl, rfl⟩
    | some m =>
      right
      obtain ⟨start, len, hg, h1, h2, h3⟩ := hre text offset.toNat m hm
      have hg0 : m.groups.getD 0 (-1, 0) = ((start : Int), (len : Int)) := by
        cases hgs : m.groups with
        | nil => rw [hgs] at hg; simp at hg
        | cons g gs =>
          rw [hgs] at hg
          simp only [List.head?_cons, Option.some.injEq] at hg
          simp [hg]
      simp only [capturedStart, capturedLength, hg0]
      omega

/-- The loop of `handleMultiLine` ends within the fuel that `multiLinePass`
gives it when the two patterns match non-empty parts of the text only. -/
theorem handleMultiLineLoop_ends (h : SyntaxHighlighter)
    (hs : h.m_blockCommentStart.matchesNonEmpty) (he : h.m_blockCommentEnd.matchesNonEmpty)
    (text : QString) (fuel : Nat) :
    ∀ (startIndex : Int) (b : BlockHighlight), startIndex ≤ (text.length : Int) →
      (text.length : Int) - startIndex + 2 ≤ (fuel : Int) ∨ startIndex < 0 →
      ∃ b1, h.handleMultiLineLoop text fuel startIndex b = some b1 := by
  induction fuel with
  | zero =>
    intro startIndex b h1 h2
    have hneg : startIndex < 0 := by
      rcases h2 with h2 | h2
      · simp only [Nat.cast_zero] at h2; omega
      · exact h2
    refine ⟨b, ?_⟩
    unfold SyntaxHighlighter.handleMultiLineLoop
    rw [if_neg (by omega)]
  | succ n ih =>
    intro startIndex b h1 h2
    unfold SyntaxHighlighter.handleMultiLineLoop
    by_cases hneg : startIndex ≥ 0
    · rw [if_pos hneg]
      have hfuel : (text.length : Int) - startIndex + 2 ≤ ((n + 1 : Nat) : Int) := by
        rcases h2 with h2 | h2
        · exact h2
        · omega
      push_cast at hfuel
      simp only
      rcases matchAt_bounds h.m_blockCommentEnd he text startIndex hneg with
        ⟨e1, _⟩ | ⟨e1, e2, e3⟩
      · -- no end marker: the rest of the line is a comment and the scan is over
        rw [e1]
        simp only [if_true]
        have hoff : startIndex + ((text.length : Int) - startIndex) = (text.length : Int) := by
          omega
        rw [hoff]
        have hnext : QString.indexOf text h.m_blockCommentStart (text.length : Int) = -1 := by
          unfold QString.indexOf
          rcases matchAt_bounds h.m_blockCommentStart hs text (text.length : Int)
            (by omega) with ⟨s1, _⟩ | ⟨s1, s2, s3⟩
          · exact s1
          · omega
        rw [hnext]
        exact ih (-1) _ (by omega) (Or.inr (by omega))
      · have hne : ¬ capturedStart (h.m_blockCommentEnd.matchAt text startIndex) 0 = -1 := by
          omega
        simp only [if_neg hne]
        have hoff : startIndex +
            (capturedStart (h.m_blockCommentEnd.matchAt text startIndex) 0 - startIndex +
              capturedLength (h.m_blockCommentEnd.matchAt text startIndex) 0) =
            capturedStart (h.m_blockCommentEnd.matchAt text startIndex) 0 +
              capturedLength (h.m_blockCommentEnd.matchAt text startIndex) 0 := by omega
        rw [hoff]
        rcases matchAt_bounds h.m_blockCommentStart hs text
            (capturedStart (h.m_blockCommentEnd.matchAt text startIndex) 0 +
              capturedLength (h.m_blockCommentEnd.matchAt text startIndex) 0)
            (by omega) with ⟨s1, _⟩ | ⟨s1, s2, s3⟩
        · unfold QString.indexOf
          rw [s1]
          exact ih (-1) _ (by omega) (Or.inr (by omega))
        · unfold QString.indexOf
          exact ih _ _ (by omega) (Or.inl (by omega))
    · rw [if_neg hneg]
      exact ⟨b, rfl⟩

/-- C10, what the code does: with block-comment patterns that match
non-empty parts of the text (such as those of `/*` and `*/`), on every line
whose carried-in state is InsideBlockComment (1) `handleMultiLine` ends and
the outgoing state is again InsideBlockComment, whether or not the end
marker occurs on the line, because it starts from the carried-in state and
only ever sets the state to 1. On the document `/* start`, `middle`,
`end */` with the markers `/*` and `*/`, every character of the three lines
is comment-styled (line 3 ends with `*/`) and the state after each of the
three lines is 1, not Normal. -/
theorem block_comment_state_never_returns_to_normal :
    (∀ (h : SyntaxHighlighter) (text : QString) (b : BlockHighlight),
      h.m_blockCommentStart.pattern.isEmpty = false →
      h.m_blockCommentStart.matchesNonEmpty → h.m_blockCommentEnd.matchesNonEmpty →
      ∃ b1, h.handleMultiLine (text.length + 2) text 1 b = some b1 ∧
        b1.currentBlockState = 1) ∧
    (cStyleHighlighter.m_blockCommentStart.matchesNonEmpty ∧
      cStyleHighlighter.m_blockCommentEnd.matchesNonEmpty) ∧
    (cStyleHighlighter.multiLinePass
        ["/* start".toList, "middle".toList, "end */".toList] (-1)).map
      (fun blocks => blocks.map (fun b =>
        (b.formats.map (fun f => decide (f = commentFormat defaultThemeColors)),
          b.currentBlockState))) =
      some [(List.replicate 8 true, 1), (List.replicate 6 true, 1),
        (List.replicate 6 true, 1)] := by
  refine ⟨?_, ⟨?_, ?_⟩, ?_⟩
  · intro h text b hp hs he
    have hdef : ∃ b1, h.handleMultiLine (text.length + 2) text 1 b = some b1 := by
      unfold SyntaxHighlighter.handleMultiLine
      rw [hp]
      simp only [Bool.false_eq_true, if_false]
      exact handleMultiLineLoop_ends h hs he text (text.length + 2) 0 _ (by omega)
        (Or.inl (by push_cast; omega))
    obtain ⟨b1, hb1⟩ := hdef
    refine ⟨b1, hb1, ?_⟩
    unfold SyntaxHighlighter.handleMultiLine at hb1
    rw [hp] at hb1
    simp only [Bool.false_eq_true, if_false] at hb1
    exact handleMultiLineLoop_stays_inside h text _ _ _ b1 rfl hb1
  · exact literal_matchesNonEmpty _ _ (by decide)
  · exact literal_matchesNonEmpty _ _ (by decide)
  · decide

/-- Witness of C10: the line `end */` entered in state 1 with the markers
`/*` and `*/`. -/
theorem block_comment_state_never_returns_to_normal_witness :
    ∃ b1, cStyleHighlighter.handleMultiLine ("end */".toList.length + 2) "end */".toList 1
        (BlockHighlight.fresh "end */".toList) = some b1 ∧ b1.currentBlockState = 1 :=
  block_comment_state_never_returns_to_normal.1 cStyleHighlighter "end */".toList
    (BlockHighlight.fresh "end */".toList) (by decide)
    (literal_matchesNonEmpty _ _ (by decide)) (literal_matchesNonEmpty _ _ (by decide))

/-! ## The syntax check -/

/-- C11, what the code does: `checkSyntaxErrors` reports an unclosed comment
only when the text has an opener and no closer anywhere in it, before or
after the opener; a text that has an opener and lacks the closer is
reported. With the markers `/*` and `*/`, the text `/* a */ /* b` has an
opener at column 8 with no closer at or after it, and `handleMultiLine`
leaves that line inside a comment (state 1, columns 8 to 11 in the comment
format), yet `checkSyntaxErrors` returns NoError, because a closer occurs
earlier in the text. -/
theorem checkSyntaxErrors_misses_later_opener :
    (∀ (h : SyntaxHighlighter) (text : QString),
      h.m_blockCommentStart.pattern.isEmpty = false →
      QString.containsMatch text h.m_blockCommentStart = true →
      QString.containsMatch text h.m_blockCommentEnd = false →
      h.checkSyntaxErrors text = SyntaxError.UnclosedComment) ∧
    (∀ (h : SyntaxHighlighter) (text : QString),
      QString.containsMatch text h.m_blockCommentEnd = true →
      h.checkSyntaxErrors text = SyntaxError.NoError) ∧
    cStyleHighlighter.m_blockCommentStart.pattern.isEmpty = false ∧
    cStyleHighlighter.m_blockCommentStart.matchAt "/* a */ /* b".toList 7 =
      some { groups := [(8, 2)] } ∧
    cStyleHighlighter.m_blockCommentEnd.matchAt "/* a */ /* b".toList 8 = none ∧
    (cStyleHighlighter.handleMultiLine ("/* a */ /* b".toList.length + 2) "/* a */ /* b".toList
        (-1) (BlockHighlight.fresh "/* a */ /* b".toList)).map
      (fun b => (b.formats.map (fun f => decide (f = commentFormat defaultThemeColors)),
        b.currentBlockState)) =
      some ([true, true, true, true, true, true, true, false, true, true, true, true], 1) ∧
    cStyleHighlighter.checkSyntaxErrors "/* a */ /* b".toList = SyntaxError.NoError := by
  refine ⟨?_, ?_, by decide, by decide, by decide, by decide, by decide⟩
  · intro h text hp hs he
    unfold SyntaxHighlighter.checkSyntaxErrors
    rw [hp, hs, he]
    rfl
  · intro h text he
    unfold SyntaxHighlighter.checkSyntaxErrors
    rw [he]
    simp

/-! ## Notifications of `insertText` -/

/-- C16: a successful `insertText` notifies if and only if no bulk operation
is active. While the bulk flag is set the log of emitted signals and the
count of highlight passes are unchanged (no textChanged, modificationChanged
or cursorPositionChanged, no highlight pass) although the line and the
change log are updated; while it is clear exactly textChanged,
modificationChanged(true) and cursorPositionChanged(line, column +
length(text)) are emitted, once each and in this order, with one highlight
pass. -/
theorem insertText_notifies_iff_not_bulk (qHash : QString → Nat) (s : EditorCore)
    (line column : Int) (text : QString) (now : Int) (hv : s.validPosition line column) :
    (s.m_bulkOperation = true →
      (EditorCore.insertText qHash s line column text now).emitted = s.emitted ∧
      (EditorCore.insertText qHash s line column text now).highlightPasses =
        s.highlightPasses) ∧
    (s.m_bulkOperation = false →
      (EditorCore.insertText qHash s line column text now).emitted =
        s.emitted ++ [Signal.textChanged, Signal.modificationChanged true,
          Signal.cursorPositionChanged line (column + (text.length : Int))] ∧
      (EditorCore.insertText qHash s line column text now).highlightPasses =
        s.highlightPasses + 1) ∧
    ((EditorCore.insertText qHash s line column text now).emitted ≠ s.emitted ↔
      s.m_bulkOperation = false) ∧
    (EditorCore.insertText qHash s line column text now).lineText line =
      (s.lineText line).take column.toNat ++ text ++ (s.lineText line).drop column.toNat ∧
    (EditorCore.insertText qHash s line column text now).m_undoStack =
      s.m_undoStack.record ⟨⟨line, column⟩, [], text, toInt32 now⟩ now ∧
    (EditorCore.insertText qHash s line column text now).m_bulkOperation =
      s.m_bulkOperation := by
  have hv2 := insertText_valid qHash s line column text now hv
  have hb : (insertedState qHash s line column text now).m_bulkOperation = s.m_bulkOperation :=
    rfl
  refine ⟨?_, ?_, ?_, insertText_lineText qHash s line column text now hv,
    (insertText_recorded qHash s line column text now hv).2.2.2.2, ?_⟩
  · intro h
    rw [hv2, if_pos h]
    exact ⟨rfl, rfl⟩
  · intro h
    rw [hv2, h]
    simp [EditorCore.emit, EditorCore.emitTextChanged, insertedState, h]
  · cases h : s.m_bulkOperation
    · rw [hv2, h]
      simp [EditorCore.emit, EditorCore.emitTextChanged, insertedState]
    · rw [hv2, h]
      simp [insertedState]
  · rw [hv2]
    split <;> rfl

/-- Witness of C16: an insertion in the state built by the constructor. -/
theorem insertText_notifies_iff_not_bulk_witness :
    (EditorCore.insertText sumHash (EditorCore.init sumHash) 0 0 "a".toList 0).emitted =
      (EditorCore.init sumHash).emitted ++ [Signal.textChanged, Signal.modificationChanged true,
        Signal.cursorPositionChanged 0 (0 + ("a".toList.length : Int))] ∧
    (EditorCore.insertText sumHash (EditorCore.init sumHash) 0 0 "a".toList 0).highlightPasses =
      (EditorCore.init sumHash).highlightPasses + 1 :=
  (insertText_notifies_iff_not_bulk sumHash (EditorCore.init sumHash) 0 0 "a".toList 0
    (by decide)).2.1 (by decide)

/-! ## Order of the changes in `undo`, and the change-log invariant -/

/-- What a defined `undo()` with something to undo does: the action at
`stack[index]` is reverted change by change in the order of the vector, the
index goes down by one and the stack is kept. -/
theorem undo_of_canUndo (qHash : QString → Nat) (s u : EditorCore)
    (hc : s.canUndo = true) (h : EditorCore.undo qHash s = some u) :
    ∃ a, 0 ≤ s.m_undoStack.index ∧
      s.m_undoStack.stack.get? s.m_undoStack.index.toNat = some a ∧
      revertChanges qHash s.m_buffer a.changes = some u.m_buffer ∧
      u.m_undoStack = { s.m_undoStack with index := s.m_undoStack.index - 1 } := by
  unfold EditorCore.undo at h
  rw [hc] at h
  simp only [Bool.not_true, Bool.false_eq_true, if_false] at h
  by_cases hi : s.m_undoStack.index < 0
  · rw [if_pos hi] at h
    exact absurd h (by simp)
  · rw [if_neg hi] at h
    cases ha : s.m_undoStack.stack.get? s.m_undoStack.index.toNat with
    | none => rw [ha] at h; exact absurd h (by simp)
    | some a =>
      rw [ha] at h
      simp only [EditorCore.beginBulkOperation] at h
      cases hr : revertChanges qHash s.m_buffer a.changes with
      | none => rw [hr] at h; exact absurd h (by simp)
      | some b1 =>
        rw [hr] at h
        refine ⟨a, by omega, rfl, ?_, ?_⟩
        · rw [← Option.some.inj h]
          simp [EditorCore.endBulkOperation, EditorCore.emit, EditorCore.emitTextChanged]
          exact hr
        · rw [← Option.some.inj h]
          simp [EditorCore.endBulkOperation, EditorCore.emit, EditorCore.emitTextChanged]

/-- An `undo()` whose accesses are in range is defined. -/
theorem undo_defined (qHash : QString → Nat) (s : EditorCore) (hb : s.undoInBounds) :
    ∃ u, EditorCore.undo qHash s = some u := by
  by_cases hc : s.canUndo = true
  · obtain ⟨a, hi, ha, hch⟩ := hb hc
    obtain ⟨b1, hb1⟩ := revertChanges_defined qHash a.changes s.m_buffer hch
    obtain ⟨u, hu, _⟩ := undo_step qHash s a b1 hi ha hb1
    exact ⟨u, hu⟩
  · refine ⟨s, ?_⟩
    unfold EditorCore.undo
    have hc2 : s.canUndo = false := by simpa using hc
    rw [hc2]; rfl

theorem insertText_wellFormed (qHash : QString → Nat) (s : EditorCore) (line column : Int)
    (text : QString) (now : Int) (hwf : s.m_undoStack.wellFormed) :
    (EditorCore.insertText qHash s line column text now).m_undoStack.wellFormed := by
  by_cases hv : s.validPosition line column
  · rw [(insertText_recorded qHash s line column text now hv).2.2.2.2]
    by_cases hm : s.m_undoStack.inMacro = true
    · unfold UndoStack.record
      rw [if_pos hm]
      exact hwf
    · exact (record_wellFormed _ _ now hwf (by simpa using hm)).1
  · rw [insertText_invalid qHash s line column text now hv]
    exact hwf

/-- C20: the change-log invariant `-1 ≤ index < stack.length` holds in the
state built by the constructor and is preserved by `insertText` (every
position, inside or outside a macro) and by `undo()` (with or without
something to undo), which is defined whenever its accesses are in range.
A successful `undo()` lowers the index by exactly one and keeps the stack,
so that `index < stack.length - 1` holds right after it and `canRedo()` is
true. -/
theorem change_log_invariant (qHash : QString → Nat) :
    (EditorCore.init qHash).m_undoStack.wellFormed ∧
    (∀ (s : EditorCore) (line column : Int) (text : QString) (now : Int),
      s.m_undoStack.wellFormed →
      (EditorCore.insertText qHash s line column text now).m_undoStack.wellFormed) ∧
    (∀ s u : EditorCore, s.m_undoStack.wellFormed → EditorCore.undo qHash s = some u →
      u.m_undoStack.wellFormed) ∧
    (∀ s : EditorCore, s.undoInBounds → ∃ u, EditorCore.undo qHash s = some u) ∧
    (∀ s u : EditorCore, s.m_undoStack.wellFormed → s.canUndo = true →
      EditorCore.undo qHash s = some u →
      u.m_undoStack.index = s.m_undoStack.index - 1 ∧
      u.m_undoStack.stack = s.m_undoStack.stack ∧
      u.m_undoStack.index < (u.m_undoStack.stack.length : Int) - 1 ∧
      u.canRedo = true) := by
  refine ⟨⟨by simp [EditorCore.init], by simp [EditorCore.init]⟩, ?_, ?_, ?_, ?_⟩
  · intro s line column text now hwf
    exact insertText_wellFormed qHash s line column text now hwf
  · intro s u hwf h
    by_cases hc : s.canUndo = true
    · obtain ⟨a, hi, _, _, hu⟩ := undo_of_canUndo qHash s u hc h
      rw [hu]
      obtain ⟨h1, h2⟩ := hwf
      exact ⟨by simp only; omega, by simp only; omega⟩
    · have hc2 : s.canUndo = false := by simpa using hc
      unfold EditorCore.undo at h
      rw [hc2] at h
      simp only [Bool.not_false, if_true, Option.some.injEq] at h
      rw [← h]; exact hwf
  · intro s hb
    exact undo_defined qHash s hb
  · intro s u hwf hc h
    obtain ⟨a, hi, _, _, hu⟩ := undo_of_canUndo qHash s u hc h
    obtain ⟨h1, h2⟩ := hwf
    have hidx : u.m_undoStack.index = s.m_undoStack.index - 1 := by rw [hu]
    have hstk : u.m_undoStack.stack = s.m_undoStack.stack := by rw [hu]
    refine ⟨hidx, hstk, by rw [hidx, hstk]; omega, ?_⟩
    unfold EditorCore.canRedo
    rw [hidx, hstk]
    simp only [decide_eq_true_eq]; omega

/-- Witness of C20: the invariant after an insertion and an `undo()` from
the state built by the constructor. -/
theorem change_log_invariant_witness :
    ((EditorCore.undo sumHash
      (EditorCore.insertText sumHash (EditorCore.init sumHash) 0 0 "ab".toList 0)).getD
      (EditorCore.init sumHash)).m_undoStack.wellFormed :=
  (change_log_invariant sumHash).2.2.1
    (EditorCore.insertText sumHash (EditorCore.init sumHash) 0 0 "ab".toList 0) _
    ((change_log_invariant sumHash).2.1 _ 0 0 "ab".toList 0 (change_log_invariant sumHash).1)
    (by decide)

/-! ## Saving and failed loads -/

theorem join_eq_intercalate (lines : List QString) (sep : Char) :
    QStringList.join lines sep = List.intercalate [sep] lines := by
  induction lines with
  | nil => rfl
  | cons line rest ih =>
    cases rest with
    | nil => simp [QStringList.join, List.intercalate]
    | cons next more =>
      unfold QStringList.join
      rw [ih]
      simp [List.intercalate, List.intersperse]

theorem join_length (lines : List QString) (sep : Char) :
    (QStringList.join lines sep).length =
      (lines.map List.length).sum + (lines.length - 1) := by
  induction lines with
  | nil => rfl
  | cons line rest ih =>
    cases rest with
    | nil => simp [QStringList.join]
    | cons next more =>
      unfold QStringList.join
      rw [List.length_append, List.length_cons, ih]
      simp only [List.map_cons, List.sum_cons, List.length_cons]
      omega

theorem saveFile_no_path (writeTextFile : QString → QString → QString → Bool)
    (s : EditorCore) (filePath : QString)
    (hp : (if filePath.isEmpty then s.m_currentFile else filePath).isEmpty = true) :
    EditorCore.saveFile writeTextFile s filePath = (false, s, none) := by
  unfold EditorCore.saveFile
  simp only [hp, if_true]

theorem saveFile_write_failed (writeTextFile : QString → QString → QString → Bool)
    (s : EditorCore) (filePath : QString)
    (hp : (if filePath.isEmpty then s.m_currentFile else filePath).isEmpty = false)
    (hw : writeTextFile (if filePath.isEmpty then s.m_currentFile else filePath)
      (QStringList.join s.m_buffer.lines '\n') s.m_buffer.encoding = false) :
    EditorCore.saveFile writeTextFile s filePath =
      (false, s, some (if filePath.isEmpty then s.m_currentFile else filePath,
        QStringList.join s.m_buffer.lines '\n', s.m_buffer.encoding)) := by
  unfold EditorCore.saveFile
  simp only [hp, hw, Bool.false_eq_true, if_false, Bool.not_false, if_true]

theorem saveFile_written (writeTextFile : QString → QString → QString → Bool)
    (s : EditorCore) (filePath : QString)
    (hp : (if filePath.isEmpty then s.m_currentFile else filePath).isEmpty = false)
    (hw : writeTextFile (if filePath.isEmpty then s.m_currentFile else filePath)
      (QStringList.join s.m_buffer.lines '\n') s.m_buffer.encoding = true) :
    EditorCore.saveFile writeTextFile s filePath =
      (true,
        EditorCore.emit
          { (if filePath ≠ s.m_currentFile then { s with m_currentFile := filePath } else s) with
            m_modified := false }
          (Signal.fileSaved (if filePath.isEmpty then s.m_currentFile else filePath)),
        some (if filePath.isEmpty then s.m_currentFile else filePath,
          QStringList.join s.m_buffer.lines '\n', s.m_buffer.encoding)) := by
  unfold EditorCore.saveFile
  simp only [hp, hw, Bool.false_eq_true, if_false, Bool.not_true]

/-- C17: whenever `saveFile` has a path to save to, it calls the file
collaborator once, with that path, the encoding of the buffer, and a content
that is exactly the lines of the document joined with one `\n` between
consecutive lines, nothing before the first or after the last: a document
of `n` lines is written with `n - 1` separators. -/
theorem saveFile_writes_joined_lines (writeTextFile : QString → QString → QString → Bool)
    (s : EditorCore) (filePath : QString) :
    ((if filePath.isEmpty then s.m_currentFile else filePath).isEmpty = false →
      (EditorCore.saveFile writeTextFile s filePath).2.2 =
        some (if filePath.isEmpty then s.m_currentFile else filePath,
          QStringList.join s.m_buffer.lines '\n', s.m_buffer.encoding)) ∧
    (∀ call, (EditorCore.saveFile writeTextFile s filePath).2.2 = some call →
      call.2.1 = List.intercalate ['\n'] s.m_buffer.lines ∧
      call.2.1.length = (s.m_buffer.lines.map List.length).sum + (s.m_buffer.lines.length - 1)) ∧
    (∀ (line : QString) (next : QString) (rest : List QString),
      QStringList.join [line] '\n' = line ∧
      QStringList.join (line :: next :: rest) '\n' =
        line ++ '\n' :: QStringList.join (next :: rest) '\n') := by
  refine ⟨?_, ?_, ?_⟩
  · intro hp
    cases hw : writeTextFile (if filePath.isEmpty then s.m_currentFile else filePath)
        (QStringList.join s.m_buffer.lines '\n') s.m_buffer.encoding
    · rw [saveFile_write_failed writeTextFile s filePath hp hw]
    · rw [saveFile_written writeTextFile s filePath hp hw]
  · intro call hcall
    have hc : call.2.1 = QStringList.join s.m_buffer.lines '\n' := by
      cases hp : (if filePath.isEmpty then s.m_currentFile else filePath).isEmpty
      · cases hw : writeTextFile (if filePath.isEmpty then s.m_currentFile else filePath)
            (QStringList.join s.m_buffer.lines '\n') s.m_buffer.encoding
        · rw [saveFile_write_failed writeTextFile s filePath hp hw] at hcall
          rw [← Option.some.inj hcall]
        · rw [saveFile_written writeTextFile s filePath hp hw] at hcall
          rw [← Option.some.inj hcall]
      · rw [saveFile_no_path writeTextFile s filePath hp] at hcall
        exact absurd hcall (by simp)
    rw [hc]
    exact ⟨join_eq_intercalate _ _, join_length _ _⟩
  · intro line next rest
    exact ⟨rfl, rfl⟩

/-- Witness of C17: the document `ab`, empty line, `c` saved to `out.txt`. -/
theorem saveFile_writes_joined_lines_witness :
    (EditorCore.saveFile (fun _ _ _ => true)
      (EditorCore.ofLines sumHash ["ab".toList, [], "c".toList]) "out.txt".toList).2.2 =
      some ("out.txt".toList, "ab\n\nc".toList, "UTF-8".toList) :=
  (saveFile_writes_joined_lines (fun _ _ _ => true)
    (EditorCore.ofLines sumHash ["ab".toList, [], "c".toList]) "out.txt".toList).1 (by decide)

/-- C18: a `loadFile` that fails returns false and the state it was given,
whole (lines, fingerprints, current file path, modified flag), and it fails
on the empty path and on a read failure; a `saveFile` that fails returns
false and the state it was given, and it fails when there is no path to save
to and when the file collaborator reports a write failure. -/
theorem failed_load_and_save_change_nothing (qHash : QString → Nat)
    (split : QString → List QString) (writeTextFile : QString → QString → QString → Bool)
    (s : EditorCore) (filePath : QString) (readTextFile : Option (QString × QString)) :
    ((EditorCore.loadFile qHash split s filePath readTextFile).1 = false →
      (EditorCore.loadFile qHash split s filePath readTextFile).2 = s) ∧
    EditorCore.loadFile qHash split s [] readTextFile = (false, s) ∧
    EditorCore.loadFile qHash split s filePath none = (false, s) ∧
    ((EditorCore.saveFile writeTextFile s filePath).1 = false →
      (EditorCore.saveFile writeTextFile s filePath).2.1 = s) ∧
    ((if filePath.isEmpty then s.m_currentFile else filePath).isEmpty = true →
      (EditorCore.saveFile writeTextFile s filePath).1 = false) ∧
    (writeTextFile (if filePath.isEmpty then s.m_currentFile else filePath)
        (QStringList.join s.m_buffer.lines '\n') s.m_buffer.encoding = false →
      (EditorCore.saveFile writeTextFile s filePath).1 = false) := by
  refine ⟨?_, ?_, ?_, ?_, ?_, ?_⟩
  · intro h
    unfold EditorCore.loadFile at h ⊢
    split
    · rfl
    · rename_i hp
      rw [if_neg hp] at h
      cases readTextFile with
      | none => rfl
      | some r => exact absurd h (by simp)
  · rfl
  · unfold EditorCore.loadFile
    split <;> rfl
  · intro h
    cases hp : (if filePath.isEmpty then s.m_currentFile else filePath).isEmpty
    · cases hw : writeTextFile (if filePath.isEmpty then s.m_currentFile else filePath)
          (QStringList.join s.m_buffer.lines '\n') s.m_buffer.encoding
      · rw [saveFile_write_failed writeTextFile s filePath hp hw]
      · rw [saveFile_written writeTextFile s filePath hp hw] at h
        exact absurd h (by simp)
    · rw [saveFile_no_path writeTextFile s filePath hp]
  · intro hp
    rw [saveFile_no_path writeTextFile s filePath hp]
  · intro hw
    cases hp : (if filePath.isEmpty then s.m_currentFile else filePath).isEmpty
    · rw [saveFile_write_failed writeTextFile s filePath hp hw]
    · rw [saveFile_no_path writeTextFile s filePath hp]

/-- C13, what the code does: when the language file cannot be opened,
`loadLanguage` returns the highlighter it was given and emits nothing; when
the file opens and cannot be parsed, the language rule list is emptied, the
current-language name is replaced and `languageLoaded` is emitted, the rest
of the state being kept. From the state built by the constructor, the one
default rule is lost and the language name becomes `cpp`. -/
theorem loadLanguage_unparsable_clears_rules
    (engine : QString → QString → Nat → Option QRegularExpressionMatch)
    (sameColor : QColor → QColor → Bool)
    (h : SyntaxHighlighter) (language : QString) :
    SyntaxHighlighter.loadLanguage engine sameColor h language none = (h, []) ∧
    SyntaxHighlighter.loadLanguage engine sameColor h language (some none) =
      ({ h with m_rules := [], m_currentLanguage := language },
        [HighlighterEvent.languageLoaded language]) ∧
    (SyntaxHighlighter.init silentEngine).m_rules.length = 1 ∧
    (SyntaxHighlighter.init silentEngine).m_currentLanguage = [] ∧
    (SyntaxHighlighter.loadLanguage silentEngine sameHexColor
      (SyntaxHighlighter.init silentEngine) "cpp".toList (some none)).1.m_rules.length = 0 ∧
    (SyntaxHighlighter.loadLanguage silentEngine sameHexColor
      (SyntaxHighlighter.init silentEngine) "cpp".toList (some none)).1.m_currentLanguage = "cpp".toList := by
  refine ⟨rfl, rfl, rfl, rfl, rfl, rfl⟩

theorem createFormatFromStyle_congr (h c : SyntaxHighlighter)
    (hc : c.m_themeColors = h.m_themeColors) (style : StyleJson) :
    c.createFormatFromStyle style = h.createFormatFromStyle style := by
  unfold SyntaxHighlighter.createFormatFromStyle
  rw [hc]

theorem ruleOfJson_congr (engine : QString → QString → Nat → Option QRegularExpressionMatch)
    (h c : SyntaxHighlighter) (hc : c.m_themeColors = h.m_themeColors) (ruleObj : RuleJson) :
    c.ruleOfJson engine ruleObj = h.ruleOfJson engine ruleObj := by
  unfold SyntaxHighlighter.ruleOfJson
  rw [createFormatFromStyle_congr h c hc]

theorem loadKeywords_appends (engine : QString → QString → Nat → Option QRegularExpressionMatch)
    (h c : SyntaxHighlighter) (json : LanguageJson) (hc : c.m_themeColors = h.m_themeColors)
    (hr : c.m_rules = []) :
    (h.loadKeywords engine json).m_rules = h.m_rules ++ (c.loadKeywords engine json).m_rules ∧
    (h.loadKeywords engine json).m_themeColors = h.m_themeColors ∧
    (h.loadKeywords engine json).m_customRules = h.m_customRules := by
  unfold SyntaxHighlighter.loadKeywords
  cases json.keywords with
  | none => simp [hr]
  | some k => simp [hr, hc]

theorem loadStrings_appends (engine : QString → QString → Nat → Option QRegularExpressionMatch)
    (h c : SyntaxHighlighter) (json : LanguageJson) (hc : c.m_themeColors = h.m_themeColors)
    (hr : c.m_rules = []) :
    (h.loadStrings engine json).m_rules = h.m_rules ++ (c.loadStrings engine json).m_rules ∧
    (h.loadStrings engine json).m_themeColors = h.m_themeColors ∧
    (h.loadStrings engine json).m_customRules = h.m_customRules := by
  unfold SyntaxHighlighter.loadStrings
  cases json.strings with
  | none => simp [hr]
  | some k => simp [hr, hc]

theorem loadComments_appends (engine : QString → QString → Nat → Option QRegularExpressionMatch)
    (h c : SyntaxHighlighter) (json : LanguageJson) (hc : c.m_themeColors = h.m_themeColors)
    (hr : c.m_rules = []) :
    (h.loadComments engine json).m_rules = h.m_rules ++ (c.loadComments engine json).m_rules ∧
    (h.loadComments engine json).m_themeColors = h.m_themeColors ∧
    (h.loadComments engine json).m_customRules = h.m_customRules := by
  unfold SyntaxHighlighter.loadComments
  cases json.comments with
  | none => simp [hr]
  | some k =>
    obtain ⟨line, block⟩ := k
    cases line <;> cases block <;> simp [hr, hc]

theorem loadHighlightingRules_appends
    (engine : QString → QString → Nat → Option QRegularExpressionMatch)
    (h c : SyntaxHighlighter) (json : LanguageJson) (hc : c.m_themeColors = h.m_themeColors)
    (hr : c.m_rules = []) :
    (h.loadHighlightingRules engine json).m_rules =
      h.m_rules ++ (c.loadHighlightingRules engine json).m_rules ∧
    (h.loadHighlightingRules engine json).m_themeColors = h.m_themeColors ∧
    (h.loadHighlightingRules engine json).m_customRules = h.m_customRules := by
  unfold SyntaxHighlighter.loadHighlightingRules
  cases json.highlighting_rules with
  | none => simp [hr]
  | some k =>
    have : c.ruleOfJson engine = h.ruleOfJson engine :=
      funext (ruleOfJson_congr engine h c hc)
    simp [hr, this]

theorem loadSpecialRules_appends
    (engine : QString → QString → Nat → Option QRegularExpressionMatch)
    (h c : SyntaxHighlighter) (json : LanguageJson) (hc : c.m_themeColors = h.m_themeColors)
    (hr : c.m_rules = []) :
    (h.loadSpecialRules engine json).m_rules =
      h.m_rules ++ (c.loadSpecialRules engine json).m_rules ∧
    (h.loadSpecialRules engine json).m_themeColors = h.m_themeColors ∧
    (h.loadSpecialRules engine json).m_customRules = h.m_customRules := by
  unfold SyntaxHighlighter.loadSpecialRules
  cases json.special_rules with
  | none => simp [hr]
  | some k =>
    have : c.ruleOfJson engine = h.ruleOfJson engine :=
      funext (ruleOfJson_congr engine h c hc)
    simp [hr, this]

theorem loadTheme_frame (sameColor : QColor → QColor → Bool) (h : SyntaxHighlighter)
    (json : ThemeJson) :
    (h.loadTheme sameColor json).m_rules =
      h.m_rules.map (recolorRule sameColor (json.keywordOr h.m_themeColors.keyword)) ∧
    (h.loadTheme sameColor json).m_customRules = h.m_customRules ∧
    (h.loadTheme sameColor json).m_themeColors.keyword =
      json.keywordOr h.m_themeColors.keyword := by
  unfold SyntaxHighlighter.loadTheme SyntaxHighlighter.updateThemeColors ThemeJson.keywordOr
  cases json.colors <;> exact ⟨rfl, rfl, rfl⟩

/-- The loaders of `loadLanguage`, run one after the other on the cleared
highlighter, build the rule list that the definition describes. -/
theorem loaders_build_definitionRules
    (engine : QString → QString → Nat → Option QRegularExpressionMatch)
    (h : SyntaxHighlighter) (language : QString) (json : LanguageJson) :
    ((((((h.cleared language).loadKeywords engine json).loadStrings engine
      json).loadComments engine json).loadHighlightingRules engine json).loadSpecialRules
      engine json).m_rules = definitionRules engine h json ∧
    ((((((h.cleared language).loadKeywords engine json).loadStrings engine
      json).loadComments engine json).loadHighlightingRules engine json).loadSpecialRules
      engine json).m_customRules = h.m_customRules ∧
    ((((((h.cleared language).loadKeywords engine json).loadStrings engine
      json).loadComments engine json).loadHighlightingRules engine json).loadSpecialRules
      engine json).m_themeColors = h.m_themeColors := by
  have hc0 : (h.cleared language).m_rules = [] := rfl
  obtain ⟨k1, k2, k3⟩ :=
    loadKeywords_appends engine (h.cleared language) (h.cleared language) json rfl hc0
  obtain ⟨s1, s2, s3⟩ :=
    loadStrings_appends engine ((h.cleared language).loadKeywords engine json)
      (h.cleared language) json k2.symm hc0
  obtain ⟨c1, c2, c3⟩ :=
    loadComments_appends engine
      (((h.cleared language).loadKeywords engine json).loadStrings engine json)
      (h.cleared language) json (by rw [s2, k2]) hc0
  obtain ⟨r1, r2, r3⟩ :=
    loadHighlightingRules_appends engine
      ((((h.cleared language).loadKeywords engine json).loadStrings engine json).loadComments
        engine json)
      (h.cleared language) json (by rw [c2, s2, k2]) hc0
  obtain ⟨p1, p2, p3⟩ :=
    loadSpecialRules_appends engine
      (((((h.cleared language).loadKeywords engine json).loadStrings engine
        json).loadComments engine json).loadHighlightingRules engine json)
      (h.cleared language) json (by rw [r2, c2, s2, k2]) hc0
  refine ⟨?_, by rw [p3, r3, c3, s3, k3]; rfl, by rw [p2, r2, c2, s2, k2]; rfl⟩
  rw [p1, r1, c1, s1]
  unfold definitionRules
  congr 1
  · congr 1
    · congr 1
      · congr 1
        · unfold SyntaxHighlighter.loadKeywords
          cases json.keywords with
          | none => rfl
          | some keywords => simp [SyntaxHighlighter.cleared]
        · unfold SyntaxHighlighter.loadStrings
          cases json.strings with
          | none => rfl
          | some strings => simp [SyntaxHighlighter.cleared]
      · unfold SyntaxHighlighter.loadComments
        cases json.comments with
        | none => rfl
        | some comments =>
          obtain ⟨line, block⟩ := comments
          cases line <;> cases block <;> simp [SyntaxHighlighter.cleared]
    · unfold SyntaxHighlighter.loadHighlightingRules
      have hrule : (h.cleared language).ruleOfJson engine = h.ruleOfJson engine :=
        funext (ruleOfJson_congr engine h (h.cleared language) rfl)
      cases json.highlighting_rules with
      | none => rfl
      | some rules =>
        simp only [hrule, Option.getD_some]
        exact List.nil_append _
  · unfold SyntaxHighlighter.loadSpecialRules
    have hrule : (h.cleared language).ruleOfJson engine = h.ruleOfJson engine :=
      funext (ruleOfJson_congr engine h (h.cleared language) rfl)
    cases json.special_rules with
    | none => rfl
    | some specials =>
      simp only [hrule, Option.getD_some]
      exact List.nil_append _

/-- C14: after a `loadLanguage` whose file could be read, the language rule
list is exactly the list of the rules that the definition describes
(`definitionRules`): a rule `\bword\b` in the keyword colour for every word
of the keyword lists, a rule in the string colour for every string
delimiter and then the rule of the interpolated strings, the rule of the
line comment, a rule for every entry of `highlighting_rules` and a rule for
every member of `special_rules`, in this order, each recoloured by the loop
of `updateThemeColors` when the definition carries a theme. The result does
not depend on the rules present before the call, and the custom rule list is
the one from before the call. On the example definition `fullLanguage` the
list has seven rules, written out below. -/
theorem loadLanguage_rule_list
    (engine : QString → QString → Nat → Option QRegularExpressionMatch)
    (sameColor : QColor → QColor → Bool)
    (h : SyntaxHighlighter) (language : QString) (json : LanguageJson) :
    (SyntaxHighlighter.loadLanguage engine sameColor h language (some (some json))).1.m_rules =
      (match json.theme with
        | none => definitionRules engine h json
        | some theme =>
          (definitionRules engine h json).map
            (recolorRule sameColor (theme.keywordOr h.m_themeColors.keyword))) ∧
    (SyntaxHighlighter.loadLanguage engine sameColor h language
      (some (some json))).1.m_customRules = h.m_customRules ∧
    (∀ rules : List HighlightRule,
      (SyntaxHighlighter.loadLanguage engine sameColor { h with m_rules := rules } language
        (some (some json))).1 =
      (SyntaxHighlighter.loadLanguage engine sameColor h language (some (some json))).1) ∧
    (SyntaxHighlighter.loadLanguage silentEngine sameHexColor
      (SyntaxHighlighter.init silentEngine) "python".toList
      (some (some fullLanguage))).1.m_rules.map
        (fun r => (r.pattern.pattern, r.format, r.captureGroup)) =
      [("\\bif\\b".toList,
          { QTextCharFormat.plain with foreground := some "#569CD6".toList }, 0),
        ("\\band\\b".toList,
          { QTextCharFormat.plain with foreground := some "#569CD6".toList }, 0),
        ("\\'[^\\']*\\'".toList,
          { QTextCharFormat.plain with foreground := some "#CE9178".toList }, 0),
        ("f[\\\"'][^\\\"']*\\\x7b[^\x7d]*\\\x7d[^\\\"']*[\\\"']".toList,
          { QTextCharFormat.plain with foreground := some "#CE9178".toList }, 0),
        ("#.*".toList,
          { QTextCharFormat.plain with
            foreground := some "#6A9955".toList, fontItalic := true }, 0),
        ("[0-9]+".toList,
          { QTextCharFormat.plain with foreground := some "#B5CEA8".toList }, 0),
        ("@(\\w+)".toList,
          { QTextCharFormat.plain with
            foreground := some "#ABCDEF".toList, fontBold := true }, 1)] := by
  obtain ⟨hrules, hcustom, hcolors⟩ := loaders_build_definitionRules engine h language json
  refine ⟨?_, ?_, fun _ => rfl, by decide⟩
  · unfold SyntaxHighlighter.loadLanguage
    simp only [Option.getD_some]
    cases json.theme with
    | none => exact hrules
    | some theme =>
      simp only
      rw [(loadTheme_frame sameColor _ theme).1, hrules, hcolors]
  · unfold SyntaxHighlighter.loadLanguage
    simp only [Option.getD_some]
    cases json.theme with
    | none => exact hcustom
    | some theme =>
      simp only
      rw [(loadTheme_frame sameColor _ theme).2.1, hcustom]

/-! ## Themes -/

/-- C15, what the code does: a theme change recolours exactly the language
rules whose foreground colour equals `QColor("#569CD6")` at that moment
(`sameColor` is the comparison of Qt), giving them the keyword colour of the
new theme, and leaves the format of every other rule as it is. On the rules
styled `number`, `keyword` and explicit `#569CD6`: after a first theme
(keyword `#111111`, number `#FF0000`) the number rule keeps the old number
colour `#B5CEA8` and the rule with the explicit colour is overwritten with
`#111111`; after a second theme (keyword `#222222`) the keyword rule still
has `#111111`. -/
theorem theme_change_recolours_default_keyword_only :
    (∀ (sameColor : QColor → QColor → Bool) (h : SyntaxHighlighter) (json : ThemeJson),
      (h.loadTheme sameColor json).m_rules =
        h.m_rules.map (recolorRule sameColor (h.loadTheme sameColor json).m_themeColors.keyword)) ∧
    (∀ (sameColor : QColor → QColor → Bool) (keyword : QColor) (rule : HighlightRule),
      sameColor (rule.format.foreground.getD "#000000".toList) "#569CD6".toList = false →
      recolorRule sameColor keyword rule = rule) ∧
    (∀ (sameColor : QColor → QColor → Bool) (keyword : QColor) (rule : HighlightRule),
      sameColor (rule.format.foreground.getD "#000000".toList) "#569CD6".toList = true →
      recolorRule sameColor keyword rule =
        { rule with format := { rule.format with foreground := some keyword } }) ∧
    sampleHighlighter.m_rules.map (fun r => r.format.foreground) =
      [some "#B5CEA8".toList, some "#569CD6".toList, some "#569CD6".toList] ∧
    ((sampleHighlighter.setTheme sameHexColor "first".toList
      (some (some (sampleTheme "#111111".toList "#FF0000".toList)))).1.m_themeColors.number =
        "#FF0000".toList ∧
      (sampleHighlighter.setTheme sameHexColor "first".toList
        (some (some (sampleTheme "#111111".toList "#FF0000".toList)))).1.m_rules.map
        (fun r => r.format.foreground) =
        [some "#B5CEA8".toList, some "#111111".toList, some "#111111".toList]) ∧
    (((sampleHighlighter.setTheme sameHexColor "first".toList
        (some (some (sampleTheme "#111111".toList "#FF0000".toList)))).1.setTheme sameHexColor
        "second".toList
        (some (some (sampleTheme "#222222".toList "#FF0000".toList)))).1.m_themeColors.keyword =
        "#222222".toList ∧
      ((sampleHighlighter.setTheme sameHexColor "first".toList
        (some (some (sampleTheme "#111111".toList "#FF0000".toList)))).1.setTheme sameHexColor
        "second".toList
        (some (some (sampleTheme "#222222".toList "#FF0000".toList)))).1.m_rules.map
        (fun r => r.format.foreground) =
        [some "#B5CEA8".toList, some "#111111".toList, some "#111111".toList]) := by
  refine ⟨?_, ?_, ?_, by decide, ⟨by decide, by decide⟩, ⟨by decide, by decide⟩⟩
  · intro sameColor h json
    rw [(loadTheme_frame sameColor h json).2.2]
    exact (loadTheme_frame sameColor h json).1
  · intro sameColor keyword rule hne
    unfold recolorRule
    rw [hne]
    rfl
  · intro sameColor keyword rule heq
    unfold recolorRule
    rw [heq]
    rfl

/-! ## Precedence of the custom rules -/

theorem setFormat_length (b : BlockHighlight) (start count : Int) (format : QTextCharFormat) :
    (b.setFormat start count format).formats.length = b.formats.length := by
  unfold BlockHighlight.setFormat
  by_cases h : start < 0 ∨ start ≥ (b.formats.length : Int)
  · rw [if_pos h]
  · rw [if_neg h]
    simp only [List.length_append, List.length_take, List.length_replicate, List.length_drop]
    omega

/-- The format at position `p` after `setFormat(start, count, format)`. -/
theorem setFormat_get (b : BlockHighlight) (start count : Int) (format : QTextCharFormat)
    (p : Nat) (hp : p < b.formats.length) :
    (b.setFormat start count format).formats.get? p =
      if 0 ≤ start ∧ start ≤ (p : Int) ∧ (p : Int) < start + count then some format
      else b.formats.get? p := by
  unfold BlockHighlight.setFormat
  by_cases h : start < 0 ∨ start ≥ (b.formats.length : Int)
  · rw [if_pos h, if_neg (by omega)]
  · rw [if_neg h]
    simp only [List.get?_eq_getElem?]
    have ht : (b.formats.take start.toNat).length = start.toNat := by
      rw [List.length_take]; omega
    by_cases h1 : (p : Int) < start
    · rw [if_neg (by omega), List.append_assoc,
        List.getElem?_append_left (by rw [ht]; omega), List.getElem?_take_of_lt (by omega)]
    · by_cases h2 : (p : Int) < start + count
      · rw [if_pos (by omega), List.append_assoc,
          List.getElem?_append_right (by rw [ht]; omega), ht,
          List.getElem?_append_left (by rw [List.length_replicate]; omega),
          List.getElem?_replicate, if_pos (by omega)]
      · rw [if_neg (by omega),
          List.getElem?_append_right (by
            rw [List.length_append, ht, List.length_replicate]; omega),
          List.length_append, ht, List.length_replicate, List.getElem?_drop]
        congr 1
        omega

theorem applyRule_length
    (globalMatch : QRegularExpression → QString → List QRegularExpressionMatch)
    (text : QString) (rule : HighlightRule) (b : BlockHighlight) :
    (applyRule globalMatch text b rule).formats.length = b.formats.length := by
  unfold applyRule
  generalize globalMatch rule.pattern text = ms
  induction ms generalizing b with
  | nil => rfl
  | cons m rest ih =>
    rw [List.foldl_cons, ih, setFormat_length]

theorem applyRules_length
    (globalMatch : QRegularExpression → QString → List QRegularExpressionMatch)
    (text : QString) (rules : List HighlightRule) :
    ∀ b : BlockHighlight, (applyRules globalMatch text b rules).formats.length =
      b.formats.length := by
  induction rules with
  | nil => intro b; rfl
  | cons r rest ih =>
    intro b
    unfold applyRules at ih ⊢
    rw [List.foldl_cons, ih, applyRule_length]

/-- The format at position `p` after the loop of one rule: the format of the
rule when one of its matches spans `p`, the former format otherwise. -/
theorem applyRule_get
    (globalMatch : QRegularExpression → QString → List QRegularExpressionMatch)
    (text : QString) (rule : HighlightRule) (p : Nat) (b : BlockHighlight)
    (hp : p < b.formats.length) :
    (rule.covers globalMatch text p →
      (applyRule globalMatch text b rule).formats.get? p = some rule.format) ∧
    (¬ rule.covers globalMatch text p →
      (applyRule globalMatch text b rule).formats.get? p = b.formats.get? p) := by
  unfold applyRule HighlightRule.covers
  generalize globalMatch rule.pattern text = ms
  induction ms generalizing b with
  | nil =>
    constructor
    · rintro ⟨m, hm, _⟩
      exact absurd hm (List.not_mem_nil m)
    · intro _; rfl
  | cons m rest ih =>
    have hp1 : p < (b.setFormat (m.capturedStart rule.captureGroup)
        (m.capturedLength rule.captureGroup) rule.format).formats.length := by
      rw [setFormat_length]; exact hp
    obtain ⟨ih1, ih2⟩ := ih _ hp1
    rw [List.foldl_cons]
    have hset := setFormat_get b (m.capturedStart rule.captureGroup)
      (m.capturedLength rule.captureGroup) rule.format p hp
    constructor
    · rintro ⟨m1, hm1, hcov⟩
      by_cases hrest : ∃ m2 ∈ rest,
          0 ≤ m2.capturedStart rule.captureGroup ∧
          m2.capturedStart rule.captureGroup ≤ (p : Int) ∧
          (p : Int) < m2.capturedStart rule.captureGroup + m2.capturedLength rule.captureGroup
      · exact ih1 hrest
      · rw [ih2 hrest, hset]
        rcases List.mem_cons.mp hm1 with he | hin
        · subst he
          rw [if_pos hcov]
        · exact absurd ⟨m1, hin, hcov⟩ hrest
    · intro hno
      have hrest : ¬ ∃ m2 ∈ rest,
          0 ≤ m2.capturedStart rule.captureGroup ∧
          m2.capturedStart rule.captureGroup ≤ (p : Int) ∧
          (p : Int) < m2.capturedStart rule.captureGroup +
            m2.capturedLength rule.captureGroup := by
        rintro ⟨m2, hm2, hc⟩
        exact hno ⟨m2, List.mem_cons_of_mem _ hm2, hc⟩
      have hhead : ¬ (0 ≤ m.capturedStart rule.captureGroup ∧
          m.capturedStart rule.captureGroup ≤ (p : Int) ∧
          (p : Int) < m.capturedStart rule.captureGroup +
            m.capturedLength rule.captureGroup) :=
        fun hc => hno ⟨m, List.mem_cons_self _ _, hc⟩
      rw [ih2 hrest, hset, if_neg hhead]

theorem applyRules_get_none
    (globalMatch : QRegularExpression → QString → List QRegularExpressionMatch)
    (text : QString) (p : Nat) (rules : List HighlightRule) :
    ∀ b : BlockHighlight, p < b.formats.length →
      (∀ q ∈ rules, ¬ q.covers globalMatch text p) →
      (applyRules globalMatch text b rules).formats.get? p = b.formats.get? p := by
  induction rules with
  | nil => intro b _ _; rfl
  | cons r rest ih =>
    intro b hp hno
    unfold applyRules at ih ⊢
    rw [List.foldl_cons, ih _ (by rw [applyRule_length]; exact hp)
      (fun q hq => hno q (List.mem_cons_of_mem _ hq))]
    exact (applyRule_get globalMatch text r p b hp).2 (hno r (List.mem_cons_self _ _))

/-- The format at position `p` after the loop over a rule list is that of
the last rule of the list that spans `p`. -/
theorem applyRules_get_last
    (globalMatch : QRegularExpression → QString → List QRegularExpressionMatch)
    (text : QString) (p : Nat) (pre post : List HighlightRule) (r : HighlightRule)
    (b : BlockHighlight) (hp : p < b.formats.length) (hcov : r.covers globalMatch text p)
    (hlast : ∀ q ∈ post, ¬ q.covers globalMatch text p) :
    (applyRules globalMatch text b (pre ++ r :: post)).formats.get? p = some r.format := by
  unfold applyRules
  rw [List.foldl_append, List.foldl_cons]
  have h1 : p < (List.foldl (applyRule globalMatch text) b pre).formats.length := by
    have := applyRules_length globalMatch text pre b
    unfold applyRules at this
    rw [this]; exact hp
  have h2 := applyRules_get_none globalMatch text p post
    (applyRule globalMatch text (List.foldl (applyRule globalMatch text) b pre) r)
    (by rw [applyRule_length]; exact h1) hlast
  unfold applyRules at h2
  rw [h2]
  exact (applyRule_get globalMatch text r p _ h1).1 hcov

/-- The loop of `handleMultiLine` formats the spans of `commentSpansLoop`
and nothing else. -/
theorem handleMultiLineLoop_spans (h : SyntaxHighlighter) (text : QString) (fuel : Nat) :
    ∀ (startIndex : Int) (b b1 : BlockHighlight),
      h.handleMultiLineLoop text fuel startIndex b = some b1 →
      ∃ spans, h.commentSpansLoop text fuel startIndex = some spans ∧
        b1.formats.length = b.formats.length ∧
        ∀ p : Nat, p < b.formats.length →
          (∀ sp ∈ spans, ¬ (sp.1 ≤ (p : Int) ∧ (p : Int) < sp.1 + sp.2)) →
          b1.formats.get? p = b.formats.get? p := by
  induction fuel with
  | zero =>
    intro startIndex b b1 hr
    unfold SyntaxHighlighter.handleMultiLineLoop at hr
    unfold SyntaxHighlighter.commentSpansLoop
    by_cases hs : startIndex ≥ 0
    · rw [if_pos hs] at hr
      exact absurd hr (by simp)
    · rw [if_neg hs] at hr
      rw [if_neg hs, ← Option.some.inj hr]
      exact ⟨[], rfl, rfl, fun _ _ _ => rfl⟩
  | succ n ih =>
    intro startIndex b b1 hr
    unfold SyntaxHighlighter.handleMultiLineLoop at hr
    unfold SyntaxHighlighter.commentSpansLoop
    by_cases hs : startIndex ≥ 0
    · rw [if_pos hs] at hr
      rw [if_pos hs]
      simp only at hr ⊢
      obtain ⟨spans, hsp, hlen, hget⟩ := ih _ _ b1 hr
      rw [hsp]
      refine ⟨_, rfl, ?_, ?_⟩
      · rw [hlen, setFormat_length]
        split <;> rfl
      · intro p hp hout
        have hlen0 : (if capturedStart (h.m_blockCommentEnd.matchAt text startIndex) 0 = -1
            then b.setCurrentBlockState 1 else b).formats = b.formats := by
          split <;> rfl
        rw [hget p (by rw [setFormat_length, hlen0]; exact hp)
          (fun sp hsp2 => hout sp (List.mem_cons_of_mem _ hsp2)),
          setFormat_get _ _ _ _ p (by rw [hlen0]; exact hp), hlen0]
        have hhead := hout _ (List.mem_cons_self _ _)
        rw [if_neg (fun hc => hhead ⟨hc.2.1, hc.2.2⟩)]
    · rw [if_neg hs] at hr
      rw [if_neg hs, ← Option.some.inj hr]
      exact ⟨[], rfl, rfl, fun _ _ _ => rfl⟩

theorem handleMultiLine_spans (h : SyntaxHighlighter) (text : QString) (fuel : Nat)
    (previousBlockState : Int) (b b1 : BlockHighlight)
    (hr : h.handleMultiLine fuel text previousBlockState b = some b1) :
    ∃ spans, h.commentSpans fuel text previousBlockState = some spans ∧
      ∀ p : Nat, p < b.formats.length →
        (∀ sp ∈ spans, ¬ (sp.1 ≤ (p : Int) ∧ (p : Int) < sp.1 + sp.2)) →
        b1.formats.get? p = b.formats.get? p := by
  unfold SyntaxHighlighter.handleMultiLine at hr
  unfold SyntaxHighlighter.commentSpans
  by_cases hp : h.m_blockCommentStart.pattern.isEmpty = true
  · rw [if_pos hp] at hr
    rw [if_pos hp, ← Option.some.inj hr]
    exact ⟨[], rfl, fun _ _ _ => rfl⟩
  · rw [if_neg hp] at hr
    rw [if_neg hp]
    obtain ⟨spans, hsp, _, hget⟩ := handleMultiLineLoop_spans h text fuel _ _ b1 hr
    exact ⟨spans, hsp, hget⟩

/-- With no block-comment pattern, or with patterns that match non-empty
parts of the text only, `handleMultiLine` ends within `text.length + 2`
iterations. -/
theorem handleMultiLine_defined (h : SyntaxHighlighter) (text : QString)
    (previousBlockState : Int) (b : BlockHighlight)
    (hpat : h.m_blockCommentStart.pattern.isEmpty = true ∨
      (h.m_blockCommentStart.matchesNonEmpty ∧ h.m_blockCommentEnd.matchesNonEmpty)) :
    ∃ b1, h.handleMultiLine (text.length + 2) text previousBlockState b = some b1 := by
  unfold SyntaxHighlighter.handleMultiLine
  by_cases hp : h.m_blockCommentStart.pattern.isEmpty = true
  · rw [if_pos hp]; exact ⟨b, rfl⟩
  · rw [if_neg hp]
    rcases hpat with he | ⟨hs, he⟩
    · exact absurd he hp
    · by_cases hprev : previousBlockState ≠ 1
      · simp only [if_pos hprev]
        unfold QString.indexOf
        rcases matchAt_bounds h.m_blockCommentStart hs text 0 (le_refl _) with
          ⟨s1, _⟩ | ⟨s1, s2, s3⟩
        · rw [s1]
          exact handleMultiLineLoop_ends h hs he text _ (-1) _ (by omega) (Or.inr (by omega))
        · exact handleMultiLineLoop_ends h hs he text _ _ _ (by omega)
            (Or.inl (by push_cast; omega))
      · simp only [if_neg hprev]
        exact handleMultiLineLoop_ends h hs he text _ 0 _ (by omega)
          (Or.inl (by push_cast; omega))

/-- C12: for every line, every carried-in state and every position `p` of
the line that a custom rule formats, `highlightBlock` ends (the
block-comment patterns being absent, or matching non-empty text only) and,
when `p` lies outside every block-comment span, the final format at `p` is
the format of the last custom rule, in list order, that formats `p`,
whatever the language rules do there. -/
theorem custom_rule_wins
    (globalMatch : QRegularExpression → QString → List QRegularExpressionMatch)
    (h : SyntaxHighlighter) (text : QString) (previousBlockState elapsed : Int)
    (b : BlockHighlight) (p : Nat) (pre post : List HighlightRule) (r : HighlightRule)
    (hcustom : h.m_customRules = pre ++ r :: post)
    (hcov : r.covers globalMatch text p)
    (hlast : ∀ q ∈ post, ¬ q.covers globalMatch text p)
    (hp : p < b.formats.length)
    (hpat : h.m_blockCommentStart.pattern.isEmpty = true ∨
      (h.m_blockCommentStart.matchesNonEmpty ∧ h.m_blockCommentEnd.matchesNonEmpty)) :
    ∃ spans h1 b1 events,
      h.commentSpans (text.length + 2) text previousBlockState = some spans ∧
      h.highlightBlock globalMatch (text.length + 2) text previousBlockState elapsed b =
        some (h1, b1, events) ∧
      ((∀ sp ∈ spans, ¬ (sp.1 ≤ (p : Int) ∧ (p : Int) < sp.1 + sp.2)) →
        b1.formats.get? p = some r.format) := by
  obtain ⟨b3, hb3⟩ := handleMultiLine_defined h text previousBlockState
    (applyRules globalMatch text (applyRules globalMatch text b h.m_rules) h.m_customRules) hpat
  obtain ⟨spans, hsp, hget⟩ := handleMultiLine_spans h text _ previousBlockState _ b3 hb3
  have hlen1 : p < (applyRules globalMatch text b h.m_rules).formats.length := by
    rw [applyRules_length]; exact hp
  refine ⟨spans, { h with m_lastHighlightTime := elapsed }, b3,
    (if h.checkSyntaxErrors text ≠ SyntaxError.NoError then
        [HighlighterEvent.syntaxErrorDetected (h.checkSyntaxErrors text) 0]
      else []) ++ [HighlighterEvent.highlightingPerformance elapsed], hsp, ?_, ?_⟩
  · unfold SyntaxHighlighter.highlightBlock
    simp only [hb3]
  · intro hout
    rw [hget p (by rw [applyRules_length]; exact hlen1) hout, hcustom]
    exact applyRules_get_last globalMatch text p pre post r _ hlen1 hcov hlast

/-- Witness of C12: the line `a1` with a language rule and a custom rule
that both format the digit. -/
theorem custom_rule_wins_witness :
    ∃ spans h1 b1 events,
      sampleDigitHighlighter.commentSpans ("a1".toList.length + 2) "a1".toList (-1) =
        some spans ∧
      sampleDigitHighlighter.highlightBlock QRegularExpression.scan ("a1".toList.length + 2)
        "a1".toList (-1) 0 (BlockHighlight.fresh "a1".toList) = some (h1, b1, events) ∧
      ((∀ sp ∈ spans, ¬ (sp.1 ≤ ((1 : Nat) : Int) ∧ ((1 : Nat) : Int) < sp.1 + sp.2)) →
        b1.formats.get? 1 = some sampleCustomRule.format) :=
  custom_rule_wins QRegularExpression.scan sampleDigitHighlighter "a1".toList (-1) 0
    (BlockHighlight.fresh "a1".toList) 1 [] [] sampleCustomRule rfl
    ⟨{ groups := [(1, 1)] }, by decide, by decide⟩
    (fun q hq => absurd hq (List.not_mem_nil q)) (by decide)
    (Or.inr ⟨literal_matchesNonEmpty _ _ (by decide), literal_matchesNonEmpty _ _ (by decide)⟩)

/-! ## The block-comment scan -/

/-- A search of the opener from the end of the text finds nothing. -/
theorem indexOf_at_end (re : QRegularExpression) (hre : re.matchesNonEmpty) (text : QString) :
    QString.indexOf text re (text.length : Int) = -1 := by
  unfold QString.indexOf
  rcases matchAt_bounds re hre text (text.length : Int) (by omega) with ⟨s1, _⟩ | ⟨s1, s2, s3⟩
  · exact s1
  · omega


/-- The loop of `handleMultiLine` against the scan: it ends; the state it
leaves is 1 exactly when it was 1 before or the scan reaches, from the
opener the loop starts at, an opener with no closer; from such an opener to
the end of the line every character has the comment format. -/
theorem handleMultiLineLoop_scan (h : SyntaxHighlighter)
    (hs : h.m_blockCommentStart.matchesNonEmpty) (he : h.m_blockCommentEnd.matchesNonEmpty)
    (text : QString) (fuel : Nat) :
    ∀ (i : Int) (b : BlockHighlight), i ≤ (text.length : Int) →
      (text.length : Int) - i + 2 ≤ (fuel : Int) ∨ i < 0 →
      b.formats.length = text.length →
      ∃ b1, h.handleMultiLineLoop text fuel i b = some b1 ∧
        b1.formats.length = text.length ∧
        (i < 0 → b1 = b) ∧
        (b1.currentBlockState = 1 ↔
          b.currentBlockState = 1 ∨
            (0 ≤ i ∧ ∃ j, h.scanReaches text i j ∧ h.m_blockCommentEnd.matchAt text j = none)) ∧
        (b1.currentBlockState ≠ 1 → b1.currentBlockState = b.currentBlockState) ∧
        (0 ≤ i → ∀ j, h.scanReaches text i j → h.m_blockCommentEnd.matchAt text j = none →
          i ≤ j ∧ ∀ q : Nat, j ≤ (q : Int) → q < text.length →
            b1.formats.get? q = some h.m_blockCommentFormat) := by
  induction fuel with
  | zero =>
    intro i b h1 h2 hb
    have hneg : i < 0 := by
      rcases h2 with h2 | h2
      · simp only [Nat.cast_zero] at h2; omega
      · exact h2
    refine ⟨b, ?_, hb, fun _ => rfl, ?_, fun _ => rfl, fun h0 => absurd h0 (by omega)⟩
    · unfold SyntaxHighlighter.handleMultiLineLoop
      rw [if_neg (by omega)]
    · constructor
      · intro hst; exact Or.inl hst
      · rintro (hst | ⟨h0, -⟩)
        · exact hst
        · omega
  | succ n ih =>
    intro i b h1 h2 hb
    unfold SyntaxHighlighter.handleMultiLineLoop
    by_cases hneg : i ≥ 0
    · rw [if_pos hneg]
      have hfuel : (text.length : Int) - i + 2 ≤ ((n + 1 : Nat) : Int) := by
        rcases h2 with h2 | h2
        · exact h2
        · omega
      push_cast at hfuel
      simp only
      rcases matchAt_bounds h.m_blockCommentEnd he text i hneg with ⟨e1, e0⟩ | ⟨e1, e2, e3⟩
      · -- no closer from the opener at i
        rw [e1]
        simp only [if_true]
        have hoff : i + ((text.length : Int) - i) = (text.length : Int) := by omega
        rw [hoff, indexOf_at_end h.m_blockCommentStart hs text]
        have hb2 : ((b.setCurrentBlockState 1).setFormat i ((text.length : Int) - i)
            h.m_blockCommentFormat).formats.length = text.length := by
          rw [setFormat_length]; exact hb
        obtain ⟨b1, hb1, hlen, hsame, -, -, -⟩ := ih (-1)
          ((b.setCurrentBlockState 1).setFormat i ((text.length : Int) - i)
            h.m_blockCommentFormat) (by omega) (Or.inr (by omega)) hb2
        have hb1eq := hsame (by omega)
        subst hb1eq
        have hstate : ((b.setCurrentBlockState 1).setFormat i ((text.length : Int) - i)
            h.m_blockCommentFormat).currentBlockState = 1 := by
          rw [setFormat_state]; rfl
        refine ⟨_, hb1, hlen, fun h0 => absurd h0 (by omega), ?_, ?_, ?_⟩
        · constructor
          · intro _
            exact Or.inr ⟨hneg, i, SyntaxHighlighter.scanReaches.here i, e0⟩
          · intro _
            exact hstate
        · intro hne
          exact absurd hstate hne
        · intro _ j hscan hnone
          cases hscan with
          | here =>
            refine ⟨le_refl _, ?_⟩
            intro q hq1 hq2
            rw [setFormat_get _ _ _ _ _ (by
              show q < (b.setCurrentBlockState 1).formats.length
              simp only [BlockHighlight.setCurrentBlockState]
              omega)]
            rw [if_pos ⟨hneg, hq1, by omega⟩]
          | next _ _ hc _ _ => exact absurd e1 hc
      · -- the comment that begins at i is closed
        have hne : ¬ capturedStart (h.m_blockCommentEnd.matchAt text i) 0 = -1 := by omega
        have hsome : h.m_blockCommentEnd.matchAt text i ≠ none := by
          intro hnone
          rw [hnone] at hne
          exact hne rfl
        simp only [if_neg hne]
        have hoff : i + (capturedStart (h.m_blockCommentEnd.matchAt text i) 0 - i +
              capturedLength (h.m_blockCommentEnd.matchAt text i) 0) =
            capturedStart (h.m_blockCommentEnd.matchAt text i) 0 +
              capturedLength (h.m_blockCommentEnd.matchAt text i) 0 := by omega
        rw [hoff]
        have hb2 : (b.setFormat i
            (capturedStart (h.m_blockCommentEnd.matchAt text i) 0 - i +
              capturedLength (h.m_blockCommentEnd.matchAt text i) 0)
            h.m_blockCommentFormat).formats.length = text.length := by
          rw [setFormat_length]; exact hb
        have hst2 : (b.setFormat i
            (capturedStart (h.m_blockCommentEnd.matchAt text i) 0 - i +
              capturedLength (h.m_blockCommentEnd.matchAt text i) 0)
            h.m_blockCommentFormat).currentBlockState = b.currentBlockState :=
          setFormat_state _ _ _ _
        have hidx : QString.indexOf text h.m_blockCommentStart
            (capturedStart (h.m_blockCommentEnd.matchAt text i) 0 +
              capturedLength (h.m_blockCommentEnd.matchAt text i) 0) ≤ (text.length : Int) ∧
            ((text.length : Int) - QString.indexOf text h.m_blockCommentStart
              (capturedStart (h.m_blockCommentEnd.matchAt text i) 0 +
                capturedLength (h.m_blockCommentEnd.matchAt text i) 0) + 2 ≤ (n : Int) ∨
              QString.indexOf text h.m_blockCommentStart
                (capturedStart (h.m_blockCommentEnd.matchAt text i) 0 +
                  capturedLength (h.m_blockCommentEnd.matchAt text i) 0) < 0) ∧
            (0 ≤ QString.indexOf text h.m_blockCommentStart
              (capturedStart (h.m_blockCommentEnd.matchAt text i) 0 +
                capturedLength (h.m_blockCommentEnd.matchAt text i) 0) →
              i ≤ QString.indexOf text h.m_blockCommentStart
                (capturedStart (h.m_blockCommentEnd.matchAt text i) 0 +
                  capturedLength (h.m_blockCommentEnd.matchAt text i) 0)) := by
          unfold QString.indexOf
          rcases matchAt_bounds h.m_blockCommentStart hs text
              (capturedStart (h.m_blockCommentEnd.matchAt text i) 0 +
                capturedLength (h.m_blockCommentEnd.matchAt text i) 0)
              (by omega) with ⟨s1, _⟩ | ⟨s1, s2, s3⟩
          · rw [s1]
            exact ⟨by omega, Or.inr (by omega), fun h0 => absurd h0 (by omega)⟩
          · exact ⟨by omega, Or.inl (by omega), fun _ => by omega⟩
        obtain ⟨b1, hb1, hlen, hsame, hiff, hkeep, hfmt⟩ := ih _
          (b.setFormat i
            (capturedStart (h.m_blockCommentEnd.matchAt text i) 0 - i +
              capturedLength (h.m_blockCommentEnd.matchAt text i) 0)
            h.m_blockCommentFormat) hidx.1 hidx.2.1 hb2
        refine ⟨b1, hb1, hlen, fun h0 => absurd h0 (by omega), ?_, ?_, ?_⟩
        · rw [hiff, hst2]
          constructor
          · rintro (hst | ⟨h0, j, hscan, hnone⟩)
            · exact Or.inl hst
            · exact Or.inr ⟨hneg, j, SyntaxHighlighter.scanReaches.next i j hne h0 hscan, hnone⟩
          · rintro (hst | ⟨-, j, hscan, hnone⟩)
            · exact Or.inl hst
            · cases hscan with
              | here => exact absurd hnone hsome
              | next _ _ hc h0 hrest => exact Or.inr ⟨h0, j, hrest, hnone⟩
        · intro hne1
          rw [hkeep hne1, hst2]
        · intro _ j hscan hnone
          cases hscan with
          | here => exact absurd hnone hsome
          | next _ _ hc h0 hrest =>
            obtain ⟨hle, hq⟩ := hfmt h0 j hrest hnone
            exact ⟨le_trans (hidx.2.2 h0) hle, hq⟩
    · rw [if_neg hneg]
      refine ⟨b, rfl, hb, fun _ => rfl, ?_, fun _ => rfl, fun h0 => absurd h0 hneg⟩
      constructor
      · intro hst; exact Or.inl hst
      · rintro (hst | ⟨h0, -⟩)
        · exact hst
        · exact absurd h0 hneg

/-- The block-comment state machine on a line, for block-comment patterns
that are configured and match non-empty parts of the text only. Entered
outside a comment (any carried-in state other than 1), the line is left in
state 1 exactly when the scan reaches an opener from whose index on no
closer is found, and in the carried-in state otherwise; from such an opener
to the end of the line every character has the comment format; a line with
no opener is left as it was. Entered inside a comment, the line is left
inside a comment, and when it has no closer every character of it has the
comment format. -/
theorem handleMultiLine_scan_states (h : SyntaxHighlighter)
    (hp : h.m_blockCommentStart.pattern.isEmpty = false)
    (hs : h.m_blockCommentStart.matchesNonEmpty) (he : h.m_blockCommentEnd.matchesNonEmpty)
    (text : QString) (b : BlockHighlight) (hb : b.formats.length = text.length) :
    (∀ previousBlockState : Int, previousBlockState ≠ 1 →
      ∃ b1, h.handleMultiLine (text.length + 2) text previousBlockState b = some b1 ∧
        (b1.currentBlockState = 1 ↔ ∃ j, h.reachesOpenComment text j) ∧
        (b1.currentBlockState ≠ 1 → b1.currentBlockState = previousBlockState) ∧
        (∀ j, h.reachesOpenComment text j →
          0 ≤ j ∧ ∀ q : Nat, j ≤ (q : Int) → q < text.length →
            b1.formats.get? q = some h.m_blockCommentFormat) ∧
        (QString.containsMatch text h.m_blockCommentStart = false →
          b1 = b.setCurrentBlockState previousBlockState)) ∧
    (∃ b1, h.handleMultiLine (text.length + 2) text 1 b = some b1 ∧
      b1.currentBlockState = 1 ∧
      (QString.containsMatch text h.m_blockCommentEnd = false →
        ∀ q : Nat, q < text.length → b1.formats.get? q = some h.m_blockCommentFormat)) := by
  have hpat : ¬ h.m_blockCommentStart.pattern.isEmpty = true := by
    rw [hp]; exact Bool.false_ne_true
  constructor
  · intro prev hprev
    unfold SyntaxHighlighter.handleMultiLine
    rw [if_neg hpat]
    simp only [if_pos hprev]
    have hidx : QString.indexOf text h.m_blockCommentStart 0 ≤ (text.length : Int) ∧
        ((text.length : Int) - QString.indexOf text h.m_blockCommentStart 0 + 2 ≤
            ((text.length + 2 : Nat) : Int) ∨
          QString.indexOf text h.m_blockCommentStart 0 < 0) := by
      unfold QString.indexOf
      rcases matchAt_bounds h.m_blockCommentStart hs text 0 (by omega) with
        ⟨s1, _⟩ | ⟨s1, s2, s3⟩
      · rw [s1]
        exact ⟨by omega, Or.inr (by omega)⟩
      · exact ⟨by omega, Or.inl (by push_cast; omega)⟩
    obtain ⟨b1, hb1, -, hsame, hiff, hkeep, hfmt⟩ :=
      handleMultiLineLoop_scan h hs he text (text.length + 2)
        (QString.indexOf text h.m_blockCommentStart 0) (b.setCurrentBlockState prev)
        hidx.1 hidx.2 hb
    have hst : (b.setCurrentBlockState prev).currentBlockState = prev := rfl
    refine ⟨b1, hb1, ?_, ?_, ?_, ?_⟩
    · rw [hiff, hst]
      constructor
      · rintro (h1 | ⟨h0, j, hscan, hnone⟩)
        · exact absurd h1 hprev
        · exact ⟨j, h0, hscan, hnone⟩
      · rintro ⟨j, h0, hscan, hnone⟩
        exact Or.inr ⟨h0, j, hscan, hnone⟩
    · intro hne
      rw [hkeep hne, hst]
    · rintro j ⟨h0, hscan, hnone⟩
      obtain ⟨hle, hq⟩ := hfmt h0 j hscan hnone
      exact ⟨le_trans h0 hle, hq⟩
    · intro hno
      apply hsame
      unfold QString.containsMatch at hno
      unfold QString.indexOf
      cases hm : h.m_blockCommentStart.matchAt text 0 with
      | none => simp [capturedStart]
      | some m => rw [hm] at hno; simp at hno
  · unfold SyntaxHighlighter.handleMultiLine
    rw [if_neg hpat]
    simp only [ne_eq, not_true_eq_false, if_false]
    obtain ⟨b1, hb1, -, -, hiff, -, hfmt⟩ :=
      handleMultiLineLoop_scan h hs he text (text.length + 2) 0 (b.setCurrentBlockState 1)
        (by omega) (Or.inl (by push_cast; omega)) hb
    refine ⟨b1, hb1, hiff.mpr (Or.inl rfl), ?_⟩
    intro hno q hq
    have hnone : h.m_blockCommentEnd.matchAt text 0 = none := by
      unfold QString.containsMatch at hno
      cases hm : h.m_blockCommentEnd.matchAt text 0 with
      | none => rfl
      | some m => rw [hm] at hno; simp at hno
    exact (hfmt (le_refl _) 0 (SyntaxHighlighter.scanReaches.here 0) hnone).2 q (by omega) hq

/-- C21: what `handleMultiLine` does on a line entered outside a comment.
The closer of a comment is searched from the index at which its opener
begins, not from the end of the opener, so the text of the opener can be
the closer, or a part of it. With the markers `/*` and `*/` the line `/*/ x`
has its one opener at 0 and no closer at or after the end of the opener,
yet the closer found at 1 ends the comment: `/*/` is formatted, ` x` is
not, and the block is left in the carried-in state -1. With the marker
`"""` for both ends the line `""" doc` is left in state -1 as well, the
opener being its own closer, and the lines between two such markers are
never formatted. The general statement is the first part: state 1 is left
exactly when the scan reaches an opener from whose index on no closer is
found. -/
theorem block_comment_closer_overlaps_opener :
    (∀ (h : SyntaxHighlighter) (text : QString) (b : BlockHighlight),
      h.m_blockCommentStart.pattern.isEmpty = false →
      h.m_blockCommentStart.matchesNonEmpty → h.m_blockCommentEnd.matchesNonEmpty →
      b.formats.length = text.length →
      (∀ previousBlockState : Int, previousBlockState ≠ 1 →
        ∃ b1, h.handleMultiLine (text.length + 2) text previousBlockState b = some b1 ∧
          (b1.currentBlockState = 1 ↔ ∃ j, h.reachesOpenComment text j) ∧
          (b1.currentBlockState ≠ 1 → b1.currentBlockState = previousBlockState) ∧
          (∀ j, h.reachesOpenComment text j →
            0 ≤ j ∧ ∀ q : Nat, j ≤ (q : Int) → q < text.length →
              b1.formats.get? q = some h.m_blockCommentFormat) ∧
          (QString.containsMatch text h.m_blockCommentStart = false →
            b1 = b.setCurrentBlockState previousBlockState)) ∧
      (∃ b1, h.handleMultiLine (text.length + 2) text 1 b = some b1 ∧
        b1.currentBlockState = 1 ∧
        (QString.containsMatch text h.m_blockCommentEnd = false →
          ∀ q : Nat, q < text.length → b1.formats.get? q = some h.m_blockCommentFormat))) ∧
    (QString.indexOf "/*/ x".toList cStyleHighlighter.m_blockCommentStart 0 = 0 ∧
      cStyleHighlighter.m_blockCommentEnd.matchAt "/*/ x".toList 2 = none ∧
      cStyleHighlighter.m_blockCommentEnd.matchAt "/*/ x".toList 0 =
        some { groups := [(1, 2)] } ∧
      (cStyleHighlighter.handleMultiLine ("/*/ x".toList.length + 2) "/*/ x".toList (-1)
          (BlockHighlight.fresh "/*/ x".toList)).map
        (fun b => (b.formats.map (fun f => decide (f = commentFormat defaultThemeColors)),
          b.currentBlockState)) =
        some ([true, true, true, false, false], -1)) ∧
    (QString.indexOf "\"\"\" doc".toList docstringHighlighter.m_blockCommentStart 0 = 0 ∧
      docstringHighlighter.m_blockCommentEnd.matchAt "\"\"\" doc".toList 1 = none ∧
      docstringHighlighter.m_blockCommentEnd.matchAt "\"\"\" doc".toList 0 =
        some { groups := [(0, 3)] } ∧
      (docstringHighlighter.handleMultiLine ("\"\"\" doc".toList.length + 2)
          "\"\"\" doc".toList (-1) (BlockHighlight.fresh "\"\"\" doc".toList)).map
        (fun b => (b.formats.map (fun f => decide (f = commentFormat defaultThemeColors)),
          b.currentBlockState)) =
        some ([true, true, true, false, false, false, false], -1) ∧
      (docstringHighlighter.multiLinePass
          ["\"\"\" doc".toList, "more".toList, "end \"\"\"".toList] (-1)).map
        (fun blocks => blocks.map (fun b =>
          (b.formats.map (fun f => decide (f = commentFormat defaultThemeColors)),
            b.currentBlockState))) =
        some [([true, true, true, false, false, false, false], -1),
          ([false, false, false, false], -1),
          ([false, false, false, false, true, true, true], -1)]) := by
  refine ⟨?_, ⟨by decide, by decide, by decide, by decide⟩,
    ⟨by decide, by decide, by decide, by decide, by decide⟩⟩
  intro h text b hp hs he hb
  exact handleMultiLine_scan_states h hp hs he text b hb

theorem block_comment_closer_overlaps_opener_witness :
    (∀ previousBlockState : Int, previousBlockState ≠ 1 →
      ∃ b1, cStyleHighlighter.handleMultiLine ("x /* y".toList.length + 2) "x /* y".toList
          previousBlockState (BlockHighlight.fresh "x /* y".toList) = some b1 ∧
        (b1.currentBlockState = 1 ↔ ∃ j, cStyleHighlighter.reachesOpenComment "x /* y".toList j) ∧
        (b1.currentBlockState ≠ 1 → b1.currentBlockState = previousBlockState) ∧
        (∀ j, cStyleHighlighter.reachesOpenComment "x /* y".toList j →
          0 ≤ j ∧ ∀ q : Nat, j ≤ (q : Int) → q < "x /* y".toList.length →
            b1.formats.get? q = some cStyleHighlighter.m_blockCommentFormat) ∧
        (QString.containsMatch "x /* y".toList cStyleHighlighter.m_blockCommentStart = false →
          b1 = (BlockHighlight.fresh "x /* y".toList).setCurrentBlockState
            previousBlockState)) ∧
    (∃ b1, cStyleHighlighter.handleMultiLine ("x /* y".toList.length + 2) "x /* y".toList 1
        (BlockHighlight.fresh "x /* y".toList) = some b1 ∧
      b1.currentBlockState = 1 ∧
      (QString.containsMatch "x /* y".toList cStyleHighlighter.m_blockCommentEnd = false →
        ∀ q : Nat, q < "x /* y".toList.length →
          b1.formats.get? q = some cStyleHighlighter.m_blockCommentFormat)) :=
  block_comment_closer_overlaps_opener.1 cStyleHighlighter "x /* y".toList
    (BlockHighlight.fresh "x /* y".toList) (by decide)
    (literal_matchesNonEmpty _ _ (by decide)) (literal_matchesNonEmpty _ _ (by decide))
    (by decide)

/-! ## The change log inside and outside a macro -/

/-- C22: a successful `insertText` appends its one change (position, new
text) to the end of the pending macro action and leaves the stack and the
index as they are while the in-macro flag of the change log is set; while it
is not set, the pending macro action stays as it is and the change enters
the stack, cut after the index, as a new action of this one change, the
index moving on by one. -/
theorem insertText_records_by_macro_flag (qHash : QString → Nat) (s : EditorCore)
    (line column : Int) (text : QString) (now : Int) (hv : s.validPosition line column) :
    (s.m_undoStack.inMacro = true →
      (EditorCore.insertText qHash s line column text now).m_undoStack.currentMacro.changes =
        s.m_undoStack.currentMacro.changes ++ [⟨⟨line, column⟩, [], text, toInt32 now⟩] ∧
      (EditorCore.insertText qHash s line column text now).m_undoStack.stack =
        s.m_undoStack.stack ∧
      (EditorCore.insertText qHash s line column text now).m_undoStack.index =
        s.m_undoStack.index ∧
      (EditorCore.insertText qHash s line column text now).m_undoStack.inMacro = true) ∧
    (s.m_undoStack.inMacro = false →
      (EditorCore.insertText qHash s line column text now).m_undoStack.currentMacro =
        s.m_undoStack.currentMacro ∧
      (EditorCore.insertText qHash s line column text now).m_undoStack.stack =
        QVector.truncate s.m_undoStack.stack (s.m_undoStack.index + 1) ++
          [{ changes := [⟨⟨line, column⟩, [], text, toInt32 now⟩], description := [],
             timestamp := now }] ∧
      (EditorCore.insertText qHash s line column text now).m_undoStack.index =
        s.m_undoStack.index + 1 ∧
      (EditorCore.insertText qHash s line column text now).m_undoStack.inMacro = false) := by
  have hrec := (insertText_recorded qHash s line column text now hv).2.2.2.2
  rw [hrec]
  constructor
  · intro hm
    simp [UndoStack.record, hm]
  · intro hm
    simp [UndoStack.record, hm]

theorem insertText_records_by_macro_flag_witness :
    (EditorCore.insertText sumHash EditorCore.sampleInMacro 0 1 "X".toList
        2).m_undoStack.currentMacro.changes =
        EditorCore.sampleInMacro.m_undoStack.currentMacro.changes ++
          [⟨⟨0, 1⟩, [], "X".toList, toInt32 2⟩] ∧
      (EditorCore.insertText sumHash EditorCore.sampleInMacro 0 1 "X".toList
        2).m_undoStack.stack = EditorCore.sampleInMacro.m_undoStack.stack ∧
      (EditorCore.insertText sumHash EditorCore.sampleInMacro 0 1 "X".toList
        2).m_undoStack.index = EditorCore.sampleInMacro.m_undoStack.index ∧
      (EditorCore.insertText sumHash EditorCore.sampleInMacro 0 1 "X".toList
        2).m_undoStack.inMacro = true :=
  (insertText_records_by_macro_flag sumHash EditorCore.sampleInMacro 0 1 "X".toList 2
    (by decide)).1 (by decide)

/-! ## Styles -/

/-- The format of `createFormatFromStyle`, field by field. -/
theorem createFormatFromStyle_eq (h : SyntaxHighlighter) (style : StyleJson) :
    h.createFormatFromStyle style =
      { foreground :=
          match style.color with
          | some color => some color
          | none =>
            match style.type with
            | some type =>
              if type = "keyword".toList then some h.m_themeColors.keyword
              else if type = "string".toList then some h.m_themeColors.string
              else if type = "comment".toList then some h.m_themeColors.comment
              else if type = "number".toList then some h.m_themeColors.number
              else if type = "function".toList then some h.m_themeColors.function
              else if type = "type".toList then some h.m_themeColors.type
              else none
            | none => none
        background := style.background
        fontBold :=
          (style.fontStyle.map (fun x => decide (QString.toLower x = "bold".toList))).getD false
        fontItalic :=
          (style.fontStyle.map (fun x => decide (QString.toLower x = "italic".toList))).getD false
        fontUnderline :=
          (style.fontStyle.map
            (fun x => decide (QString.toLower x = "underline".toList))).getD false } := by
  obtain ⟨color, type, background, fontStyle⟩ := style
  unfold SyntaxHighlighter.createFormatFromStyle
  lift_lets
  extract_lets f0 f1 f2
  have hf1 : f1 =
      { foreground :=
          (match color with
          | some color => some color
          | none =>
            match type with
            | some type =>
              if type = "keyword".toList then some h.m_themeColors.keyword
              else if type = "string".toList then some h.m_themeColors.string
              else if type = "comment".toList then some h.m_themeColors.comment
              else if type = "number".toList then some h.m_themeColors.number
              else if type = "function".toList then some h.m_themeColors.function
              else if type = "type".toList then some h.m_themeColors.type
              else none
            | none => none)
        background := none
        fontBold := false
        fontItalic := false
        fontUnderline := false } := by
    cases color with
    | some c => rfl
    | none =>
      cases type with
      | none => rfl
      | some t =>
        simp only [f1, f0]
        split_ifs <;> rfl
  clear_value f1
  have hf2 : f2 = { f1 with background := background } := by
    cases background with
    | none => simp only [f2]; rw [hf1]
    | some b => rfl
  clear_value f2
  subst hf2
  subst hf1
  cases fontStyle with
  | none => rfl
  | some x =>
    simp only [Option.map, Option.getD]
    by_cases h1 : QString.toLower x = "bold".toList
    · have h2 : QString.toLower x ≠ "italic".toList := by rw [h1]; decide
      have h3 : QString.toLower x ≠ "underline".toList := by rw [h1]; decide
      rw [if_pos h1, decide_eq_true h1, decide_eq_false h2, decide_eq_false h3]
    · by_cases h2 : QString.toLower x = "italic".toList
      · have h3 : QString.toLower x ≠ "underline".toList := by rw [h2]; decide
        rw [if_neg h1, if_pos h2, decide_eq_false h1, decide_eq_true h2, decide_eq_false h3]
      · by_cases h3 : QString.toLower x = "underline".toList
        · rw [if_neg h1, if_neg h2, if_pos h3, decide_eq_false h1, decide_eq_false h2,
            decide_eq_true h3]
        · rw [if_neg h1, if_neg h2, if_neg h3, decide_eq_false h1, decide_eq_false h2,
            decide_eq_false h3]

/-- C23: the format that `createFormatFromStyle` builds from a style record.
An explicit `color` is the foreground whatever the `type`; without one, a
`type` that is keyword, string, comment, number, function or type gives the
colour of that slot of the active theme, and any other `type`, or none,
leaves the foreground unset. The background is the `background` of the
record. A `fontStyle` whose lower-case form is bold, italic or underline
sets that one attribute and neither of the other two; any other
`fontStyle`, or none, sets none of the three. -/
theorem createFormatFromStyle_resolution (h : SyntaxHighlighter) (style : StyleJson) :
    (∀ color, style.color = some color →
      (h.createFormatFromStyle style).foreground = some color) ∧
    (style.color = none → ∀ type, style.type = some type →
      (type = "keyword".toList →
        (h.createFormatFromStyle style).foreground = some h.m_themeColors.keyword) ∧
      (type = "string".toList →
        (h.createFormatFromStyle style).foreground = some h.m_themeColors.string) ∧
      (type = "comment".toList →
        (h.createFormatFromStyle style).foreground = some h.m_themeColors.comment) ∧
      (type = "number".toList →
        (h.createFormatFromStyle style).foreground = some h.m_themeColors.number) ∧
      (type = "function".toList →
        (h.createFormatFromStyle style).foreground = some h.m_themeColors.function) ∧
      (type = "type".toList →
        (h.createFormatFromStyle style).foreground = some h.m_themeColors.type) ∧
      (type ∉ ["keyword".toList, "string".toList, "comment".toList, "number".toList,
          "function".toList, "type".toList] →
        (h.createFormatFromStyle style).foreground = none)) ∧
    (style.color = none → style.type = none →
      (h.createFormatFromStyle style).foreground = none) ∧
    (h.createFormatFromStyle style).background = style.background ∧
    (∀ fontStyle, style.fontStyle = some fontStyle →
      (h.createFormatFromStyle style).fontBold =
        decide (QString.toLower fontStyle = "bold".toList) ∧
      (h.createFormatFromStyle style).fontItalic =
        decide (QString.toLower fontStyle = "italic".toList) ∧
      (h.createFormatFromStyle style).fontUnderline =
        decide (QString.toLower fontStyle = "underline".toList)) ∧
    (style.fontStyle = none →
      (h.createFormatFromStyle style).fontBold = false ∧
      (h.createFormatFromStyle style).fontItalic = false ∧
      (h.createFormatFromStyle style).fontUnderline = false) ∧
    ¬ ((h.createFormatFromStyle style).fontBold = true ∧
        (h.createFormatFromStyle style).fontItalic = true) ∧
    ¬ ((h.createFormatFromStyle style).fontBold = true ∧
        (h.createFormatFromStyle style).fontUnderline = true) ∧
    ¬ ((h.createFormatFromStyle style).fontItalic = true ∧
        (h.createFormatFromStyle style).fontUnderline = true) := by
  rw [createFormatFromStyle_eq]
  obtain ⟨color, type, background, fontStyle⟩ := style
  refine ⟨?_, ?_, ?_, rfl, ?_, ?_, ?_, ?_, ?_⟩
  · intro c hc
    simp only at hc
    subst hc
    rfl
  · intro hc t ht
    simp only at hc ht
    subst hc
    subst ht
    simp only [List.mem_cons, List.mem_singleton, not_or, List.not_mem_nil, or_false]
    refine ⟨?_, ?_, ?_, ?_, ?_, ?_, ?_⟩
    · intro e
      rw [if_pos e]
    · intro e
      have n1 : t ≠ "keyword".toList := by rw [e]; decide
      rw [if_neg n1, if_pos e]
    · intro e
      have n1 : t ≠ "keyword".toList := by rw [e]; decide
      have n2 : t ≠ "string".toList := by rw [e]; decide
      rw [if_neg n1, if_neg n2, if_pos e]
    · intro e
      have n1 : t ≠ "keyword".toList := by rw [e]; decide
      have n2 : t ≠ "string".toList := by rw [e]; decide
      have n3 : t ≠ "comment".toList := by rw [e]; decide
      rw [if_neg n1, if_neg n2, if_neg n3, if_pos e]
    · intro e
      have n1 : t ≠ "keyword".toList := by rw [e]; decide
      have n2 : t ≠ "string".toList := by rw [e]; decide
      have n3 : t ≠ "comment".toList := by rw [e]; decide
      have n4 : t ≠ "number".toList := by rw [e]; decide
      rw [if_neg n1, if_neg n2, if_neg n3, if_neg n4, if_pos e]
    · intro e
      have n1 : t ≠ "keyword".toList := by rw [e]; decide
      have n2 : t ≠ "string".toList := by rw [e]; decide
      have n3 : t ≠ "comment".toList := by rw [e]; decide
      have n4 : t ≠ "number".toList := by rw [e]; decide
      have n5 : t ≠ "function".toList := by rw [e]; decide
      rw [if_neg n1, if_neg n2, if_neg n3, if_neg n4, if_neg n5, if_pos e]
    · rintro ⟨n1, n2, n3, n4, n5, n6⟩
      rw [if_neg n1, if_neg n2, if_neg n3, if_neg n4, if_neg n5, if_neg n6]
  · intro hc ht
    simp only at hc ht
    subst hc
    subst ht
    rfl
  · intro fs hfs
    simp only at hfs
    subst hfs
    exact ⟨rfl, rfl, rfl⟩
  · intro hfs
    simp only at hfs
    subst hfs
    exact ⟨rfl, rfl, rfl⟩
  · cases fontStyle with
    | none => simp
    | some x =>
      simp only [Option.map, Option.getD, decide_eq_true_eq]
      rintro ⟨h1, h2⟩
      rw [h1] at h2
      exact absurd h2 (by decide)
  · cases fontStyle with
    | none => simp
    | some x =>
      simp only [Option.map, Option.getD, decide_eq_true_eq]
      rintro ⟨h1, h2⟩
      rw [h1] at h2
      exact absurd h2 (by decide)
  · cases fontStyle with
    | none => simp
    | some x =>
      simp only [Option.map, Option.getD, decide_eq_true_eq]
      rintro ⟨h1, h2⟩
      rw [h1] at h2
      exact absurd h2 (by decide)

theorem createFormatFromStyle_resolution_witness :
    (sampleHighlighter.createFormatFromStyle
      { color := some "#123456".toList, type := some "keyword".toList,
        background := some "#000000".toList, fontStyle := some "Bold".toList }).foreground =
      some "#123456".toList :=
  (createFormatFromStyle_resolution sampleHighlighter
    { color := some "#123456".toList, type := some "keyword".toList,
      background := some "#000000".toList, fontStyle := some "Bold".toList }).1 _ rfl

/-- A `fontStyle` that is none of the three names sets none of bold,
italic and underline: the style whose `fontStyle` is `oblique` gives the
plain format. -/
theorem createFormatFromStyle_unknown_fontStyle :
    (sampleHighlighter.createFormatFromStyle
      { color := none, type := none, background := none,
        fontStyle := some "oblique".toList }).fontBold = false ∧
    (sampleHighlighter.createFormatFromStyle
      { color := none, type := none, background := none,
        fontStyle := some "oblique".toList }).fontItalic = false ∧
    (sampleHighlighter.createFormatFromStyle
      { color := none, type := none, background := none,
        fontStyle := some "oblique".toList }).fontUnderline = false ∧
    sampleHighlighter.createFormatFromStyle
      { color := none, type := none, background := none,
        fontStyle := some "oblique".toList } = QTextCharFormat.plain := by
  decide

/-! ## Custom rules -/

/-- C24: `addCustomRule` appends the rule to the custom rules,
`removeCustomRule(p)` keeps, in their order, exactly the custom rules whose
pattern text differs from that of `p`, `clearCustomRules` empties the list,
and each of them changes no other part of the highlighter (the language
rules among them) and asks for a re-highlight. Hence `addCustomRule(r)` and
then `removeCustomRule(r.pattern)` gives the custom rules back as they were
when no custom rule had the pattern text of `r`. -/
theorem custom_rule_management (h : SyntaxHighlighter) (r : HighlightRule)
    (p : QRegularExpression) :
    h.addCustomRule r =
      ({ h with m_customRules := h.m_customRules ++ [r] }, [HighlighterEvent.rehighlight]) ∧
    ((h.removeCustomRule p).1.m_customRules =
        h.m_customRules.filter (fun q => !decide (q.pattern.pattern = p.pattern)) ∧
      (∀ q, q ∈ (h.removeCustomRule p).1.m_customRules ↔
        q ∈ h.m_customRules ∧ q.pattern.pattern ≠ p.pattern) ∧
      List.Sublist (h.removeCustomRule p).1.m_customRules h.m_customRules ∧
      h.removeCustomRule p =
        ({ h with m_customRules := (h.removeCustomRule p).1.m_customRules },
          [HighlighterEvent.rehighlight])) ∧
    h.clearCustomRules = ({ h with m_customRules := [] }, [HighlighterEvent.rehighlight]) ∧
    ((h.addCustomRule r).1.m_rules = h.m_rules ∧ (h.removeCustomRule p).1.m_rules = h.m_rules ∧
      h.clearCustomRules.1.m_rules = h.m_rules) ∧
    ((∀ q ∈ h.m_customRules, q.pattern.pattern ≠ r.pattern.pattern) →
      ((h.addCustomRule r).1.removeCustomRule r.pattern).1.m_customRules = h.m_customRules ∧
      ((h.addCustomRule r).1.removeCustomRule r.pattern).1 = h) := by
  refine ⟨rfl, ⟨rfl, ?_, ?_, rfl⟩, rfl, ⟨rfl, rfl, rfl⟩, ?_⟩
  · intro q
    simp [SyntaxHighlighter.removeCustomRule, List.mem_filter]
  · exact List.filter_sublist _
  · intro hq
    have hlist : (h.m_customRules ++ [r]).filter
        (fun q => !decide (q.pattern.pattern = r.pattern.pattern)) = h.m_customRules := by
      rw [List.filter_append]
      have h1 : h.m_customRules.filter
          (fun q => !decide (q.pattern.pattern = r.pattern.pattern)) = h.m_customRules := by
        apply List.filter_eq_self.mpr
        intro q hmem
        simp [hq q hmem]
      rw [h1]
      simp
    constructor
    · exact hlist
    · show ({ ({ h with m_customRules := h.m_customRules ++ [r] } : SyntaxHighlighter) with
        m_customRules := (h.m_customRules ++ [r]).filter
          (fun q => !decide (q.pattern.pattern = r.pattern.pattern)) } : SyntaxHighlighter) = h
      rw [hlist]

theorem custom_rule_management_witness :
    ((sampleDigitHighlighter.addCustomRule
        { pattern := QRegularExpression.literal "b".toList "b".toList
          format := QTextCharFormat.plain, captureGroup := 0 }).1.removeCustomRule
      (QRegularExpression.literal "b".toList "b".toList)).1.m_customRules =
      sampleDigitHighlighter.m_customRules :=
  ((custom_rule_management sampleDigitHighlighter
    { pattern := QRegularExpression.literal "b".toList "b".toList
      format := QTextCharFormat.plain, captureGroup := 0 }
    (QRegularExpression.literal "b".toList "b".toList)).2.2.2.2
    (by intro q hq
        simp only [sampleDigitHighlighter, List.mem_singleton] at hq
        subst hq
        decide)).1

/-! ## The current file after a save -/

/-- C25: what `saveFile` leaves as the current file. A successful save to a
non-empty path `p` makes `p` the current file. A successful save with the
empty argument writes to the current file and then sets the current file to
the argument, the empty path, so that the next save with the empty argument
has no path to write to and fails: the assignment
`m_currentFile = filePath` is made whenever the two differ. -/
theorem saveFile_empty_argument_blanks_current_path
    (writeTextFile : QString → QString → QString → Bool) (s : EditorCore) :
    (∀ p : QString, p.isEmpty = false →
      writeTextFile p (QStringList.join s.m_buffer.lines '\n') s.m_buffer.encoding = true →
      (EditorCore.saveFile writeTextFile s p).1 = true ∧
      (EditorCore.saveFile writeTextFile s p).2.2 =
        some (p, QStringList.join s.m_buffer.lines '\n', s.m_buffer.encoding) ∧
      (EditorCore.saveFile writeTextFile s p).2.1.m_currentFile = p) ∧
    (s.m_currentFile.isEmpty = false →
      writeTextFile s.m_currentFile (QStringList.join s.m_buffer.lines '\n')
        s.m_buffer.encoding = true →
      (EditorCore.saveFile writeTextFile s []).1 = true ∧
      (EditorCore.saveFile writeTextFile s []).2.2 =
        some (s.m_currentFile, QStringList.join s.m_buffer.lines '\n', s.m_buffer.encoding) ∧
      (EditorCore.saveFile writeTextFile s []).2.1.m_currentFile = [] ∧
      (EditorCore.saveFile writeTextFile s []).2.1.m_currentFile ≠ s.m_currentFile ∧
      EditorCore.saveFile writeTextFile (EditorCore.saveFile writeTextFile s []).2.1 [] =
        (false, (EditorCore.saveFile writeTextFile s []).2.1, none)) := by
  constructor
  · intro p hp hw
    have hp1 : (if p.isEmpty then s.m_currentFile else p).isEmpty = false := by
      rw [hp]; simpa using hp
    have hw1 : writeTextFile (if p.isEmpty then s.m_currentFile else p)
        (QStringList.join s.m_buffer.lines '\n') s.m_buffer.encoding = true := by
      rw [hp]; simpa using hw
    rw [saveFile_written writeTextFile s p hp1 hw1]
    refine ⟨rfl, ?_, ?_⟩
    · simp [hp]
    · by_cases hne : p ≠ s.m_currentFile
      · simp [EditorCore.emit, hne]
      · have heq : p = s.m_currentFile := not_not.mp hne
        simp [EditorCore.emit, heq]
  · intro hc hw
    have hp1 : (if ([] : QString).isEmpty then s.m_currentFile else []).isEmpty = false := by
      simpa using hc
    have hw1 : writeTextFile (if ([] : QString).isEmpty then s.m_currentFile else [])
        (QStringList.join s.m_buffer.lines '\n') s.m_buffer.encoding = true := by
      simpa using hw
    have hne : ([] : QString) ≠ s.m_currentFile := by
      intro e
      rw [← e] at hc
      simp at hc
    have hcur : (EditorCore.saveFile writeTextFile s []).2.1.m_currentFile = [] := by
      rw [saveFile_written writeTextFile s [] hp1 hw1]
      simp [EditorCore.emit, hne]
    refine ⟨?_, ?_, hcur, ?_, ?_⟩
    · rw [saveFile_written writeTextFile s [] hp1 hw1]
    · rw [saveFile_written writeTextFile s [] hp1 hw1]
      simp
    · rw [hcur]
      exact hne
    · apply saveFile_no_path
      rw [hcur]
      rfl

theorem saveFile_empty_argument_blanks_current_path_witness :
    (EditorCore.saveFile (fun _ _ _ => true) EditorCore.sampleSaved []).1 = true ∧
      (EditorCore.saveFile (fun _ _ _ => true) EditorCore.sampleSaved []).2.2 =
        some (EditorCore.sampleSaved.m_currentFile,
          QStringList.join EditorCore.sampleSaved.m_buffer.lines '\n',
          EditorCore.sampleSaved.m_buffer.encoding) ∧
      (EditorCore.saveFile (fun _ _ _ => true) EditorCore.sampleSaved []).2.1.m_currentFile =
        [] ∧
      (EditorCore.saveFile (fun _ _ _ => true) EditorCore.sampleSaved []).2.1.m_currentFile ≠
        EditorCore.sampleSaved.m_currentFile ∧
      EditorCore.saveFile (fun _ _ _ => true)
        (EditorCore.saveFile (fun _ _ _ => true) EditorCore.sampleSaved []).2.1 [] =
        (false, (EditorCore.saveFile (fun _ _ _ => true) EditorCore.sampleSaved []).2.1, none) :=
  (saveFile_empty_argument_blanks_current_path (fun _ _ _ => true) EditorCore.sampleSaved).2
    (by decide) rfl

/-! ## Reachable states -/

/-- The latest insertion of a history, taken apart. -/
theorem InsertHistory.cons_inv (lines : List QString) (a : ComplexEditAction)
    (actions : List ComplexEditAction) (hh : InsertHistory lines (a :: actions)) :
    ∃ (lines0 : List QString) (line column : Nat) (old text : QString) (stamp : Int),
      InsertHistory lines0 actions ∧ lines0.get? line = some old ∧ column ≤ old.length ∧
      lines = lines0.set line (old.take column ++ text ++ old.drop column) ∧
      a.changes = [{ position := { line := (line : Int), column := (column : Int) }
                     oldText := [], newText := text, timestamp := stamp }] := by
  cases hh with
  | step lines0 _ line column old text description stamp actionStamp h0 hget hcol =>
    exact ⟨lines0, line, column, old, text, stamp, h0, hget, hcol, rfl, rfl⟩

/-- The state built by the constructor is consistent. -/
theorem consistent_init (qHash : QString → Nat) : (EditorCore.init qHash).consistent := by
  refine ⟨?_, rfl, ?_⟩
  · unfold UndoStack.wellFormed EditorCore.init
    simp
  · exact InsertHistory.init

/-- Every call of `insertText` keeps the state consistent. -/
theorem consistent_insertText (qHash : QString → Nat) (s : EditorCore) (line column : Int)
    (text : QString) (now : Int) (hc : s.consistent) :
    (EditorCore.insertText qHash s line column text now).consistent := by
  by_cases hv : s.validPosition line column
  · obtain ⟨hwf, hm, hh⟩ := hc
    have hlines := insertText_lines qHash s line column text now hv
    have hrec := (insertText_recorded qHash s line column text now hv).2.2.2.2
    have hsingle := record_single_action s.m_undoStack
      ⟨⟨line, column⟩, [], text, toInt32 now⟩ now hwf hm
    obtain ⟨h0, h1, h2, h3⟩ := hv
    have hget := lineText_get? s line h0 h1
    obtain ⟨w1, w2⟩ := hwf
    have hlen : (s.m_undoStack.stack.take (s.m_undoStack.index + 1).toNat).length =
        (s.m_undoStack.index + 1).toNat := by
      rw [List.length_take]; omega
    refine ⟨?_, ?_, ?_⟩
    · rw [hrec]
      exact (record_wellFormed _ _ _ ⟨w1, w2⟩ hm).1
    · rw [hrec]
      exact (record_wellFormed _ _ _ ⟨w1, w2⟩ hm).2
    · rw [hlines, hrec, hsingle]
      simp only
      have htake : (s.m_undoStack.stack.take (s.m_undoStack.index + 1).toNat ++
          [({ changes := [⟨⟨line, column⟩, [], text, toInt32 now⟩], description := [],
              timestamp := now } : ComplexEditAction)]).take
            (s.m_undoStack.index + 1 + 1).toNat =
          s.m_undoStack.stack.take (s.m_undoStack.index + 1).toNat ++
          [({ changes := [⟨⟨line, column⟩, [], text, toInt32 now⟩], description := [],
              timestamp := now } : ComplexEditAction)] := by
        apply List.take_of_length_le
        simp only [List.length_append, hlen, List.length_singleton]
        omega
      rw [htake, List.reverse_append, List.reverse_singleton, List.singleton_append]
      have hl : line = ((line.toNat : Nat) : Int) := by omega
      have hcn : column = ((column.toNat : Nat) : Int) := by omega
      have hins : QString.insert (s.lineText line) column text =
          (s.lineText line).take column.toNat ++ text ++ (s.lineText line).drop column.toNat := by
        conv_lhs => rw [hcn]
        exact QString.insert_inside _ _ _
      rw [hins]
      have hstep := InsertHistory.step s.m_buffer.lines
        ((s.m_undoStack.stack.take (s.m_undoStack.index + 1).toNat).reverse)
        line.toNat column.toNat (s.lineText line) text [] (toInt32 now) now hh hget (by omega)
      rw [← hl, ← hcn] at hstep
      exact hstep
  · rw [insertText_invalid qHash s line column text now hv]
    exact hc

/-- On a consistent state `undo` is defined and keeps the state consistent;
the one change that it reverts lies inside its line, which holds the new
text of the change at the position of the change. -/
theorem consistent_undo (qHash : QString → Nat) (s : EditorCore) (hc : s.consistent) :
    ∃ u, EditorCore.undo qHash s = some u ∧ u.consistent ∧
      (s.canUndo = true →
        ∃ a, 0 ≤ s.m_undoStack.index ∧
          s.m_undoStack.stack.get? s.m_undoStack.index.toNat = some a ∧
          ∀ ch ∈ a.changes,
            0 ≤ ch.position.line ∧ ch.position.line < s.lineCount ∧
            0 ≤ ch.position.column ∧
            ch.position.column + (ch.newText.length : Int) ≤
              ((s.lineText ch.position.line).length : Int) ∧
            QString.mid (s.lineText ch.position.line) ch.position.column.toNat
              ch.newText.length = ch.newText) := by
  by_cases hcu : s.canUndo = true
  · obtain ⟨⟨w1, w2⟩, hm, hh⟩ := hc
    have hne : s.m_undoStack.index ≠ -1 := by
      unfold EditorCore.canUndo at hcu
      exact of_decide_eq_true hcu
    have hi : 0 ≤ s.m_undoStack.index := by omega
    have hlt : s.m_undoStack.index.toNat < s.m_undoStack.stack.length := by omega
    obtain ⟨a, ha⟩ : ∃ a, s.m_undoStack.stack.get? s.m_undoStack.index.toNat = some a :=
      ⟨_, List.get?_eq_get hlt⟩
    have hidx : (s.m_undoStack.index + 1).toNat = s.m_undoStack.index.toNat + 1 := by omega
    have htake : s.m_undoStack.stack.take (s.m_undoStack.index + 1).toNat =
        s.m_undoStack.stack.take s.m_undoStack.index.toNat ++ [a] := by
      rw [hidx, List.take_succ]
      rw [List.get?_eq_getElem?] at ha
      rw [ha]
      rfl
    rw [htake, List.reverse_append, List.reverse_singleton, List.singleton_append] at hh
    obtain ⟨lines0, line, column, old, text, stamp, h0, hget, hcol, hlines, hch⟩ :=
      InsertHistory.cons_inv _ _ _ hh
    have hline : line < lines0.length := by
      rw [List.get?_eq_getElem?] at hget
      exact (List.getElem?_eq_some_iff.mp hget).1
    have hnew : s.m_buffer.lines.get? line =
        some (old.take column ++ text ++ old.drop column) := by
      rw [hlines, List.get?_eq_getElem?, List.getElem?_set_self hline]
    have hrev := revertChange_some qHash s.m_buffer
      { position := { line := (line : Int), column := (column : Int) }
        oldText := [], newText := text, timestamp := stamp }
      (old.take column ++ text ++ old.drop column) (by simp) (by simpa using hnew)
    obtain ⟨b1, hb1, hb1lines, -⟩ := hrev
    have hb1' : revertChanges qHash s.m_buffer a.changes = some b1 := by
      rw [hch, revertChanges_single]
      exact hb1
    obtain ⟨u, hu, hubuf, hustack, -, -, -⟩ := undo_step qHash s a b1 hi ha hb1'
    have hb1eq : b1.lines = lines0 := by
      rw [hb1lines]
      simp only [Int.toNat_ofNat]
      rw [QString.replace_insert_cancel old column text hcol, hlines, List.set_set]
      exact list_set_of_get? _ _ _ hget
    refine ⟨u, hu, ⟨?_, ?_, ?_⟩, ?_⟩
    · rw [hustack]
      constructor
      · show -1 ≤ s.m_undoStack.index - 1
        omega
      · show s.m_undoStack.index - 1 < (s.m_undoStack.stack.length : Int)
        omega
    · rw [hustack]
      exact hm
    · rw [hubuf, hb1eq, hustack]
      have hidx2 : (s.m_undoStack.index - 1 + 1).toNat = s.m_undoStack.index.toNat := by omega
      show InsertHistory lines0
        ((s.m_undoStack.stack.take (s.m_undoStack.index - 1 + 1).toNat).reverse)
      rw [hidx2]
      exact h0
    · intro _
      refine ⟨a, hi, ha, ?_⟩
      intro ch hmem
      rw [hch, List.mem_singleton] at hmem
      subst hmem
      have hlen : s.m_buffer.lines.length = lines0.length := by
        rw [hlines, List.length_set]
      have htext : s.lineText (line : Int) = old.take column ++ text ++ old.drop column := by
        unfold EditorCore.lineText
        rw [if_neg (by omega)]
        simp only [Int.toNat_ofNat]
        rw [List.getD_eq_getElem?_getD, ← List.get?_eq_getElem?, hnew]
        rfl
      simp only
      rw [htext]
      refine ⟨by omega, ?_, by omega, ?_, ?_⟩
      · unfold EditorCore.lineCount
        omega
      · simp only [List.length_append, List.length_take, List.length_drop]
        omega
      · unfold QString.mid
        simp only [Int.toNat_ofNat]
        have htl : (old.take column).length = column := by
          rw [List.length_take]; omega
        rw [List.append_assoc, List.drop_left' htl, List.take_left' rfl]
  · have hfalse : s.canUndo = false := by
      cases hv : s.canUndo with
      | true => exact absurd hv hcu
      | false => rfl
    have hundo : EditorCore.undo qHash s = some s := by
      unfold EditorCore.undo
      rw [hfalse]
      rfl
    exact ⟨s, hundo, hc, fun h => absurd h hcu⟩

/-- Every reachable state is consistent. -/
theorem reachable_consistent (qHash : QString → Nat) (s : EditorCore)
    (hr : EditorCore.Reachable qHash s) : s.consistent := by
  induction hr with
  | init => exact consistent_init qHash
  | insertText s line column text now _ ih =>
    exact consistent_insertText qHash s line column text now ih
  | undo s u _ hu ih =>
    obtain ⟨u1, hu1, hcons, -⟩ := consistent_undo qHash s ih
    rw [hu] at hu1
    rw [Option.some.inj hu1]
    exact hcons

/-- C26: in every state that calls of `insertText` and of `undo` reach from
the one-empty-line document of the constructor, `undo` is defined, that is,
it reads `stack[index]` and the lines of its changes inside their ranges;
and when there is something to undo, every change that it reverts names a
line of the document, lies with its new text inside that line as it is
now, and the characters that it overwrites are the new text of the change. -/
theorem undo_in_bounds_when_reachable (qHash : QString → Nat) (s : EditorCore)
    (hr : EditorCore.Reachable qHash s) :
    (∃ u, EditorCore.undo qHash s = some u ∧ EditorCore.Reachable qHash u) ∧
    (s.canUndo = true →
      ∃ a, 0 ≤ s.m_undoStack.index ∧
        s.m_undoStack.index < (s.m_undoStack.stack.length : Int) ∧
        s.m_undoStack.stack.get? s.m_undoStack.index.toNat = some a ∧
        ∀ ch ∈ a.changes,
          0 ≤ ch.position.line ∧ ch.position.line < s.lineCount ∧
          0 ≤ ch.position.column ∧
          ch.position.column + (ch.newText.length : Int) ≤
            ((s.lineText ch.position.line).length : Int) ∧
          QString.mid (s.lineText ch.position.line) ch.position.column.toNat
            ch.newText.length = ch.newText) := by
  have hc := reachable_consistent qHash s hr
  obtain ⟨u, hu, -, hgeo⟩ := consistent_undo qHash s hc
  refine ⟨⟨u, hu, EditorCore.Reachable.undo s u hr hu⟩, ?_⟩
  intro hcu
  obtain ⟨a, h0, ha, hall⟩ := hgeo hcu
  exact ⟨a, h0, hc.1.2, ha, hall⟩

theorem undo_in_bounds_when_reachable_witness :
    (∃ u, EditorCore.undo sumHash
        (EditorCore.insertText sumHash
          (EditorCore.insertText sumHash (EditorCore.init sumHash) 0 0 "ab".toList 1)
          0 1 "X".toList 2) = some u ∧ EditorCore.Reachable sumHash u) ∧
    ((EditorCore.insertText sumHash
        (EditorCore.insertText sumHash (EditorCore.init sumHash) 0 0 "ab".toList 1)
        0 1 "X".toList 2).canUndo = true →
      ∃ a, 0 ≤ (EditorCore.insertText sumHash
          (EditorCore.insertText sumHash (EditorCore.init sumHash) 0 0 "ab".toList 1)
          0 1 "X".toList 2).m_undoStack.index ∧
        (EditorCore.insertText sumHash
          (EditorCore.insertText sumHash (EditorCore.init sumHash) 0 0 "ab".toList 1)
          0 1 "X".toList 2).m_undoStack.index <
          ((EditorCore.insertText sumHash
            (EditorCore.insertText sumHash (EditorCore.init sumHash) 0 0 "ab".toList 1)
            0 1 "X".toList 2).m_undoStack.stack.length : Int) ∧
        (EditorCore.insertText sumHash
          (EditorCore.insertText sumHash (EditorCore.init sumHash) 0 0 "ab".toList 1)
          0 1 "X".toList 2).m_undoStack.stack.get?
          (EditorCore.insertText sumHash
            (EditorCore.insertText sumHash (EditorCore.init sumHash) 0 0 "ab".toList 1)
            0 1 "X".toList 2).m_undoStack.index.toNat = some a ∧
        ∀ ch ∈ a.changes,
          0 ≤ ch.position.line ∧
          ch.position.line < (EditorCore.insertText sumHash
            (EditorCore.insertText sumHash (EditorCore.init sumHash) 0 0 "ab".toList 1)
            0 1 "X".toList 2).lineCount ∧
          0 ≤ ch.position.column ∧
          ch.position.column + (ch.newText.length : Int) ≤
            (((EditorCore.insertText sumHash
              (EditorCore.insertText sumHash (EditorCore.init sumHash) 0 0 "ab".toList 1)
              0 1 "X".toList 2).lineText ch.position.line).length : Int) ∧
          QString.mid ((EditorCore.insertText sumHash
              (EditorCore.insertText sumHash (EditorCore.init sumHash) 0 0 "ab".toList 1)
              0 1 "X".toList 2).lineText ch.position.line) ch.position.column.toNat
            ch.newText.length = ch.newText) :=
  undo_in_bounds_when_reachable sumHash _
    (EditorCore.Reachable.insertText _ 0 1 "X".toList 2
      (EditorCore.Reachable.insertText _ 0 0 "ab".toList 1 (EditorCore.Reachable.init)))

/-! ## Termination of the block-comment scan -/

/-- The spans of the loop of `handleMultiLine`: the loop ends, every span
lies inside the text, and each span that is followed by another one is not
empty and ends at or before the start of the next. -/
theorem commentSpansLoop_chain (h : SyntaxHighlighter)
    (hs : h.m_blockCommentStart.matchesNonEmpty) (he : h.m_blockCommentEnd.matchesNonEmpty)
    (text : QString) (fuel : Nat) :
    ∀ (i : Int), i ≤ (text.length : Int) →
      (text.length : Int) - i + 2 ≤ (fuel : Int) ∨ i < 0 →
      ∃ spans, h.commentSpansLoop text fuel i = some spans ∧
        (i < 0 → spans = []) ∧
        (0 ≤ i → ∃ L rest, spans = (i, L) :: rest ∧ 0 ≤ L ∧ i + L ≤ (text.length : Int) ∧
          (i < (text.length : Int) → 1 ≤ L)) ∧
        (∀ sp ∈ spans, 0 ≤ sp.1 ∧ 0 ≤ sp.2 ∧ sp.1 + sp.2 ≤ (text.length : Int)) ∧
        List.Chain' spansAdvance spans := by
  induction fuel with
  | zero =>
    intro i h1 h2
    have hneg : i < 0 := by
      rcases h2 with h2 | h2
      · simp only [Nat.cast_zero] at h2; omega
      · exact h2
    refine ⟨[], ?_, fun _ => rfl, fun h0 => absurd h0 (by omega), ?_, List.chain'_nil⟩
    · unfold SyntaxHighlighter.commentSpansLoop
      rw [if_neg (by omega)]
    · intro sp hsp
      simp at hsp
  | succ n ih =>
    intro i h1 h2
    unfold SyntaxHighlighter.commentSpansLoop
    by_cases hneg : i ≥ 0
    · rw [if_pos hneg]
      have hfuel : (text.length : Int) - i + 2 ≤ ((n + 1 : Nat) : Int) := by
        rcases h2 with h2 | h2
        · exact h2
        · omega
      push_cast at hfuel
      simp only
      rcases matchAt_bounds h.m_blockCommentEnd he text i hneg with ⟨e1, _⟩ | ⟨e1, e2, e3⟩
      · rw [e1]
        simp only [if_true]
        have hoff : i + ((text.length : Int) - i) = (text.length : Int) := by omega
        rw [hoff, indexOf_at_end h.m_blockCommentStart hs text]
        obtain ⟨spans, hsp, hnil, -, -, -⟩ := ih (-1) (by omega) (Or.inr (by omega))
        have hnil1 := hnil (by omega)
        subst hnil1
        rw [hsp]
        refine ⟨[(i, (text.length : Int) - i)], rfl, fun h0 => absurd h0 (by omega), ?_, ?_,
          List.chain'_singleton _⟩
        · intro _
          exact ⟨_, [], rfl, by omega, by omega, fun hlt => by omega⟩
        · intro sp hmem
          simp only [List.mem_singleton] at hmem
          subst hmem
          simp only
          omega
      · have hne : ¬ capturedStart (h.m_blockCommentEnd.matchAt text i) 0 = -1 := by omega
        simp only [if_neg hne]
        have hoff : i + (capturedStart (h.m_blockCommentEnd.matchAt text i) 0 - i +
              capturedLength (h.m_blockCommentEnd.matchAt text i) 0) =
            capturedStart (h.m_blockCommentEnd.matchAt text i) 0 +
              capturedLength (h.m_blockCommentEnd.matchAt text i) 0 := by omega
        rw [hoff]
        rcases matchAt_bounds h.m_blockCommentStart hs text
            (capturedStart (h.m_blockCommentEnd.matchAt text i) 0 +
              capturedLength (h.m_blockCommentEnd.matchAt text i) 0)
            (by omega) with ⟨s1, _⟩ | ⟨s1, s2, s3⟩
        · unfold QString.indexOf
          rw [s1]
          obtain ⟨spans, hsp, hnil, -, -, -⟩ := ih (-1) (by omega) (Or.inr (by omega))
          have hnil1 := hnil (by omega)
          subst hnil1
          rw [hsp]
          refine ⟨_, rfl, fun h0 => absurd h0 (by omega), ?_, ?_, List.chain'_singleton _⟩
          · intro _
            exact ⟨_, [], rfl, by omega, by omega, fun _ => by omega⟩
          · intro sp hmem
            simp only [Option.map_some', List.mem_singleton] at hmem
            subst hmem
            simp only
            omega
        · unfold QString.indexOf
          obtain ⟨spans, hsp, -, hcons, hall, hchain⟩ :=
            ih (capturedStart (h.m_blockCommentStart.matchAt text
              (capturedStart (h.m_blockCommentEnd.matchAt text i) 0 +
                capturedLength (h.m_blockCommentEnd.matchAt text i) 0)) 0)
              (by omega) (Or.inl (by omega))
          obtain ⟨L, rest, hspans, hL0, hL1, hL2⟩ := hcons (by omega)
          rw [hsp]
          refine ⟨_, rfl, fun h0 => absurd h0 (by omega), ?_, ?_, ?_⟩
          · intro _
            exact ⟨_, spans, rfl, by omega, by omega, fun _ => by omega⟩
          · intro sp hmem
            simp only [Option.map_some', List.mem_cons] at hmem
            rcases hmem with hmem | hmem
            · subst hmem
              simp only
              omega
            · exact hall sp hmem
          · rw [hspans]
            rw [hspans] at hchain
            refine List.Chain'.cons ?_ hchain
            have hL3 := hL2 (by omega)
            simp only [spansAdvance]
            omega
    · rw [if_neg hneg]
      refine ⟨[], rfl, fun _ => rfl, fun h0 => absurd h0 hneg, ?_, List.chain'_nil⟩
      intro sp hsp
      simp at hsp

/-- C27: with block-comment patterns that match non-empty parts of the text
only, the loop of `handleMultiLine` ends on every line and in either
carried-in state, within two iterations more than the line has characters.
Every span that it formats lies inside the line, and a span that is
followed by another one is not empty and ends at or before the start of the
next, so that the index from which the next opener is searched grows with
every such iteration. Outside the spans the formats of the block are left
as they were. -/
theorem handleMultiLine_scan_terminates (h : SyntaxHighlighter)
    (hs : h.m_blockCommentStart.matchesNonEmpty) (he : h.m_blockCommentEnd.matchesNonEmpty)
    (text : QString) (previousBlockState : Int) (b : BlockHighlight) (fuel : Nat)
    (hfuel : text.length + 2 ≤ fuel) :
    ∃ b1 spans, h.handleMultiLine fuel text previousBlockState b = some b1 ∧
      h.commentSpans fuel text previousBlockState = some spans ∧
      (∀ sp ∈ spans, 0 ≤ sp.1 ∧ 0 ≤ sp.2 ∧ sp.1 + sp.2 ≤ (text.length : Int)) ∧
      List.Chain' spansAdvance spans ∧
      (∀ p : Nat, p < b.formats.length →
        (∀ sp ∈ spans, ¬ (sp.1 ≤ (p : Int) ∧ (p : Int) < sp.1 + sp.2)) →
        b1.formats.get? p = b.formats.get? p) := by
  have hstart : ∀ i : Int,
      i = (if previousBlockState ≠ 1 then QString.indexOf text h.m_blockCommentStart 0 else 0) →
      i ≤ (text.length : Int) ∧ ((text.length : Int) - i + 2 ≤ (fuel : Int) ∨ i < 0) := by
    intro i hi
    by_cases hp : previousBlockState ≠ 1
    · rw [if_pos hp] at hi
      unfold QString.indexOf at hi
      rcases matchAt_bounds h.m_blockCommentStart hs text 0 (by omega) with
        ⟨s1, _⟩ | ⟨s1, s2, s3⟩
      · rw [s1] at hi
        exact ⟨by omega, Or.inr (by omega)⟩
      · exact ⟨by omega, Or.inl (by omega)⟩
    · rw [if_neg hp] at hi
      exact ⟨by omega, Or.inl (by omega)⟩
  have hdef : ∃ b1, h.handleMultiLine fuel text previousBlockState b = some b1 := by
    unfold SyntaxHighlighter.handleMultiLine
    by_cases hpat : h.m_blockCommentStart.pattern.isEmpty = true
    · rw [if_pos hpat]
      exact ⟨b, rfl⟩
    · rw [if_neg hpat]
      obtain ⟨h1, h2⟩ := hstart _ rfl
      exact handleMultiLineLoop_ends h hs he text fuel _ _ h1 h2
  obtain ⟨b1, hb1⟩ := hdef
  obtain ⟨spans, hspans, hout⟩ := handleMultiLine_spans h text fuel previousBlockState b b1 hb1
  refine ⟨b1, spans, hb1, hspans, ?_, ?_, hout⟩
  · unfold SyntaxHighlighter.commentSpans at hspans
    by_cases hpat : h.m_blockCommentStart.pattern.isEmpty = true
    · rw [if_pos hpat] at hspans
      have hnil : spans = [] := (Option.some.inj hspans).symm
      subst hnil
      intro sp hsp
      simp at hsp
    · rw [if_neg hpat] at hspans
      obtain ⟨h1, h2⟩ := hstart _ rfl
      obtain ⟨spans1, hsp1, -, -, hall, -⟩ := commentSpansLoop_chain h hs he text fuel _ h1 h2
      rw [hsp1] at hspans
      have heq : spans1 = spans := Option.some.inj hspans
      subst heq
      exact hall
  · unfold SyntaxHighlighter.commentSpans at hspans
    by_cases hpat : h.m_blockCommentStart.pattern.isEmpty = true
    · rw [if_pos hpat] at hspans
      have hnil : spans = [] := (Option.some.inj hspans).symm
      subst hnil
      exact List.chain'_nil
    · rw [if_neg hpat] at hspans
      obtain ⟨h1, h2⟩ := hstart _ rfl
      obtain ⟨spans1, hsp1, -, -, -, hchain⟩ := commentSpansLoop_chain h hs he text fuel _ h1 h2
      rw [hsp1] at hspans
      have heq : spans1 = spans := Option.some.inj hspans
      subst heq
      exact hchain

theorem handleMultiLine_scan_terminates_witness :
    ∃ b1 spans, cStyleHighlighter.handleMultiLine 20 "a /* b */ c /* d".toList (-1)
        (BlockHighlight.fresh "a /* b */ c /* d".toList) = some b1 ∧
      cStyleHighlighter.commentSpans 20 "a /* b */ c /* d".toList (-1) = some spans ∧
      (∀ sp ∈ spans, 0 ≤ sp.1 ∧ 0 ≤ sp.2 ∧
        sp.1 + sp.2 ≤ ("a /* b */ c /* d".toList.length : Int)) ∧
      List.Chain' spansAdvance spans ∧
      (∀ p : Nat, p < (BlockHighlight.fresh "a /* b */ c /* d".toList).formats.length →
        (∀ sp ∈ spans, ¬ (sp.1 ≤ (p : Int) ∧ (p : Int) < sp.1 + sp.2)) →
        b1.formats.get? p = (BlockHighlight.fresh "a /* b */ c /* d".toList).formats.get? p) :=
  handleMultiLine_scan_terminates cStyleHighlighter
    (literal_matchesNonEmpty _ _ (by decide)) (literal_matchesNonEmpty _ _ (by decide))
    "a /* b */ c /* d".toList (-1) (BlockHighlight.fresh "a /* b */ c /* d".toList) 20
    (by decide)

/-! ## Block-comment markers across language loads -/

/-- The block-comment patterns are untouched by every loader other than
`loadComments`, and by `loadComments` when the definition has no
`comments.block` entry. -/
theorem loaders_keep_block_patterns
    (engine : QString → QString → Nat → Option QRegularExpressionMatch)
    (sameColor : QColor → QColor → Bool)
    (h : SyntaxHighlighter) (json : LanguageJson) (theme : ThemeJson) :
    ((h.loadKeywords engine json).m_blockCommentStart = h.m_blockCommentStart ∧
      (h.loadKeywords engine json).m_blockCommentEnd = h.m_blockCommentEnd) ∧
    ((h.loadStrings engine json).m_blockCommentStart = h.m_blockCommentStart ∧
      (h.loadStrings engine json).m_blockCommentEnd = h.m_blockCommentEnd) ∧
    ((h.loadHighlightingRules engine json).m_blockCommentStart = h.m_blockCommentStart ∧
      (h.loadHighlightingRules engine json).m_blockCommentEnd = h.m_blockCommentEnd) ∧
    ((h.loadSpecialRules engine json).m_blockCommentStart = h.m_blockCommentStart ∧
      (h.loadSpecialRules engine json).m_blockCommentEnd = h.m_blockCommentEnd) ∧
    ((h.loadTheme sameColor theme).m_blockCommentStart = h.m_blockCommentStart ∧
      (h.loadTheme sameColor theme).m_blockCommentEnd = h.m_blockCommentEnd) ∧
    ((∀ c, json.comments = some c → c.block = none) →
      (h.loadComments engine json).m_blockCommentStart = h.m_blockCommentStart ∧
      (h.loadComments engine json).m_blockCommentEnd = h.m_blockCommentEnd) := by
  obtain ⟨kw, st, cm, hr, sr, th⟩ := json
  obtain ⟨colors⟩ := theme
  refine ⟨?_, ?_, ?_, ?_, ?_, ?_⟩
  · cases kw <;> exact ⟨rfl, rfl⟩
  · cases st <;> exact ⟨rfl, rfl⟩
  · cases hr <;> exact ⟨rfl, rfl⟩
  · cases sr <;> exact ⟨rfl, rfl⟩
  · cases colors <;> exact ⟨rfl, rfl⟩
  · intro hb
    cases cm with
    | none => exact ⟨rfl, rfl⟩
    | some c =>
      obtain ⟨line, block⟩ := c
      have hblock : block = none := hb _ rfl
      subst hblock
      cases line <;> exact ⟨rfl, rfl⟩

/-- C28: `loadLanguage` of a definition without a `comments.block` entry
leaves the block-comment patterns of the language loaded before in force:
they stay as they were, whatever the definition holds otherwise. After the
load of a definition with the markers `/*` and `*/` and then of one with a
line comment only, `handleMultiLine` still formats `/* y` in the line
`x /* y` as a comment and leaves the block inside a comment, and
`checkSyntaxErrors` still reports the unclosed comment. -/
theorem loadLanguage_keeps_old_block_markers :
    (∀ (engine : QString → QString → Nat → Option QRegularExpressionMatch)
      (sameColor : QColor → QColor → Bool)
      (h : SyntaxHighlighter) (language : QString) (json : LanguageJson),
      (∀ c, json.comments = some c → c.block = none) →
      (SyntaxHighlighter.loadLanguage engine sameColor h language
        (some (some json))).1.m_blockCommentStart = h.m_blockCommentStart ∧
      (SyntaxHighlighter.loadLanguage engine sameColor h language
        (some (some json))).1.m_blockCommentEnd = h.m_blockCommentEnd ∧
      (SyntaxHighlighter.loadLanguage engine sameColor h language
        (some (some json))).2 = [HighlighterEvent.languageLoaded language]) ∧
    lineCommentLanguage.comments.map (fun c => c.block) = some none ∧
    switchedHighlighter.m_currentLanguage = "py".toList ∧
    switchedHighlighter.m_rules.map (fun r => r.pattern.pattern) = ["#.*".toList] ∧
    switchedHighlighter.m_blockCommentStart.pattern = "/\\*".toList ∧
    switchedHighlighter.m_blockCommentEnd.pattern = "\\*/".toList ∧
    (switchedHighlighter.handleMultiLine ("x /* y".toList.length + 2) "x /* y".toList (-1)
        (BlockHighlight.fresh "x /* y".toList)).map
      (fun b => (b.formats.map (fun f => decide (f = commentFormat defaultThemeColors)),
        b.currentBlockState)) =
      some ([false, false, true, true, true, true], 1) ∧
    switchedHighlighter.checkSyntaxErrors "x /* y".toList = SyntaxError.UnclosedComment := by
  refine ⟨?_, by decide, by decide, by decide, by decide, by decide, by decide, by decide⟩
  intro engine sameColor h language json hb
  refine ⟨?_, ?_, rfl⟩
  · simp only [SyntaxHighlighter.loadLanguage, Option.getD]
    have e1 := (loaders_keep_block_patterns engine sameColor (h.cleared language) json ThemeJson.empty).1
    have e2 := (loaders_keep_block_patterns engine sameColor
      ((h.cleared language).loadKeywords engine json) json ThemeJson.empty).2.1
    have e3 := (loaders_keep_block_patterns engine sameColor
      (((h.cleared language).loadKeywords engine json).loadStrings engine json) json
      ThemeJson.empty).2.2.2.2.2 hb
    have e4 := (loaders_keep_block_patterns engine sameColor
      ((((h.cleared language).loadKeywords engine json).loadStrings engine json).loadComments
        engine json) json ThemeJson.empty).2.2.1
    have e5 := (loaders_keep_block_patterns engine sameColor
      (((((h.cleared language).loadKeywords engine json).loadStrings engine json).loadComments
        engine json).loadHighlightingRules engine json) json ThemeJson.empty).2.2.2.1
    have e0 : (h.cleared language).m_blockCommentStart = h.m_blockCommentStart := rfl
    cases hth : json.theme with
    | none =>
      simp only []
      rw [e5.1, e4.1, e3.1, e2.1, e1.1, e0]
    | some theme =>
      simp only []
      have e6 := (loaders_keep_block_patterns engine sameColor
        ((((((h.cleared language).loadKeywords engine json).loadStrings engine json).loadComments
          engine json).loadHighlightingRules engine json).loadSpecialRules engine json) json
        theme).2.2.2.2.1
      rw [e6.1, e5.1, e4.1, e3.1, e2.1, e1.1, e0]
  · simp only [SyntaxHighlighter.loadLanguage, Option.getD]
    have e1 := (loaders_keep_block_patterns engine sameColor (h.cleared language) json ThemeJson.empty).1
    have e2 := (loaders_keep_block_patterns engine sameColor
      ((h.cleared language).loadKeywords engine json) json ThemeJson.empty).2.1
    have e3 := (loaders_keep_block_patterns engine sameColor
      (((h.cleared language).loadKeywords engine json).loadStrings engine json) json
      ThemeJson.empty).2.2.2.2.2 hb
    have e4 := (loaders_keep_block_patterns engine sameColor
      ((((h.cleared language).loadKeywords engine json).loadStrings engine json).loadComments
        engine json) json ThemeJson.empty).2.2.1
    have e5 := (loaders_keep_block_patterns engine sameColor
      (((((h.cleared language).loadKeywords engine json).loadStrings engine json).loadComments
        engine json).loadHighlightingRules engine json) json ThemeJson.empty).2.2.2.1
    have e0 : (h.cleared language).m_blockCommentEnd = h.m_blockCommentEnd := rfl
    cases hth : json.theme with
    | none =>
      simp only []
      rw [e5.2, e4.2, e3.2, e2.2, e1.2, e0]
    | some theme =>
      simp only []
      have e6 := (loaders_keep_block_patterns engine sameColor
        ((((((h.cleared language).loadKeywords engine json).loadStrings engine json).loadComments
          engine json).loadHighlightingRules engine json).loadSpecialRules engine json) json
        theme).2.2.2.2.1
      rw [e6.2, e5.2, e4.2, e3.2, e2.2, e1.2, e0]

/-! ## Recent files -/

/-- Qt `value` after `setValue`: the new value under the key, the old one elsewhere. -/
theorem QSettings.value_setValue (m : QSettings) (k j : QString) (v d : QVariant) :
    QSettings.value (QSettings.setValue m k v) j d = if k = j then v else QSettings.value m j d := by
  induction m with
  | nil =>
    by_cases h : k = j <;> simp [QSettings.setValue, QSettings.value, h]
  | cons e rest ih =>
    obtain ⟨k1, v1⟩ := e
    by_cases h1 : k1 = k
    · by_cases h : k = j
      · simp [QSettings.setValue, QSettings.value, h1, h]
      · have h2 : ¬ k1 = j := by rw [h1]; exact h
        simp [QSettings.setValue, QSettings.value, h1, h, h2]
    · by_cases h : k = j
      · subst h
        simp [QSettings.setValue, QSettings.value, h1, ih]
      · by_cases h2 : k1 = j
        · subst h2
          simp [QSettings.setValue, QSettings.value, h1, h]
        · simp [QSettings.setValue, QSettings.value, h1, h, h2, ih]

/-- What `setRecentFiles` stores is what `recentFiles` reads, and the
maximum is untouched. -/
theorem setRecentFiles_get (s : SettingsManager) (files : List QString) :
    (s.setRecentFiles files).recentFiles = files ∧
      (s.setRecentFiles files).maxRecentFiles = s.maxRecentFiles := by
  have hv : SettingsManager.validateSetting "recent_files".toList
      (QVariant.ofStringList files) = true := by
    rfl
  have hs : (s.setRecentFiles files).m_settings =
      QSettings.setValue s.m_settings "recent_files".toList (QVariant.ofStringList files) := by
    unfold SettingsManager.setRecentFiles SettingsManager.set
    rw [hv]
    rfl
  constructor
  · simp only [SettingsManager.recentFiles, SettingsManager.get, hs, QSettings.value_setValue]
    simp [QVariant.ofStringList]
  · simp only [SettingsManager.maxRecentFiles, SettingsManager.get, hs, QSettings.value_setValue]
    rw [if_neg (by decide)]

/-- The loop of `addRecentFile` ends and cuts the list to its first
`maxRecentFiles()` entries when the maximum is not negative. -/
theorem removeLastLoop_take (s : SettingsManager) (h0 : 0 ≤ s.maxRecentFiles) (fuel : Nat) :
    ∀ files : List QString, files.length ≤ fuel + s.maxRecentFiles.toNat →
      SettingsManager.removeLastLoop s fuel files = some (files.take s.maxRecentFiles.toNat) := by
  induction fuel with
  | zero =>
    intro files hlen
    have hle : ¬ (files.length : Int) > s.maxRecentFiles := by omega
    simp only [SettingsManager.removeLastLoop, if_neg hle]
    rw [List.take_of_length_le (by omega)]
  | succ n ih =>
    intro files hlen
    by_cases hgt : (files.length : Int) > s.maxRecentFiles
    · have hne : files.isEmpty = false := by
        cases files with
        | nil => simp at hgt; omega
        | cons a l => rfl
      simp only [SettingsManager.removeLastLoop, if_pos hgt, hne, Bool.false_eq_true, if_false]
      rw [ih files.dropLast (by rw [List.length_dropLast]; omega)]
      rw [List.dropLast_eq_take, List.take_take]
      congr 2
      omega
    · simp only [SettingsManager.removeLastLoop, if_neg hgt]
      rw [List.take_of_length_le (by omega)]

/-- C29: with a maximum of at least 1, `addRecentFile(p)` ends (a loop
budget of as many iterations as the list has entries is enough) and stores
`p` followed by the other entries of the old list in their order, cut at
the end to the maximum: `p` is the first entry and occurs once, what follows
it is a prefix of the old list without `p`, the list is no longer than the
maximum, and the maximum is as before. -/
theorem addRecentFile_moves_to_front (s : SettingsManager) (p : QString) (fuel : Nat)
    (hm : 1 ≤ s.maxRecentFiles) (hfuel : s.recentFiles.length ≤ fuel) :
    ∃ s1, s.addRecentFile fuel p = some s1 ∧
      s1.recentFiles =
        p :: (s.recentFiles.filter (fun f => !decide (f = p))).take
          (s.maxRecentFiles.toNat - 1) ∧
      s1.recentFiles.head? = some p ∧
      s1.recentFiles.count p = 1 ∧
      s1.recentFiles.tail <+: s.recentFiles.filter (fun f => !decide (f = p)) ∧
      (s1.recentFiles.length : Int) ≤ s.maxRecentFiles ∧
      s1.maxRecentFiles = s.maxRecentFiles := by
  have hflen : (s.recentFiles.filter (fun f => !decide (f = p))).length ≤
      s.recentFiles.length := List.length_filter_le _ _
  have hloop := removeLastLoop_take s (by omega) fuel
    (p :: s.recentFiles.filter (fun f => !decide (f = p)))
    (by simp only [List.length_cons]; omega)
  have htake : (p :: s.recentFiles.filter (fun f => !decide (f = p))).take
      s.maxRecentFiles.toNat =
      p :: (s.recentFiles.filter (fun f => !decide (f = p))).take
        (s.maxRecentFiles.toNat - 1) := by
    obtain ⟨k, hk⟩ : ∃ k, s.maxRecentFiles.toNat = k + 1 := ⟨s.maxRecentFiles.toNat - 1, by omega⟩
    rw [hk]
    simp
  rw [htake] at hloop
  have hget := setRecentFiles_get s
    (p :: (s.recentFiles.filter (fun f => !decide (f = p))).take (s.maxRecentFiles.toNat - 1))
  refine ⟨s.setRecentFiles
    (p :: (s.recentFiles.filter (fun f => !decide (f = p))).take (s.maxRecentFiles.toNat - 1)),
    ?_, hget.1, ?_, ?_, ?_, ?_, hget.2⟩
  · unfold SettingsManager.addRecentFile
    simp only [hloop]
  · rw [hget.1]
    rfl
  · rw [hget.1]
    rw [List.count_cons_self]
    have hnot : p ∉ (s.recentFiles.filter (fun f => !decide (f = p))).take
        (s.maxRecentFiles.toNat - 1) := by
      intro hmem
      have h2 := List.mem_of_mem_take hmem
      simp [List.mem_filter] at h2
    rw [List.count_eq_zero_of_not_mem hnot]
  · rw [hget.1]
    exact List.take_prefix _ _
  · rw [hget.1]
    simp only [List.length_cons, List.length_take]
    omega

theorem addRecentFile_moves_to_front_witness :
    ∃ s1, SettingsManager.sample.addRecentFile 4 "c".toList = some s1 ∧
      s1.recentFiles =
        "c".toList :: (SettingsManager.sample.recentFiles.filter
          (fun f => !decide (f = "c".toList))).take
          (SettingsManager.sample.maxRecentFiles.toNat - 1) ∧
      s1.recentFiles.head? = some "c".toList ∧
      s1.recentFiles.count "c".toList = 1 ∧
      s1.recentFiles.tail <+:
        SettingsManager.sample.recentFiles.filter (fun f => !decide (f = "c".toList)) ∧
      (s1.recentFiles.length : Int) ≤ SettingsManager.sample.maxRecentFiles ∧
      s1.maxRecentFiles = SettingsManager.sample.maxRecentFiles :=
  addRecentFile_moves_to_front SettingsManager.sample "c".toList 4 (by decide) (by decide)

/-! ## Version compatibility -/

/-- The match of the version expression at the start of a text: there is
one exactly when the leading digits are followed by a dot and a digit, and
its first group is the leading digits. -/
theorem versionExpression_match (s : QString) :
    ((PluginManager.versionExpression.matchAt s 0).isSome = true ↔
      s.takeWhile Char.isDigit ≠ [] ∧
        (s.drop (s.takeWhile Char.isDigit).length).head? = some '.' ∧
        ((s.drop (s.takeWhile Char.isDigit).length).drop 1).takeWhile Char.isDigit ≠ []) ∧
    ((PluginManager.versionExpression.matchAt s 0).isSome = true →
      captured s (PluginManager.versionExpression.matchAt s 0) 1 = s.takeWhile Char.isDigit) := by
  have hm : PluginManager.versionExpression.matchAt s 0 =
      PluginManager.versionExpression.matchFrom s 0 := by
    simp [QRegularExpression.matchAt]
  rw [hm]
  by_cases hc : s.takeWhile Char.isDigit ≠ [] ∧
        (s.drop (s.takeWhile Char.isDigit).length).head? = some '.' ∧
        ((s.drop (s.takeWhile Char.isDigit).length).drop 1).takeWhile Char.isDigit ≠ []
  · have hv : PluginManager.versionExpression.matchFrom s 0 =
        some { groups := [(0, (((s.takeWhile Char.isDigit).length + 1 +
            (((s.drop (s.takeWhile Char.isDigit).length).drop 1).takeWhile
              Char.isDigit).length : Nat) : Int)),
          (0, ((s.takeWhile Char.isDigit).length : Int)),
          ((((s.takeWhile Char.isDigit).length + 1 : Nat) : Int),
            ((((s.drop (s.takeWhile Char.isDigit).length).drop 1).takeWhile
              Char.isDigit).length : Int))] } := by
      simp only [PluginManager.versionExpression]
      rw [if_pos ⟨trivial, hc⟩]
    rw [hv]
    refine ⟨⟨fun _ => hc, fun _ => rfl⟩, fun _ => ?_⟩
    simp only [captured, capturedStart, capturedLength, List.getD_cons_succ, List.getD_cons_zero]
    simp only [lt_self_iff_false, if_false, Int.toNat_zero, Int.toNat_ofNat, QString.mid,
      List.drop_zero]
    have ht : List.take (s.takeWhile Char.isDigit).length
        (s.takeWhile Char.isDigit ++ s.dropWhile Char.isDigit) = s.takeWhile Char.isDigit :=
      List.take_left' rfl
    rwa [List.takeWhile_append_dropWhile] at ht
  · have hv : PluginManager.versionExpression.matchFrom s 0 = none := by
      simp only [PluginManager.versionExpression]
      rw [if_neg]
      rintro ⟨_, h⟩
      exact hc h
    rw [hv]
    exact ⟨⟨fun h => by simp at h, fun h => absurd h hc⟩, fun h => by simp at h⟩

/-- The wording `begins with <digits>.<digits>` against the scan of the
leading digits. -/
theorem beginsWithVersion_iff (s major : QString) :
    beginsWithVersion s major ↔
      major = s.takeWhile Char.isDigit ∧ s.takeWhile Char.isDigit ≠ [] ∧
        (s.drop (s.takeWhile Char.isDigit).length).head? = some '.' ∧
        ((s.drop (s.takeWhile Char.isDigit).length).drop 1).takeWhile Char.isDigit ≠ [] := by
  constructor
  · rintro ⟨minor, rest, hs, hne, hdig, hmne, hmdig⟩
    have htw : s.takeWhile Char.isDigit = major := by
      rw [hs, List.takeWhile_append_of_pos hdig]
      simp [List.takeWhile]
    refine ⟨htw.symm, by rw [htw]; exact hne, ?_, ?_⟩
    · rw [htw]
      rw [hs]
      simp
    · rw [htw]
      rw [hs]
      simp only [List.drop_left, List.drop_succ_cons, List.drop_zero]
      cases minor with
      | nil => exact absurd rfl hmne
      | cons c cs =>
        have hc : c.isDigit = true := hmdig c (List.mem_cons_self _ _)
        simp [List.takeWhile, hc]
  · rintro ⟨hmaj, hne, hdot, hmin⟩
    subst hmaj
    refine ⟨((s.drop (s.takeWhile Char.isDigit).length).drop 1).takeWhile Char.isDigit,
      ((s.drop (s.takeWhile Char.isDigit).length).drop 1).dropWhile Char.isDigit,
      ?_, hne, ?_, hmin, ?_⟩
    · rw [List.takeWhile_append_dropWhile]
      have h1 : s = s.takeWhile Char.isDigit ++ s.drop (s.takeWhile Char.isDigit).length := by
        have h2 := List.take_append_drop (s.takeWhile Char.isDigit).length s
        have ht : List.take (s.takeWhile Char.isDigit).length
            (s.takeWhile Char.isDigit ++ s.dropWhile Char.isDigit) = s.takeWhile Char.isDigit :=
          List.take_left' rfl
        rw [List.takeWhile_append_dropWhile] at ht
        rw [ht] at h2
        exact h2.symm
      cases hd : s.drop (s.takeWhile Char.isDigit).length with
      | nil => rw [hd] at hdot; simp at hdot
      | cons c cs =>
        rw [hd] at hdot
        simp only [List.head?_cons, Option.some.injEq] at hdot
        subst hdot
        simp only [List.drop_succ_cons, List.drop_zero]
        rw [← hd]
        exact h1
    · intro c hc
      exact List.mem_takeWhile_imp hc
    · intro c hc
      exact List.mem_takeWhile_imp hc

/-- C30: `isVersionCompatible` is true exactly when both version strings
begin with `<digits>.<digits>` and the digit strings before the first dot
are the same text. It is therefore symmetric, true of a well-formed version
and itself, independent of what follows the major number, and false as soon
as one of the two strings is malformed; the major numbers are compared as
text, so that `1.2` and `01.2` are not compatible. -/
theorem isVersionCompatible_iff_same_major :
    (∀ p e : QString, PluginManager.isVersionCompatible p e = true ↔
      ∃ major, beginsWithVersion p major ∧ beginsWithVersion e major) ∧
    (∀ p e : QString,
      PluginManager.isVersionCompatible p e = PluginManager.isVersionCompatible e p) ∧
    (∀ p major : QString, beginsWithVersion p major →
      PluginManager.isVersionCompatible p p = true) ∧
    (∀ major minor1 rest1 minor2 rest2 : QString,
      major ≠ [] → (∀ c ∈ major, c.isDigit = true) →
      minor1 ≠ [] → (∀ c ∈ minor1, c.isDigit = true) →
      minor2 ≠ [] → (∀ c ∈ minor2, c.isDigit = true) →
      PluginManager.isVersionCompatible (major ++ '.' :: (minor1 ++ rest1))
        (major ++ '.' :: (minor2 ++ rest2)) = true) ∧
    (∀ p e : QString, (¬ ∃ major, beginsWithVersion p major) →
      PluginManager.isVersionCompatible p e = false ∧
      PluginManager.isVersionCompatible e p = false) ∧
    PluginManager.isVersionCompatible "1.2.3".toList "1.5".toList = true ∧
    PluginManager.isVersionCompatible "2.0".toList "1.0".toList = false ∧
    PluginManager.isVersionCompatible "1.2".toList "01.2".toList = false ∧
    PluginManager.isVersionCompatible "1".toList "1".toList = false := by
  have hiff : ∀ p e : QString, PluginManager.isVersionCompatible p e = true ↔
      ∃ major, beginsWithVersion p major ∧ beginsWithVersion e major := by
    intro p e
    unfold PluginManager.isVersionCompatible
    simp only [Bool.and_eq_true, decide_eq_true_eq]
    constructor
    · rintro ⟨⟨hp, he⟩, hcap⟩
      rw [(versionExpression_match p).2 hp, (versionExpression_match e).2 he] at hcap
      have hp1 := (versionExpression_match p).1.mp hp
      have he1 := (versionExpression_match e).1.mp he
      refine ⟨p.takeWhile Char.isDigit, ?_, ?_⟩
      · exact (beginsWithVersion_iff p _).mpr ⟨rfl, hp1⟩
      · exact (beginsWithVersion_iff e _).mpr ⟨hcap, he1⟩
    · rintro ⟨major, hp, he⟩
      have hp1 := (beginsWithVersion_iff p major).mp hp
      have he1 := (beginsWithVersion_iff e major).mp he
      have hps := (versionExpression_match p).1.mpr hp1.2
      have hes := (versionExpression_match e).1.mpr he1.2
      refine ⟨⟨hps, hes⟩, ?_⟩
      rw [(versionExpression_match p).2 hps, (versionExpression_match e).2 hes]
      rw [← hp1.1, ← he1.1]
  have hsymm : ∀ p e : QString,
      PluginManager.isVersionCompatible p e = PluginManager.isVersionCompatible e p := by
    intro p e
    rw [Bool.eq_iff_iff, hiff p e, hiff e p]
    constructor
    · rintro ⟨m, h1, h2⟩
      exact ⟨m, h2, h1⟩
    · rintro ⟨m, h1, h2⟩
      exact ⟨m, h2, h1⟩
  refine ⟨hiff, hsymm, ?_, ?_, ?_, by decide, by decide, by decide, by decide⟩
  · intro p major hp
    exact (hiff p p).mpr ⟨major, hp, hp⟩
  · intro major minor1 rest1 minor2 rest2 h1 h2 h3 h4 h5 h6
    exact (hiff _ _).mpr ⟨major, ⟨minor1, rest1, rfl, h1, h2, h3, h4⟩,
      ⟨minor2, rest2, rfl, h1, h2, h5, h6⟩⟩
  · intro p e hno
    have h1 : PluginManager.isVersionCompatible p e = false := by
      rw [Bool.eq_false_iff]
      intro h
      obtain ⟨m, hp, _⟩ := (hiff p e).mp h
      exact hno ⟨m, hp⟩
    exact ⟨h1, by rw [hsymm e p]; exact h1⟩

end MangoEditor
